import Mathlib

/-!
Verification of the `file_utils` library (`src/file_utils.py`): a shallow embedding
of its three components (`FileReader`, `FileWriter`, `FileUtils`) over an explicit
filesystem state, together with proofs about the claims of the specification.

Modelling conventions, fixed once here:

* The filesystem is an association list from path strings to entries.  A regular
  file stores its decoded content when its bytes decode in the character encoding
  used by the call (all calls in the claims use the library default `utf-8`), and
  is `binary` when they do not (Python raises `UnicodeDecodeError`).  `blocked`
  models an existing regular file whose `open` fails with a permission or device
  `OSError`.
* The platform is POSIX (Linux), matching the repository's development platform:
  `os.sep = '/'`, `os.linesep = '\n'`.  Python text mode with `newline=None`
  translates `'\n'` to `os.linesep` on write (the identity here) and applies
  universal-newline translation (`"\r\n" -> "\n"`, `"\r" -> "\n"`) on read.
  `csv` calls open files with `newline=''`, which disables both translations.
* The error taxonomy of the spec maps Python exception classes as follows:
  `FileNotFoundError -> NotFound`; `UnicodeDecodeError`, `json.JSONDecodeError`,
  `yaml.YAMLError` (all decode/parse failures of the target format) `-> ParseError`;
  every other `OSError`/`IOError -> IOFailure`; `ValueError -> InvalidArgument`.
* Readers return `Except`: an error carries no value, so no partial result is
  ever returned on failure.  Writers return the new filesystem together with an
  optional error; a partially written file is visible in the returned filesystem.
* JSON and YAML numbers are restricted to integers: floating point is outside
  the embedding.
-/

deriving instance DecidableEq for Except

/-- Error taxonomy of the spec (section 7), with the message the library attaches. -/
inductive FileError where
  | NotFound (msg : String)
  | ParseError (msg : String)
  | IOFailure (msg : String)
  | InvalidArgument (msg : String)
  deriving DecidableEq

def FileError.isNotFound : FileError → Bool
  | .NotFound _ => true
  | _ => false

def FileError.isParseError : FileError → Bool
  | .ParseError _ => true
  | _ => false

def FileError.isIOFailure : FileError → Bool
  | .IOFailure _ => true
  | _ => false

def FileError.isInvalidArgument : FileError → Bool
  | .InvalidArgument _ => true
  | _ => false

/-- Content of a regular file, relative to the character encoding of the call:
`text s` when the stored bytes decode to `s`, `binary` when decoding fails
(Python raises `UnicodeDecodeError`). -/
inductive FileContent where
  | text (s : String)
  | binary
  deriving DecidableEq

/-- A filesystem entry: a readable regular file, a directory, or an existing
regular file whose `open` raises a permission or device `OSError` (`blocked`). -/
inductive Entry where
  | file (c : FileContent)
  | dir
  | blocked
  deriving DecidableEq

/-- The filesystem: an association list from path strings to entries.  The first
binding of a path wins; a real filesystem has at most one. -/
abbrev FS := List (String × Entry)

def fsLookup : FS → String → Option Entry
  | [], _ => none
  | (q, e) :: rest, p => if q = p then some e else fsLookup rest p

/-- Models `os.path.exists`. -/
def pathExists (fs : FS) (p : String) : Bool :=
  (fsLookup fs p).isSome

/-- Models `os.path.isfile`: true exactly for regular files (readable or not). -/
def isfile (fs : FS) (p : String) : Bool :=
  match fsLookup fs p with
  | some (.file _) => true
  | some .blocked => true
  | _ => false

/-- An existing entry that is not a directory. -/
def isNonDir (fs : FS) (p : String) : Bool :=
  match fsLookup fs p with
  | some (.file _) => true
  | some .blocked => true
  | _ => false

/-- Replace the first binding of `p` (or append one): the effect of a
truncating write of decoded-or-not content `c` to `p`. -/
def setFileC : FS → String → FileContent → FS
  | [], p, c => [(p, .file c)]
  | (q, e) :: rest, p, c =>
    if q = p then (p, .file c) :: rest else (q, e) :: setFileC rest p c

def setFile (fs : FS) (p s : String) : FS :=
  setFileC fs p (.text s)

/-- Universal-newline translation applied by Python text-mode reads with
`newline=None`: each `"\r\n"` and each lone `"\r"` becomes `"\n"`. -/
def univNL : List Char → List Char
  | [] => []
  | '\r' :: '\n' :: rest => '\n' :: univNL rest
  | '\r' :: rest => '\n' :: univNL rest
  | c :: rest => c :: univNL rest

def univNewlines (s : String) : String :=
  String.mk (univNL s.data)

/-- Models `open(p, 'r', encoding=...)` plus the per-call decode of the content:
missing path raises `FileNotFoundError`; a directory or blocked entry raises an
`OSError` other than `FileNotFoundError`. -/
def openRead (fs : FS) (p : String) : Except FileError FileContent :=
  match fsLookup fs p with
  | none => .error (.NotFound ("文件不存在: " ++ p))
  | some .dir => .error (.IOFailure ("读取文件失败: " ++ p))
  | some .blocked => .error (.IOFailure ("读取文件失败: " ++ p))
  | some (.file c) => .ok c

/-- `FileReader.read_text`: the full decoded content, after universal-newline
translation.  Undecodable bytes raise `UnicodeDecodeError` (kind `ParseError`). -/
def read_text (fs : FS) (p : String) : Except FileError String :=
  match openRead fs p with
  | .error e => .error e
  | .ok .binary => .error (.ParseError ("'utf-8' codec can't decode byte: " ++ p))
  | .ok (.text s) => .ok (univNewlines s)

/-- Splits a translated text into lines, each line keeping its trailing `'\n'`
(the semantics of Python `f.readlines()` after newline translation). -/
def splitLinesKeep : List Char → List (List Char)
  | [] => []
  | c :: rest =>
    if c = '\n' then ['\n'] :: splitLinesKeep rest
    else
      match splitLinesKeep rest with
      | [] => [[c]]
      | l :: ls => (c :: l) :: ls

/-- `FileReader.read_lines`. -/
def read_lines (fs : FS) (p : String) : Except FileError (List String) :=
  match openRead fs p with
  | .error e => .error e
  | .ok .binary => .error (.ParseError ("'utf-8' codec can't decode byte: " ++ p))
  | .ok (.text s) => .ok ((splitLinesKeep (univNL s.data)).map String.mk)

/-- The parent directory string of `p`, following `posixpath`: `none` when `p`
has no `'/'` (a bare name is created in the current directory, which exists). -/
def parentDir (p : String) : Option String :=
  let cs := p.data
  let pre := (cs.reverse.dropWhile (fun c => c ≠ '/')).reverse
  match pre with
  | [] => none
  | ['/'] => some "/"
  | l => some (String.mk (l.dropLast))

/-- Whether `open(p, 'w')` can create `p` when it does not exist: its parent
directory must exist.  The filesystem root and the current directory exist. -/
def parentOk (fs : FS) (p : String) : Bool :=
  match parentDir p with
  | none => true
  | some "/" => true
  | some d =>
    match fsLookup fs d with
    | some .dir => true
    | _ => false

/-- Models `open(p, mode)` for writing modes: `none` when the open succeeds.
Opening a directory, a blocked entry, or a path with a missing parent raises an
`OSError`, which every writer of the library catches as `IOError` and re-raises
(kind `IOFailure`). -/
def openWrite (fs : FS) (p : String) : Option FileError :=
  match fsLookup fs p with
  | some .dir => some (.IOFailure ("写入文件失败: " ++ p))
  | some .blocked => some (.IOFailure ("写入文件失败: " ++ p))
  | some (.file _) => none
  | none =>
    if parentOk fs p then none else some (.IOFailure ("写入文件失败: " ++ p))

/-- `FileWriter.write_text`: truncating write for mode `"w"`, append for `"a"`.
On POSIX the `'\n' -> os.linesep` write translation is the identity.  Appending
to an undecodable file leaves it undecodable. -/
def write_text (fs : FS) (p content : String) (mode : String) : FS × Option FileError :=
  match openWrite fs p with
  | some e => (fs, some e)
  | none =>
    if mode = "a" then
      match fsLookup fs p with
      | some (.file (.text old)) => (setFile fs p (old ++ content), none)
      | some (.file .binary) => (setFileC fs p .binary, none)
      | _ => (setFile fs p content, none)
    else (setFile fs p content, none)

/-- `FileWriter.write_lines`: `f.writelines(lines)` concatenates the strings
verbatim, so it writes exactly their concatenation. -/
def write_lines (fs : FS) (p : String) (lines : List String) (mode : String) :
    FS × Option FileError :=
  write_text fs p (String.join lines) mode

/-- The base name: the characters after the last `'/'` (all of them when there
is none). -/
def afterLastSlash (cs : List Char) : List Char :=
  (cs.reverse.takeWhile (fun c => c ≠ '/')).reverse

/-- `os.path.splitext(p)[1]` on POSIX.  CPython computes the last indices of
`'/'` and `'.'` and returns the suffix from the last `'.'` when it lies inside
the base name and some character of the base name before it is not a `'.'`
(so a leading run of dots, as in `".bashrc"`, never starts an extension).
Equivalently, as implemented here: strip the base name's leading dots; if a
`'.'` remains, the extension is the suffix from the last `'.'`, else it is
empty. -/
def splitextExt (p : String) : String :=
  let b := afterLastSlash p.data
  let r := b.dropWhile (fun c => c = '.')
  if r.contains '.' then
    String.mk ('.' :: (r.reverse.takeWhile (fun c => c ≠ '.')).reverse)
  else ""

/-- `FileUtils.get_file_extension`. -/
def get_file_extension (p : String) : String :=
  splitextExt p

/-- The largest index of `c` in `cs`, if any. -/
def lastIdxOf? : List Char → Char → Option Nat
  | [], _ => none
  | a :: rest, c =>
    match lastIdxOf? rest c with
    | some j => some (j + 1)
    | none => if a = c then some 0 else none

/-- The extension rule exactly as the claim states it: the substring of the base
name from (and including) its final `'.'`, or `""` when the base name has no
`'.'`. -/
def claimExtension (p : String) : String :=
  let b := afterLastSlash p.data
  match lastIdxOf? b '.' with
  | none => ""
  | some j => String.mk (b.drop j)

/-- The claim's rule amended as the code forces: additionally `""` when every
character of the base name before its final `'.'` is itself a `'.'`. -/
def amendedExtension (p : String) : String :=
  let b := afterLastSlash p.data
  match lastIdxOf? b '.' with
  | none => ""
  | some j => if (b.take j).any (fun c => c ≠ '.') then String.mk (b.drop j) else ""

/-- All proper prefixes of `p` that end just before a `'/'` (skipping the empty
prefix): the ancestor directories `os.makedirs` would have to create. -/
def slashAncestors (p : String) : List String :=
  (List.range p.data.length).filterMap (fun i =>
    if 0 < i ∧ p.data.get? i = some '/' then some (String.mk (p.data.take i)) else none)

def addDirIfMissing (fs : FS) (p : String) : FS :=
  if pathExists fs p then fs else fs ++ [(p, .dir)]

/-- `FileUtils.ensure_dir`: no-op when `os.path.exists(directory)`; otherwise
`os.makedirs(directory)` creates every missing ancestor and the directory, and
raises an `OSError` (caught and re-raised as `IOError`, kind `IOFailure`) when
an existing ancestor is not a directory, creating nothing. -/
def ensure_dir (fs : FS) (p : String) : FS × Option FileError :=
  if pathExists fs p then (fs, none)
  else if (slashAncestors p).any (fun a => isNonDir fs a) then
    (fs, some (.IOFailure ("创建目录失败: " ++ p)))
  else ((slashAncestors p ++ [p]).foldl addDirIfMissing fs, none)

/-- `d` with exactly one trailing separator, as `os.path.join` produces before
appending a relative component (`""` stays empty: joining to `""` is the
identity). -/
def joinSep (d : String) : List Char :=
  if d = "" then []
  else
    match d.data.getLast? with
    | some '/' => d.data
    | _ => d.data ++ ['/']

/-- `posixpath.join` for two components. -/
def osPathJoin (d f : String) : String :=
  if f.data.head? = some '/' then f
  else String.mk (joinSep d ++ f.data)

/-- The name under which key `k` is a direct child of directory `d`, if any:
`k = d ++ "/" ++ n` with `n` nonempty and slash-free. -/
def childName (d k : String) : Option String :=
  let pre := joinSep d
  if pre.isPrefixOf k.data then
    let n := k.data.drop pre.length
    if n ≠ [] ∧ ¬ n.contains '/' then some (String.mk n) else none
  else none

/-- Models `os.listdir d`: the names of the entries directly inside `d`, in
filesystem order. -/
def listdir (fs : FS) (d : String) : List String :=
  fs.filterMap (fun kv => childName d kv.1)

/-- Python `name.endswith(ext)` filtering of `list_files`. -/
def extMatch (ext : Option String) (name : String) : Bool :=
  match ext with
  | none => true
  | some e => e.data.isSuffixOf name.data

/-- `FileUtils.list_files`: `FileNotFoundError` when the path does not exist;
otherwise `os.listdir` (which raises an uncaught `OSError`, kind `IOFailure`,
when the existing path is not a directory), keeping exactly the regular files,
joined to `directory`, filtered by literal suffix when `extension` is given. -/
def list_files (fs : FS) (d : String) (ext : Option String) :
    Except FileError (List String) :=
  if pathExists fs d = false then .error (.NotFound ("目录不存在: " ++ d))
  else
    match fsLookup fs d with
    | some .dir =>
      .ok ((listdir fs d).filterMap (fun name =>
        if isfile fs (osPathJoin d name) && extMatch ext name then
          some (osPathJoin d name)
        else none))
    | _ => .error (.IOFailure ("无法列出目录: " ++ d))

/-- `FileUtils.file_exists`: `os.path.isfile`. -/
def file_exists (fs : FS) (p : String) : Bool :=
  isfile fs p

/-! ### JSON values and the `json` module

`json.dump(data, f, ensure_ascii=False, indent=indent)` and `json.load(f)`,
restricted to the structured-record type of the spec (strings, integers,
booleans, null, sequences, mappings with string keys).  Floating-point numbers
are outside the embedding; the parser reports them as unsupported. -/

mutual
inductive JVal where
  | null
  | bool (b : Bool)
  | num (n : Int)
  | str (s : String)
  | arr (xs : JArr)
  | obj (kvs : JObj)
  deriving DecidableEq
inductive JArr where
  | nil
  | cons (v : JVal) (rest : JArr)
  deriving DecidableEq
inductive JObj where
  | nil
  | cons (k : String) (v : JVal) (rest : JObj)
  deriving DecidableEq
end

def hexDigitChar (n : Nat) : Char :=
  Char.ofNat (if n < 10 then 48 + n else 87 + n)

/-- Decimal digits of `n`, most significant first (fuel-structural so that it
evaluates in the kernel; the fuel `n + 1` always suffices). -/
def natDigitsAux : Nat → Nat → List Char
  | 0, _ => []
  | fuel + 1, n =>
    if n < 10 then [Char.ofNat (48 + n)]
    else natDigitsAux fuel (n / 10) ++ [Char.ofNat (48 + n % 10)]

def natDigits (n : Nat) : List Char :=
  natDigitsAux (n + 1) n

/-- Python `repr` of an `int`. -/
def intRepr (n : Int) : List Char :=
  if n < 0 then '-' :: natDigits n.natAbs else natDigits n.natAbs

/-- The escaping of one character by `json.dump` with `ensure_ascii=False`:
only the quote, the backslash and control characters are escaped; everything
else, non-ASCII included, is written literally. -/
def escChar (c : Char) : List Char :=
  if c = '"' then ['\\', '"']
  else if c = '\\' then ['\\', '\\']
  else if c = '\n' then ['\\', 'n']
  else if c = '\t' then ['\\', 't']
  else if c = '\r' then ['\\', 'r']
  else if c.toNat = 8 then ['\\', 'b']
  else if c.toNat = 12 then ['\\', 'f']
  else if c.toNat < 32 then
    ['\\', 'u', '0', '0', hexDigitChar (c.toNat / 16), hexDigitChar (c.toNat % 16)]
  else [c]

def escStr (s : String) : List Char :=
  '"' :: (s.data.map escChar).flatten ++ ['"']

/-- The newline-plus-indentation separator `json.dump` emits with an integer
`indent`. -/
def jnl (indent lvl : Nat) : List Char :=
  '\n' :: List.replicate (indent * lvl) ' '

mutual
/-- `json.dump` with `ensure_ascii=False` and integer `indent`: items one per
line, item separator `","`, key separator `": "`, empty containers inline. -/
def jdump (indent lvl : Nat) : JVal → List Char
  | .null => ['n', 'u', 'l', 'l']
  | .bool b => if b then ['t', 'r', 'u', 'e'] else ['f', 'a', 'l', 's', 'e']
  | .num n => intRepr n
  | .str s => escStr s
  | .arr .nil => ['[', ']']
  | .arr (.cons v rest) =>
    '[' :: jnl indent (lvl + 1) ++ jdump indent (lvl + 1) v ++
      jdumpArr indent (lvl + 1) rest ++ jnl indent lvl ++ [']']
  | .obj .nil => ['{', '}']
  | .obj (.cons k v rest) =>
    '{' :: jnl indent (lvl + 1) ++ escStr k ++ ':' :: ' ' ::
      jdump indent (lvl + 1) v ++ jdumpObj indent (lvl + 1) rest ++
      jnl indent lvl ++ ['}']
def jdumpArr (indent lvl : Nat) : JArr → List Char
  | .nil => []
  | .cons v rest =>
    ',' :: jnl indent lvl ++ jdump indent lvl v ++ jdumpArr indent lvl rest
def jdumpObj (indent lvl : Nat) : JObj → List Char
  | .nil => []
  | .cons k v rest =>
    ',' :: jnl indent lvl ++ escStr k ++ ':' :: ' ' :: jdump indent lvl v ++
      jdumpObj indent lvl rest
end

mutual
/-- Fuel bound for the parser: one unit per parser step. -/
def jsize : JVal → Nat
  | .null => 1
  | .bool _ => 1
  | .num _ => 1
  | .str _ => 1
  | .arr xs => 1 + jsizeArr xs
  | .obj kvs => 1 + jsizeObj kvs
def jsizeArr : JArr → Nat
  | .nil => 1
  | .cons v rest => 1 + jsize v + jsizeArr rest
def jsizeObj : JObj → Nat
  | .nil => 1
  | .cons _ v rest => 1 + jsize v + jsizeObj rest
end

def jobjHasKey : JObj → String → Bool
  | .nil, _ => false
  | .cons k _ rest, q => if k = q then true else jobjHasKey rest q

mutual
/-- Well-formedness as a Python value: mapping keys are distinct at every
level (a Python `dict` cannot hold a duplicate key). -/
def jwf : JVal → Bool
  | .null => true
  | .bool _ => true
  | .num _ => true
  | .str _ => true
  | .arr xs => jwfArr xs
  | .obj kvs => jwfObj kvs
def jwfArr : JArr → Bool
  | .nil => true
  | .cons v rest => jwf v && jwfArr rest
def jwfObj : JObj → Bool
  | .nil => true
  | .cons k v rest => !jobjHasKey rest k && jwf v && jwfObj rest
end

/-- Assigning `m[k] = v` on a Python dict: replaces in place when the key is
present, appends otherwise. -/
def jobjInsert : JObj → String → JVal → JObj
  | .nil, k, v => .cons k v .nil
  | .cons k' v' rest, k, v =>
    if k' = k then .cons k' v rest else .cons k' v' (jobjInsert rest k v)

def jobjDedupAux : JObj → JObj → JObj
  | acc, .nil => acc
  | acc, .cons k v rest => jobjDedupAux (jobjInsert acc k v) rest

/-- The dict `json.load` builds from a member list: later duplicate keys
overwrite earlier ones in place. -/
def jobjDedup (m : JObj) : JObj :=
  jobjDedupAux .nil m

def isJsonWs (c : Char) : Bool :=
  c = ' ' ∨ c = '\t' ∨ c = '\n' ∨ c = '\r'

def jskipWs (cs : List Char) : List Char :=
  cs.dropWhile isJsonWs

def hexVal (c : Char) : Option Nat :=
  if 48 ≤ c.toNat ∧ c.toNat ≤ 57 then some (c.toNat - 48)
  else if 97 ≤ c.toNat ∧ c.toNat ≤ 102 then some (c.toNat - 87)
  else if 65 ≤ c.toNat ∧ c.toNat ≤ 70 then some (c.toNat - 55)
  else none

/-- Four hex digits of a `\\uXXXX` escape. -/
def hexVal4 (h1 h2 h3 h4 : Char) : Option Nat :=
  match hexVal h1, hexVal h2, hexVal h3, hexVal h4 with
  | some a, some b, some c, some d => some (a * 4096 + b * 256 + c * 16 + d)
  | _, _, _, _ => none

/-- The character denoted by a single-letter escape. -/
def jescCharOf (e : Char) : Option Char :=
  if e = '"' then some '"'
  else if e = '\\' then some '\\'
  else if e = '/' then some '/'
  else if e = 'b' then some (Char.ofNat 8)
  else if e = 'f' then some (Char.ofNat 12)
  else if e = 'n' then some '\n'
  else if e = 'r' then some '\r'
  else if e = 't' then some '\t'
  else none

/-- The body of a JSON string after the opening quote, strict mode: literal
control characters are rejected; `\\uXXXX` escapes are resolved, pairing
surrogates.  A lone surrogate escape denotes a string Python can represent but
a Unicode scalar sequence cannot, so it is outside the embedding and rejected
here; the printer never emits one. -/
def jparseStrBody : List Char → Option (List Char × List Char)
  | [] => none
  | '"' :: rest => some ([], rest)
  | '\\' :: 'u' :: h1 :: h2 :: h3 :: h4 :: rest =>
    match hexVal4 h1 h2 h3 h4 with
    | none => none
    | some v =>
      if 55296 ≤ v ∧ v ≤ 56319 then
        match rest with
        | '\\' :: 'u' :: k1 :: k2 :: k3 :: k4 :: rest2 =>
          match hexVal4 k1 k2 k3 k4 with
          | none => none
          | some w =>
            if 56320 ≤ w ∧ w ≤ 57343 then
              (jparseStrBody rest2).map (fun p =>
                (Char.ofNat (65536 + (v - 55296) * 1024 + (w - 56320)) :: p.1, p.2))
            else none
        | _ => none
      else if 56320 ≤ v ∧ v ≤ 57343 then none
      else (jparseStrBody rest).map (fun p => (Char.ofNat v :: p.1, p.2))
  | '\\' :: e :: rest =>
    match jescCharOf e with
    | some ch => (jparseStrBody rest).map (fun p => (ch :: p.1, p.2))
    | none => none
  | c :: rest =>
    if c.toNat < 32 then none
    else (jparseStrBody rest).map (fun p => (c :: p.1, p.2))

def isDigitCh (c : Char) : Bool :=
  48 ≤ c.toNat ∧ c.toNat ≤ 57

def digitsToNat (ds : List Char) : Nat :=
  ds.foldl (fun a c => a * 10 + (c.toNat - 48)) 0

/-- The digit run of a strict JSON number: nonempty, no leading zeros, and a
following `'.'`, `'e'` or `'E'` makes it a float, which is outside the
embedding. -/
def jparseNumNat (cs : List Char) : Option (Nat × List Char) :=
  let ds := cs.takeWhile isDigitCh
  let rest := cs.dropWhile isDigitCh
  if ds = [] then none
  else if ds.head? = some '0' ∧ ds.length ≠ 1 then none
  else if rest.head? = some '.' ∨ rest.head? = some 'e' ∨ rest.head? = some 'E' then
    none
  else some (digitsToNat ds, rest)

/-- A strict JSON number: optional minus, then a digit run. -/
def jparseNum (cs : List Char) : Option (Int × List Char) :=
  match cs with
  | [] => none
  | c :: rest =>
    if c = '-' then (jparseNumNat rest).map (fun p => (-(p.1 : Int), p.2))
    else (jparseNumNat (c :: rest)).map (fun p => ((p.1 : Int), p.2))

mutual
/-- The recursive descent of `json.load` on the embedded value type, with
explicit fuel (one unit per step; `jsize` of the value suffices). -/
def jparseVal : Nat → List Char → Option (JVal × List Char)
  | 0, _ => none
  | fuel + 1, cs =>
    match jskipWs cs with
    | [] => none
    | c :: rest =>
      if c = 'n' then
        match rest with
        | 'u' :: 'l' :: 'l' :: r => some (.null, r)
        | _ => none
      else if c = 't' then
        match rest with
        | 'r' :: 'u' :: 'e' :: r => some (.bool true, r)
        | _ => none
      else if c = 'f' then
        match rest with
        | 'a' :: 'l' :: 's' :: 'e' :: r => some (.bool false, r)
        | _ => none
      else if c = '"' then
        (jparseStrBody rest).map (fun p => (.str (String.mk p.1), p.2))
      else if c = '[' then
        match jskipWs rest with
        | ']' :: r => some (.arr .nil, r)
        | _ => (jparseItems fuel rest).map (fun p => (.arr p.1, p.2))
      else if c = '{' then
        match jskipWs rest with
        | '}' :: r => some (.obj .nil, r)
        | _ => (jparseMembers fuel rest).map (fun p => (.obj (jobjDedup p.1), p.2))
      else
        (jparseNum (c :: rest)).map (fun p => (.num p.1, p.2))
def jparseItems : Nat → List Char → Option (JArr × List Char)
  | 0, _ => none
  | fuel + 1, cs =>
    match jparseVal fuel cs with
    | none => none
    | some (v, rest) =>
      match jskipWs rest with
      | [] => none
      | c :: rest2 =>
        if c = ',' then
          (jparseItems fuel rest2).map (fun p => (.cons v p.1, p.2))
        else if c = ']' then some (.cons v .nil, rest2)
        else none
def jparseMembers : Nat → List Char → Option (JObj × List Char)
  | 0, _ => none
  | fuel + 1, cs =>
    match jskipWs cs with
    | [] => none
    | c :: rest =>
      if c = '"' then
        match jparseStrBody rest with
        | none => none
        | some (kcs, rest2) =>
          match jskipWs rest2 with
          | [] => none
          | c2 :: rest3 =>
            if c2 = ':' then
              match jparseVal fuel rest3 with
              | none => none
              | some (v, rest4) =>
                match jskipWs rest4 with
                | [] => none
                | c3 :: rest5 =>
                  if c3 = ',' then
                    (jparseMembers fuel rest5).map (fun p =>
                      (.cons (String.mk kcs) v p.1, p.2))
                  else if c3 = '}' then some (.cons (String.mk kcs) v .nil, rest5)
                  else none
            else none
      else none
end

/-- `json.loads`, which also demands that nothing but whitespace follow the
document ("Extra data" otherwise). -/
def jsonLoads (s : String) : Option JVal :=
  match jparseVal (s.data.length + 1) s.data with
  | some (v, rest) => if jskipWs rest = [] then some v else none
  | none => none

/-- `FileReader.read_json`: text-mode read (universal newlines), then
`json.load`; a parse failure is `json.JSONDecodeError`, kind `ParseError`. -/
def read_json (fs : FS) (p : String) : Except FileError JVal :=
  match openRead fs p with
  | .error e => .error e
  | .ok .binary => .error (.ParseError ("'utf-8' codec can't decode byte: " ++ p))
  | .ok (.text s) =>
    match jsonLoads (univNewlines s) with
    | some v => .ok v
    | none => .error (.ParseError ("JSON解析失败: " ++ p))

/-- `FileWriter.write_json`: truncating text-mode write of the serialized
document. -/
def write_json (fs : FS) (p : String) (data : JObj) (indent : Nat) :
    FS × Option FileError :=
  match openWrite fs p with
  | some e => (fs, some e)
  | none => (setFile fs p (String.mk (jdump indent 0 (.obj data))), none)

/-- Side conditions used by the parser lemmas. -/
def allWs (ws : List Char) : Prop :=
  ∀ c ∈ ws, isJsonWs c = true

def numStop (rest : List Char) : Prop :=
  ∀ c t, rest = c :: t → isDigitCh c = false ∧ c ≠ '.' ∧ c ≠ 'e' ∧ c ≠ 'E'

def jobjAppend : JObj → JObj → JObj
  | .nil, m => m
  | .cons k v r, m => .cons k v (jobjAppend r m)

/-- UTF-8 encoding of one code point, as byte values (the platform encoding
the writers use with `encoding='utf-8'`). -/
def utf8EncodeCharNat (c : Nat) : List Nat :=
  if c < 128 then [c]
  else if c < 2048 then [192 + c / 64, 128 + c % 64]
  else if c < 65536 then [224 + c / 4096, 128 + (c / 64) % 64, 128 + c % 64]
  else [240 + c / 262144, 128 + (c / 4096) % 64, 128 + (c / 64) % 64, 128 + c % 64]

def utf8Encode (s : List Char) : List Nat :=
  (s.map (fun c => utf8EncodeCharNat c.toNat)).flatten

/-- The record of the specification scenario:
`\x7b"name": "测试", "value": 1\x7d`. -/
def c8R : JObj :=
  .cons "name" (.str "测试") (.cons "value" (.num 1) .nil)

/-! ### CSV: `csv.DictWriter` / `csv.DictReader` with `QUOTE_MINIMAL`,
lineterminator `"\r\n"`, and the file opened with `newline` empty -/

/-- A field must be quoted when it contains the delimiter, the quote char, or a
newline character (`QUOTE_MINIMAL`). -/
def csvNeedsQuote (delim : Char) (s : List Char) : Bool :=
  s.any (fun c => c = delim || c = '"' || c = '\r' || c = '\n')

def csvEscField (s : List Char) : List Char :=
  '"' :: (s.flatMap (fun c => if c = '"' then ['"', '"'] else [c])) ++ ['"']

def csvField (delim : Char) (s : List Char) : List Char :=
  if csvNeedsQuote delim s then csvEscField s else s

def csvJoin (delim : Char) : List (List Char) → List Char
  | [] => []
  | [f] => f
  | f :: rest => f ++ delim :: csvJoin delim rest

/-- One written record: fields joined by the delimiter and terminated by
`"\r\n"`; a lone empty field is quoted so the record is not an empty line. -/
def csvRecordLine (delim : Char) (fields : List (List Char)) : List Char :=
  (match fields with
   | [f] => if f = [] then ['"', '"'] else csvField delim f
   | _ => csvJoin delim (fields.map (csvField delim))) ++ ['\r', '\n']

def rowLookup : List (String × String) → String → Option String
  | [], _ => none
  | (q, v) :: rest, k => if q = k then some v else rowLookup rest k

def resolveFieldnames (rows : List (List (String × String)))
    (fieldnames : Option (List String)) : List String :=
  match fieldnames with
  | some f => f
  | none => (rows.headD []).map Prod.fst

/-- `csv.DictWriter.writerows`: each row in order; a key outside the fieldnames
raises `ValueError` (kind `InvalidArgument`), keeping the lines already
written; a missing key writes the restval `None`, i.e. an empty field. -/
def csvRowsOut (delim : Char) (fns : List String) :
    List (List (String × String)) → (List Char × Option FileError)
  | [] => ([], none)
  | r :: rest =>
    if r.any (fun kv => !(fns.contains kv.1)) then
      ([], some (.InvalidArgument "dict contains fields not in fieldnames"))
    else
      let line := csvRecordLine delim (fns.map (fun k => ((rowLookup r k).getD "").data))
      let out := csvRowsOut delim fns rest
      (line ++ out.1, out.2)

/-- `FileWriter.write_csv`: the two `ValueError` guards run before any file
access; then header plus rows are written. -/
def write_csv (fs : FS) (p : String) (rows : List (List (String × String)))
    (fieldnames : Option (List String)) (delim : Char) : FS × Option FileError :=
  if rows = [] then (fs, some (.InvalidArgument "数据不能为空"))
  else if resolveFieldnames rows fieldnames = [] then
    (fs, some (.InvalidArgument "字段名不能为空"))
  else
    match openWrite fs p with
    | some e => (fs, some e)
    | none =>
      (setFile fs p (String.mk
        (csvRecordLine delim ((resolveFieldnames rows fieldnames).map String.data) ++
          (csvRowsOut delim (resolveFieldnames rows fieldnames) rows).1)),
        (csvRowsOut delim (resolveFieldnames rows fieldnames) rows).2)

def dropLF : List Char → List Char
  | '\n' :: r => r
  | r => r

/-- An unquoted field: up to the delimiter or an end of record (`"\r\n"`,
lone `'\r'` or lone `'\n'` all end a record when the file is opened with
`newline` empty); the Bool is true when the record continues with another field. -/
def csvTakeUnquoted (delim : Char) : List Char → (List Char × Bool × List Char)
  | [] => ([], false, [])
  | c :: rest =>
    if c = delim then ([], true, rest)
    else if c = '\r' then ([], false, dropLF rest)
    else if c = '\n' then ([], false, rest)
    else
      let out := csvTakeUnquoted delim rest
      (c :: out.1, out.2.1, out.2.2)

/-- After the closing quote of a quoted field: delimiter or end of record; any
other character is appended and the field continues unquoted (non-strict
dialect). -/
def csvAfterQuote (delim : Char) : List Char → (List Char × Bool × List Char)
  | [] => ([], false, [])
  | c :: rest =>
    if c = delim then ([], true, rest)
    else if c = '\r' then ([], false, dropLF rest)
    else if c = '\n' then ([], false, rest)
    else
      let out := csvTakeUnquoted delim rest
      (c :: out.1, out.2.1, out.2.2)

/-- Inside a quoted field: `'""'` is a literal quote, a single `'"'` closes. -/
def csvTakeQuoted (delim : Char) : List Char → (List Char × Bool × List Char)
  | [] => ([], false, [])
  | '"' :: '"' :: r2 =>
    let out := csvTakeQuoted delim r2
    ('"' :: out.1, out.2.1, out.2.2)
  | '"' :: rest => csvAfterQuote delim rest
  | c :: rest =>
    let out := csvTakeQuoted delim rest
    (c :: out.1, out.2.1, out.2.2)

def csvFields (delim : Char) : Nat → List Char → (List (List Char) × List Char)
  | 0, cs => ([], cs)
  | fuel + 1, cs =>
    let out :=
      match cs with
      | '"' :: rest => csvTakeQuoted delim rest
      | _ => csvTakeUnquoted delim cs
    if out.2.1 then
      let next := csvFields delim fuel out.2.2
      (out.1 :: next.1, next.2)
    else ([out.1], out.2.2)

/-- The record sequence of the csv reader: an empty line is a record with no
fields. -/
def csvRecords (delim : Char) : Nat → List Char → List (List (List Char))
  | 0, _ => []
  | fuel + 1, cs =>
    match cs with
    | [] => []
    | '\r' :: rest => [] :: csvRecords delim fuel (dropLF rest)
    | '\n' :: rest => [] :: csvRecords delim fuel rest
    | _ =>
      let out := csvFields delim (fuel + 1) cs
      out.1 :: csvRecords delim fuel out.2

/-- One parsed row of `csv.DictReader`: the cells keyed by the fieldnames
(`none` = restval for a missing column) and the overflow cells under the
`None` restkey. -/
structure CsvRow where
  cells : List (String × Option String)
  extra : Option (List String)
deriving DecidableEq

def dinsert : List (String × Option String) → String → Option String →
    List (String × Option String)
  | [], k, v => [(k, v)]
  | (q, w) :: rest, k, v =>
    if q = k then (q, v) :: rest else (q, w) :: dinsert rest k v

/-- `dict(...)` built by inserting pairs in order: a later duplicate key
overwrites in place. -/
def dbuild (ps : List (String × Option String)) : List (String × Option String) :=
  ps.foldl (fun a kv => dinsert a kv.1 kv.2) []

def dictRowOf (fns : List String) (fields : List String) : CsvRow :=
  ⟨dbuild ((fns.zip fields).map (fun kv => (kv.1, some kv.2)) ++
      (fns.drop fields.length).map (fun k => (k, none))),
    if fns.length < fields.length then some (fields.drop fns.length) else none⟩

/-- `FileReader.read_csv`: the first record (even an empty one) is the header;
empty data records are skipped; no csv-level parse failure exists, so only
decode errors surface. -/
def read_csv (fs : FS) (p : String) (delim : Char) :
    Except FileError (List CsvRow) :=
  match openRead fs p with
  | .error e => .error e
  | .ok .binary => .error (.ParseError ("'utf-8' codec can't decode byte: " ++ p))
  | .ok (.text s) =>
    match csvRecords delim (s.data.length + 2) s.data with
    | [] => .ok []
    | header :: recs =>
      let fns := header.map String.mk
      .ok ((recs.filter (fun r => r ≠ [])).map
        (fun r => dictRowOf fns (r.map String.mk)))

def csvPlainChar (delim c : Char) : Prop :=
  c ≠ delim ∧ c ≠ '"' ∧ c ≠ '\r' ∧ c ≠ '\n'

def csvEscBody (s : List Char) : List Char :=
  s.flatMap (fun c => if c = '"' then ['"', '"'] else [c])

def csvDoc (delim : Char) (recs : List (List (List Char))) : List Char :=
  (recs.map (csvRecordLine delim)).flatten

/-! ### YAML: `yaml.safe_load` / `yaml.dump(allow_unicode=True,
default_flow_style=False)`, modeled on a fragment: flat mappings whose keys
and string values are plain alphabetic words that no YAML 1.1 resolver rule
captures, plus null, booleans and decimal integers.  `ydump` returns `none`
outside the fragment; nothing is claimed there. -/

def yplainChar (c : Char) : Bool :=
  ('a' ≤ c ∧ c ≤ 'z') ∨ ('A' ≤ c ∧ c ≤ 'Z')

def ynullWords : List String := ["null", "Null", "NULL", "~"]

def ytrueWords : List String :=
  ["true", "True", "TRUE", "yes", "Yes", "YES", "on", "On", "ON"]

def yfalseWords : List String :=
  ["false", "False", "FALSE", "no", "No", "NO", "off", "Off", "OFF"]

def yamlSpecialWords : List String :=
  ynullWords ++ ytrueWords ++ yfalseWords ++ ["y", "Y", "n", "N"]

/-- A plain scalar the emitter writes unquoted and the resolver reads back as
the same string. -/
def yplainSafe (s : String) : Bool :=
  s.data ≠ [] && s.data.all yplainChar && !(yamlSpecialWords.contains s)

def yscalarRepr : JVal → Option String
  | .null => some "null"
  | .bool true => some "true"
  | .bool false => some "false"
  | .num n => some (String.mk (intRepr n))
  | .str s => if yplainSafe s then some s else none
  | _ => none

/-- Code-point lexicographic order, the comparison Python uses on `str`. -/
def charListLt : List Char → List Char → Bool
  | [], [] => false
  | [], _ :: _ => true
  | _ :: _, [] => false
  | a :: as, b :: bs =>
    if a.toNat < b.toNat then true
    else if b.toNat < a.toNat then false
    else charListLt as bs

def ysortInsert (k : String) (v : JVal) : JObj → JObj
  | .nil => .cons k v .nil
  | .cons q w m =>
    if charListLt k.data q.data then .cons k v (.cons q w m)
    else .cons q w (ysortInsert k v m)

/-- `sorted(mapping.items())`: the default `sort_keys=True` of `yaml.dump`. -/
def ysort : JObj → JObj
  | .nil => .nil
  | .cons k v m => ysortInsert k v (ysort m)

def ydumpLines : JObj → Option (List Char)
  | .nil => some []
  | .cons k v m =>
    match yscalarRepr v, ydumpLines m with
    | some vs, some rest =>
      if yplainSafe k then some (k.data ++ ':' :: ' ' :: (vs.data ++ '
' :: rest))
      else none
    | _, _ => none

/-- The document `yaml.dump` emits for a flat mapping of the fragment: sorted
keys, one `key: value` line per entry; the empty mapping is the flow document
`"\x7b\x7d\n"`. -/
def ydump : JObj → Option String
  | .nil => some (String.mk ['\x7b', '\x7d', '\n'])
  | .cons k v m => (ydumpLines (ysort (.cons k v m))).map String.mk

/-- `FileWriter.write_yaml` on the modeled fragment (`none` = the value is
outside the fragment and nothing is claimed). -/
def write_yaml (fs : FS) (p : String) (data : JObj) :
    Option (FS × Option FileError) :=
  match openWrite fs p with
  | some e => some (fs, some e)
  | none => (ydump data).map (fun s => (setFile fs p s, none))

/-- Plain-scalar resolution of the modeled loader: decimal integers, the YAML
1.1 null/bool words, and plain alphabetic strings. -/
def yresolveScalar (v : List Char) : Option JVal :=
  match jparseNum v with
  | some (n, []) => some (.num n)
  | _ =>
    if ynullWords.contains (String.mk v) then some .null
    else if ytrueWords.contains (String.mk v) then some (.bool true)
    else if yfalseWords.contains (String.mk v) then some (.bool false)
    else if v ≠ [] && v.all yplainChar then some (.str (String.mk v)) else none

/-- A mapping key of the fragment: resolver-neutral, hence a string key. -/
def yresolveKey (k : List Char) : Option String :=
  if k ≠ [] && k.all yplainChar && !(yamlSpecialWords.contains (String.mk k)) then
    some (String.mk k)
  else none

def yparseLines : Nat → List Char → Option JObj
  | 0, _ => none
  | _, [] => some .nil
  | fuel + 1, cs =>
    match cs.dropWhile (fun c => !(c = ':' || c = '\n')) with
    | ':' :: ' ' :: rest2 =>
      match rest2.dropWhile (fun c => !(c = '\n')) with
      | '\n' :: rest3 =>
        match yresolveKey (cs.takeWhile (fun c => !(c = ':' || c = '\n'))),
              yresolveScalar (rest2.takeWhile (fun c => !(c = '\n'))),
              yparseLines fuel rest3 with
        | some k, some v, some m => some (.cons k v m)
        | _, _, _ => none
      | _ => none
    | _ => none

/-- `yaml.safe_load` on the modeled fragment; duplicate keys overwrite in
place as in the underlying dict construction. -/
def yamlLoads (s : String) : Option JVal :=
  if s.data = ['\x7b', '\x7d', '\n'] then some (.obj .nil)
  else (yparseLines (s.data.length + 1) s.data).map (fun m => .obj (jobjDedup m))

/-- `FileReader.read_yaml`: text-mode read, then the safe loader; a loader
failure is `yaml.YAMLError`, kind `ParseError`. -/
def read_yaml (fs : FS) (p : String) : Except FileError JVal :=
  match openRead fs p with
  | .error e => .error e
  | .ok .binary => .error (.ParseError ("'utf-8' codec can't decode byte: " ++ p))
  | .ok (.text s) =>
    match yamlLoads (univNewlines s) with
    | some v => .ok v
    | none => .error (.ParseError ("YAML解析失败: " ++ p))

def jobjGet : JObj → String → Option JVal
  | .nil, _ => none
  | .cons k v m, q => if k = q then some v else jobjGet m q

/-! ### Supporting lemmas about the filesystem model -/

theorem fsLookup_append_of_some {l₁ : FS} {p : String} {e : Entry} (l₂ : FS)
    (h : fsLookup l₁ p = some e) : fsLookup (l₁ ++ l₂) p = some e := by
  induction l₁ with
  | nil => simp [fsLookup] at h
  | cons kv rest ih =>
    obtain ⟨q, e'⟩ := kv
    by_cases hq : q = p
    · simpa [fsLookup, hq] using (by simpa [fsLookup, hq] using h)
    · simp only [fsLookup, List.cons_append, if_neg hq] at h ⊢
      exact ih h

theorem fsLookup_append_of_none {l₁ : FS} {p : String} (l₂ : FS)
    (h : fsLookup l₁ p = none) : fsLookup (l₁ ++ l₂) p = fsLookup l₂ p := by
  induction l₁ with
  | nil => simp [fsLookup]
  | cons kv rest ih =>
    obtain ⟨q, e'⟩ := kv
    by_cases hq : q = p
    · simp [fsLookup, hq] at h
    · simp only [fsLookup, List.cons_append, if_neg hq] at h ⊢
      exact ih h

theorem fsLookup_setFileC (fs : FS) (p : String) (c : FileContent) :
    fsLookup (setFileC fs p c) p = some (.file c) := by
  induction fs with
  | nil => simp [setFileC, fsLookup]
  | cons kv rest ih =>
    obtain ⟨q, e⟩ := kv
    by_cases hq : q = p
    · simp [setFileC, fsLookup, hq]
    · simp [setFileC, fsLookup, hq, ih]

theorem fsLookup_some_mem {fs : FS} {p : String} {e : Entry}
    (h : fsLookup fs p = some e) : (p, e) ∈ fs := by
  induction fs with
  | nil => simp [fsLookup] at h
  | cons kv rest ih =>
    obtain ⟨q, e'⟩ := kv
    by_cases hq : q = p
    · subst hq
      simp [fsLookup] at h
      simp [h]
    · simp only [fsLookup, if_neg hq] at h
      exact List.mem_cons_of_mem _ (ih h)

theorem string_mk_data (s : String) : String.mk s.data = s := rfl

theorem univNL_eq_self : ∀ cs : List Char, '\r' ∉ cs → univNL cs = cs := by
  intro cs
  induction cs with
  | nil => intro _; rfl
  | cons c rest ih =>
    intro h
    have hc : c ≠ '\r' := fun hc => h (hc ▸ List.mem_cons_self c rest)
    have hr : '\r' ∉ rest := fun hr => h (List.mem_cons_of_mem c hr)
    simp [univNL, hc, ih hr]

/-! ### Claim C10: ensure_dir on an existing non-directory entry -/

/-- C10: if the path exists but is a regular file (readable or blocked, i.e.
any non-directory entry), `ensure_dir` silently succeeds without touching the
filesystem and without raising, because its guard tests only `os.path.exists`. -/
theorem c10_ensure_dir_nondir (fs : FS) (p : String)
    (h : isNonDir fs p = true) : ensure_dir fs p = (fs, none) := by
  have hex : pathExists fs p = true := by
    unfold isNonDir at h
    unfold pathExists
    cases hl : fsLookup fs p with
    | none => rw [hl] at h; simp at h
    | some e => simp
  unfold ensure_dir
  rw [hex]
  simp

/-- Witness for C10 at a concrete filesystem: a regular file at the path. -/
theorem c10_ensure_dir_nondir_witness :
    ensure_dir [("f", .file (.text "x"))] "f" = ([("f", .file (.text "x"))], none) :=
  c10_ensure_dir_nondir [("f", .file (.text "x"))] "f" (by decide)

/-! ### Claim C2: write_text / read_text round trip -/

/-- C2 fails as stated: on the POSIX text-mode model, a carriage return is
rewritten to a line feed by the universal-newline translation of the read, so
`X = "\r"` reads back as `"\n"`. -/
theorem c2_counterexample :
    read_text (write_text [] "f" "\r" "w").1 "f" = .ok "\n" ∧ "\n" ≠ "\r" := by
  constructor
  · decide
  · decide

/-- C2 amended: for every string `X` with no carriage return, when the write
can open the path, `write_text(path, X)` (non-append) followed by
`read_text(path)` returns exactly `X`. -/
theorem c2_write_read_text (fs : FS) (p X : String)
    (hw : openWrite fs p = none) (hX : '\r' ∉ X.data) :
    read_text (write_text fs p X "w").1 p = .ok X := by
  unfold write_text
  rw [hw]
  simp only [if_neg (by decide : ¬ ("w" : String) = "a")]
  unfold read_text openRead setFile
  rw [fsLookup_setFileC]
  simp [univNewlines, univNL_eq_self X.data hX, string_mk_data]

/-- Witness for C2 at a concrete input with an interior line feed. -/
theorem c2_write_read_text_witness :
    read_text (write_text [] "f" "ab\ncd" "w").1 "f" = .ok "ab\ncd" :=
  c2_write_read_text [] "f" "ab\ncd" (by decide) (by decide)

/-! ### Claim C7: ensure_dir creates with parents, no-op when present, idempotent -/

theorem fsLookup_addDirIfMissing_of_some {fs : FS} {q : String} {e : Entry}
    (a : String) (h : fsLookup fs q = some e) :
    fsLookup (addDirIfMissing fs a) q = some e := by
  unfold addDirIfMissing
  split
  · exact h
  · exact fsLookup_append_of_some _ h

theorem fsLookup_foldl_addDir_of_some {q : String} {e : Entry} :
    ∀ (l : List String) (fs : FS), fsLookup fs q = some e →
      fsLookup (l.foldl addDirIfMissing fs) q = some e := by
  intro l
  induction l with
  | nil => intro fs h; exact h
  | cons a l ih =>
    intro fs h
    exact ih _ (fsLookup_addDirIfMissing_of_some a h)

theorem pathExists_foldl_addDir_of_mem {q : String} :
    ∀ (l : List String) (fs : FS), q ∈ l →
      pathExists (l.foldl addDirIfMissing fs) q = true := by
  intro l
  induction l with
  | nil => intro fs h; simp at h
  | cons a l ih =>
    intro fs h
    by_cases hq : q ∈ l
    · exact ih _ hq
    · have ha : q = a := by
        rcases List.mem_cons.mp h with h1 | h1
        · exact h1
        · exact absurd h1 hq
      subst ha
      have : ∃ e, fsLookup (addDirIfMissing fs q) q = some e := by
        unfold addDirIfMissing
        split
        · next hex =>
          unfold pathExists at hex
          rcases ho : fsLookup fs q with _ | e
          · rw [ho] at hex; simp at hex
          · exact ⟨e, rfl⟩
        · next hex =>
          unfold pathExists at hex
          have hnone : fsLookup fs q = none := by
            rcases ho : fsLookup fs q with _ | e
            · rfl
            · rw [ho] at hex; simp at hex
          refine ⟨.dir, ?_⟩
          rw [fsLookup_append_of_none _ hnone]
          simp [fsLookup]
      obtain ⟨e, he⟩ := this
      unfold pathExists
      rw [List.foldl_cons, fsLookup_foldl_addDir_of_some l _ he]
      rfl

theorem fsLookup_foldl_addDir_missing {q : String} :
    ∀ (l : List String) (fs : FS), q ∈ l → fsLookup fs q = none →
      fsLookup (l.foldl addDirIfMissing fs) q = some .dir := by
  intro l
  induction l with
  | nil => intro fs h; simp at h
  | cons a l ih =>
    intro fs hmem hnone
    by_cases ha : q = a
    · subst ha
      have h2 : fsLookup (addDirIfMissing fs q) q = some .dir := by
        unfold addDirIfMissing
        have hex : pathExists fs q = false := by
          unfold pathExists; rw [hnone]; rfl
        rw [hex]
        simp only [Bool.false_eq_true, if_false]
        rw [fsLookup_append_of_none _ hnone]
        simp [fsLookup]
      exact fsLookup_foldl_addDir_of_some l _ h2
    · have hmem' : q ∈ l := by
        rcases List.mem_cons.mp hmem with h1 | h1
        · exact absurd h1 ha
        · exact h1
      have h2 : fsLookup (addDirIfMissing fs a) q = none := by
        unfold addDirIfMissing
        split
        · exact hnone
        · rw [fsLookup_append_of_none _ hnone]
          simp [fsLookup, Ne.symm ha]
      exact ih _ hmem' h2

theorem ensure_dir_of_exists {fs : FS} {p : String}
    (hex : pathExists fs p = true) : ensure_dir fs p = (fs, none) := by
  unfold ensure_dir
  rw [hex]
  simp

theorem ensure_dir_of_missing {fs : FS} {p : String}
    (hex : pathExists fs p = false)
    (hbad : ((slashAncestors p).any (fun a => isNonDir fs a)) = false) :
    ensure_dir fs p = ((slashAncestors p ++ [p]).foldl addDirIfMissing fs, none) := by
  unfold ensure_dir
  rw [hex, hbad]
  simp

/-- C7: `ensure_dir` (a) is a no-op when the path exists; (b) when the path is
missing and the call succeeds, the path now exists as a directory, every
slash-ancestor exists, and no existing entry is disturbed; (c) it is
idempotent: after any successful call, a second call on the same path returns
the same filesystem with no error. -/
theorem c7_ensure_dir (fs : FS) (p : String) :
    (pathExists fs p = true → ensure_dir fs p = (fs, none)) ∧
    (pathExists fs p = false → (ensure_dir fs p).2 = none →
      fsLookup (ensure_dir fs p).1 p = some .dir ∧
      (∀ a ∈ slashAncestors p, pathExists (ensure_dir fs p).1 a = true) ∧
      (∀ q e, fsLookup fs q = some e → fsLookup (ensure_dir fs p).1 q = some e)) ∧
    ((ensure_dir fs p).2 = none →
      ensure_dir (ensure_dir fs p).1 p = ((ensure_dir fs p).1, none)) := by
  have hbad_of : pathExists fs p = false → (ensure_dir fs p).2 = none →
      ((slashAncestors p).any (fun a => isNonDir fs a)) = false := by
    intro hex herr
    by_contra hb
    have hb' : ((slashAncestors p).any (fun a => isNonDir fs a)) = true := by
      revert hb
      cases (slashAncestors p).any (fun a => isNonDir fs a) <;> simp
    unfold ensure_dir at herr
    rw [hex] at herr
    simp only [Bool.false_eq_true, if_false] at herr
    rw [hb'] at herr
    simp at herr
  refine ⟨fun hex => ensure_dir_of_exists hex, ?_, ?_⟩
  · intro hex herr
    have hnone : fsLookup fs p = none := by
      unfold pathExists at hex
      rcases ho : fsLookup fs p with _ | e
      · rfl
      · rw [ho] at hex; simp at hex
    rw [ensure_dir_of_missing hex (hbad_of hex herr)]
    refine ⟨?_, ?_, ?_⟩
    · exact fsLookup_foldl_addDir_missing _ _ (by simp) hnone
    · intro a ha
      exact pathExists_foldl_addDir_of_mem _ _ (by simp [ha])
    · intro q e he
      exact fsLookup_foldl_addDir_of_some _ _ he
  · intro herr
    by_cases hex : pathExists fs p = true
    · rw [ensure_dir_of_exists hex]
      exact ensure_dir_of_exists hex
    · have hex' : pathExists fs p = false := by
        revert hex; cases pathExists fs p <;> simp
      have hnone : fsLookup fs p = none := by
        unfold pathExists at hex'
        rcases ho : fsLookup fs p with _ | e
        · rfl
        · rw [ho] at hex'; simp at hex'
      rw [ensure_dir_of_missing hex' (hbad_of hex' herr)]
      have hdir : fsLookup ((slashAncestors p ++ [p]).foldl addDirIfMissing fs) p
          = some .dir :=
        fsLookup_foldl_addDir_missing _ _ (by simp) hnone
      exact ensure_dir_of_exists (by unfold pathExists; rw [hdir]; rfl)

/-- Witness for C7: a nested path over the empty filesystem, then again. -/
theorem c7_ensure_dir_witness :
    pathExists (ensure_dir [] "a/b").1 "a/b" = true ∧
    ensure_dir (ensure_dir [] "a/b").1 "a/b" = ((ensure_dir [] "a/b").1, none) := by
  have h := c7_ensure_dir [] "a/b"
  refine ⟨?_, h.2.2 (by decide)⟩
  have h2 := (h.2.1 (by decide) (by decide)).1
  unfold pathExists
  rw [h2]
  rfl

/-! ### Claim C6: list_files -/

theorem contains_false_not_mem {cs : List Char} {c : Char}
    (h : cs.contains c = false) : c ∉ cs := by
  intro hm
  rw [List.contains_eq_any_beq] at h
  have : cs.any (fun x => c == x) = true := List.any_eq_true.mpr ⟨c, hm, by simp⟩
  rw [this] at h
  exact Bool.true_eq_false.mp h

theorem childName_osPathJoin (d n : String) (h1 : n.data ≠ [])
    (h2 : n.data.contains '/' = false) :
    childName d (osPathJoin d n) = some n := by
  have hhead : ¬ n.data.head? = some '/' := by
    intro hh
    rcases hd : n.data with _ | ⟨c, rest⟩
    · rw [hd] at hh; simp at hh
    · rw [hd] at hh
      simp at hh
      have : '/' ∈ n.data := by rw [hd, ← hh]; exact List.mem_cons_self _ _
      exact contains_false_not_mem h2 this
  have hjoin : osPathJoin d n = String.mk (joinSep d ++ n.data) := by
    unfold osPathJoin
    rw [if_neg hhead]
  rw [hjoin]
  unfold childName
  have hpre : (joinSep d).isPrefixOf (String.mk (joinSep d ++ n.data)).data = true := by
    rw [List.isPrefixOf_iff_prefix]
    exact ⟨n.data, rfl⟩
  rw [if_pos hpre]
  have hdrop : (String.mk (joinSep d ++ n.data)).data.drop (joinSep d).length = n.data :=
    List.drop_left _ _
  rw [hdrop]
  rw [if_pos ⟨h1, fun hc => contains_false_not_mem h2 (by
    rw [List.contains_eq_any_beq] at hc
    obtain ⟨x, hx, hbeq⟩ := List.any_eq_true.mp hc
    have hx' : x = '/' := (eq_of_beq hbeq).symm
    exact hx' ▸ hx)⟩]

theorem childName_inv {d k n : String} (h : childName d k = some n) :
    k = osPathJoin d n ∧ n.data ≠ [] ∧ n.data.contains '/' = false := by
  unfold childName at h
  by_cases hpre : (joinSep d).isPrefixOf k.data = true
  · rw [if_pos hpre] at h
    by_cases hcond : k.data.drop (joinSep d).length ≠ [] ∧
        ¬ (k.data.drop (joinSep d).length).contains '/'
    · rw [if_pos hcond] at h
      have hn : n = String.mk (k.data.drop (joinSep d).length) := by
        injection h with h'
        exact h'.symm
      obtain ⟨t, ht⟩ := List.isPrefixOf_iff_prefix.mp hpre
      have hdropt : k.data.drop (joinSep d).length = t := by
        rw [← ht]
        exact List.drop_left _ _
      have hnd : n.data = t := by rw [hn, hdropt]
      refine ⟨?_, ?_, ?_⟩
      · have hhead : ¬ n.data.head? = some '/' := by
          intro hh
          rcases hcond with ⟨_, hnc⟩
          rw [hdropt] at hnc
          apply hnc
          rw [List.contains_eq_any_beq]
          refine List.any_eq_true.mpr ⟨'/', ?_, by simp⟩
          rw [← hnd]
          rcases he : n.data with _ | ⟨c, r⟩
          · rw [he] at hh; simp at hh
          · rw [he] at hh
            simp at hh
            rw [← hh]
            exact List.mem_cons_self _ _
        unfold osPathJoin
        rw [if_neg hhead]
        rw [hnd, ht]
      · rw [hnd, ← hdropt]
        exact hcond.1
      · rw [hnd, ← hdropt]
        exact Bool.eq_false_iff.mpr (fun hh => hcond.2 hh)
    · rw [if_neg hcond] at h
      exact absurd h (by simp)
  · rw [if_neg hpre] at h
    exact absurd h (by simp)

/-- C6: `list_files` fails with `NotFound` exactly when the directory does not
exist; an existing non-directory gives `IOFailure` instead; and on a directory
it returns exactly the joined paths of the regular files directly inside it,
filtered, when `extension` is given, by a literal suffix match on the name. -/
theorem c6_list_files (fs : FS) (d : String) (ext : Option String) :
    ((∃ m, list_files fs d ext = .error (.NotFound m)) ↔ fsLookup fs d = none) ∧
    (∀ e, fsLookup fs d = some e → e ≠ .dir →
      ∃ m, list_files fs d ext = .error (.IOFailure m)) ∧
    (fsLookup fs d = some .dir → ∃ l, list_files fs d ext = .ok l ∧
      ∀ q, q ∈ l ↔ ∃ n : String, q = osPathJoin d n ∧ n.data ≠ [] ∧
        n.data.contains '/' = false ∧ isfile fs (osPathJoin d n) = true ∧
        extMatch ext n = true) := by
  refine ⟨⟨?_, ?_⟩, ?_, ?_⟩
  · rintro ⟨m, hm⟩
    rcases ho : fsLookup fs d with _ | e
    · rfl
    · exfalso
      unfold list_files at hm
      have hex : pathExists fs d = true := by unfold pathExists; rw [ho]; rfl
      rw [hex] at hm
      simp only [Bool.true_eq_false, if_false] at hm
      rw [ho] at hm
      cases e <;> simp at hm
  · intro ho
    have hex : pathExists fs d = false := by unfold pathExists; rw [ho]; rfl
    unfold list_files
    rw [hex]
    exact ⟨_, rfl⟩
  · intro e ho hne
    have hex : pathExists fs d = true := by unfold pathExists; rw [ho]; rfl
    unfold list_files
    rw [hex]
    simp only [Bool.true_eq_false, if_false]
    rw [ho]
    cases e
    · exact ⟨_, rfl⟩
    · exact absurd rfl hne
    · exact ⟨_, rfl⟩
  · intro ho
    have hex : pathExists fs d = true := by unfold pathExists; rw [ho]; rfl
    unfold list_files
    rw [hex]
    simp only [Bool.true_eq_false, if_false]
    rw [ho]
    refine ⟨_, rfl, ?_⟩
    intro q
    constructor
    · intro hq
      obtain ⟨name, hname, hf⟩ := List.mem_filterMap.mp hq
      by_cases hc : (isfile fs (osPathJoin d name) && extMatch ext name) = true
      · rw [if_pos hc] at hf
        injection hf with hf'
        obtain ⟨kv, _, hck⟩ := List.mem_filterMap.mp hname
        obtain ⟨_, hne, hnc⟩ := childName_inv hck
        have hc' : isfile fs (osPathJoin d name) = true ∧ extMatch ext name = true := by
          simpa [Bool.and_eq_true] using hc
        exact ⟨name, hf'.symm, hne, hnc, hc'.1, hc'.2⟩
      · rw [if_neg hc] at hf
        exact absurd hf (by simp)
    · rintro ⟨n, hq, hne, hnc, hfile, hext⟩
      apply List.mem_filterMap.mpr
      refine ⟨n, ?_, ?_⟩
      · apply List.mem_filterMap.mpr
        have hlk : ∃ e', fsLookup fs (osPathJoin d n) = some e' := by
          unfold isfile at hfile
          rcases hl : fsLookup fs (osPathJoin d n) with _ | e'
          · rw [hl] at hfile; simp at hfile
          · exact ⟨e', rfl⟩
        obtain ⟨e', he'⟩ := hlk
        exact ⟨(osPathJoin d n, e'), fsLookup_some_mem he',
          childName_osPathJoin d n hne hnc⟩
      · have hc : (isfile fs (osPathJoin d n) && extMatch ext n) = true := by
          rw [Bool.and_eq_true]
          exact ⟨hfile, hext⟩
        rw [if_pos hc, hq]

/-- Witness for C6 on the spec's scenario directory. -/
theorem c6_list_files_witness :
    (∃ m, list_files [("x", .file (.text ""))] "d" none = .error (.NotFound m)) ∧
    ("d/a.txt" ∈ ["d/a.txt", "d/b.json"] ↔ True) := by
  have h1 := (c6_list_files [("x", .file (.text ""))] "d" none).1.mpr (by decide)
  refine ⟨h1, by simp⟩

/-! ### Claim C5: get_file_extension -/

theorem takeWhile_append_all {p : Char → Bool} {u : List Char} (v : List Char)
    (h : ∀ x ∈ u, p x = true) :
    (u ++ v).takeWhile p = u ++ v.takeWhile p := by
  induction u with
  | nil => simp
  | cons a u ih =>
    have ha : p a = true := h a (List.mem_cons_self _ _)
    simp only [List.cons_append, List.takeWhile_cons, ha, if_true]
    rw [ih (fun x hx => h x (List.mem_cons_of_mem a hx))]

theorem takeWhile_append_stop {p : Char → Bool} {u : List Char} (v : List Char)
    {x : Char} (hx : x ∈ u) (hpx : p x = false) :
    (u ++ v).takeWhile p = u.takeWhile p := by
  induction u with
  | nil => simp at hx
  | cons a u ih =>
    by_cases ha : p a = true
    · simp only [List.cons_append, List.takeWhile_cons, ha, if_true]
      have hxu : x ∈ u := by
        rcases List.mem_cons.mp hx with h1 | h1
        · rw [h1] at hpx; rw [hpx] at ha; exact absurd ha (by simp)
        · exact h1
      rw [ih hxu]
    · have ha' : p a = false := Bool.eq_false_iff.mpr ha
      simp only [List.cons_append, List.takeWhile_cons, ha']
      simp

theorem lastIdxOf?_eq_none_iff {cs : List Char} {c : Char} :
    lastIdxOf? cs c = none ↔ c ∉ cs := by
  induction cs with
  | nil => simp [lastIdxOf?]
  | cons a rest ih =>
    constructor
    · intro h hm
      unfold lastIdxOf? at h
      rcases ho : lastIdxOf? rest c with _ | j
      · rw [ho] at h
        rcases List.mem_cons.mp hm with h1 | h1
        · rw [← h1] at h; simp at h
        · exact (ih.mp ho) h1
      · rw [ho] at h; simp at h
    · intro hm
      have hc : a ≠ c := fun h => hm (h ▸ List.mem_cons_self _ _)
      have hr : c ∉ rest := fun h => hm (List.mem_cons_of_mem _ h)
      unfold lastIdxOf?
      rw [ih.mpr hr]
      simp [hc]

theorem lastIdxOf?_append_right {v : List Char} {c : Char} {j : Nat}
    (u : List Char) (h : lastIdxOf? v c = some j) :
    lastIdxOf? (u ++ v) c = some (u.length + j) := by
  induction u with
  | nil => simpa using h
  | cons a u ih =>
    show lastIdxOf? (a :: (u ++ v)) c = _
    unfold lastIdxOf?
    rw [ih]
    simp
    omega

theorem lastIdxOf?_append_left {v : List Char} {c : Char}
    (u : List Char) (h : lastIdxOf? v c = none) :
    lastIdxOf? (u ++ v) c = lastIdxOf? u c := by
  induction u with
  | nil => simpa using h
  | cons a u ih =>
    show lastIdxOf? (a :: (u ++ v)) c = lastIdxOf? (a :: u) c
    unfold lastIdxOf?
    rw [ih]

theorem lastIdxOf?_getElem {cs : List Char} {c : Char} {j : Nat}
    (h : lastIdxOf? cs c = some j) : cs[j]? = some c := by
  induction cs generalizing j with
  | nil => simp [lastIdxOf?] at h
  | cons a rest ih =>
    unfold lastIdxOf? at h
    rcases ho : lastIdxOf? rest c with _ | j'
    · rw [ho] at h
      by_cases ha : a = c
      · rw [if_pos ha] at h
        injection h with h'
        subst h'
        simpa using ha
      · rw [if_neg ha] at h; simp at h
    · rw [ho] at h
      injection h with h'
      subst h'
      simpa using ih ho

theorem lastIdxOf?_some_contains {cs : List Char} {c : Char} {j : Nat}
    (h : lastIdxOf? cs c = some j) : c ∈ cs := by
  by_contra hm
  rw [lastIdxOf?_eq_none_iff.mpr hm] at h
  exact absurd h (by simp)

theorem lastIdxOf?_drop {cs : List Char} {j : Nat}
    (h : lastIdxOf? cs '.' = some j) :
    cs.drop j = '.' :: (cs.reverse.takeWhile (fun c => c ≠ '.')).reverse := by
  induction cs generalizing j with
  | nil => simp [lastIdxOf?] at h
  | cons a rest ih =>
    unfold lastIdxOf? at h
    rcases ho : lastIdxOf? rest '.' with _ | j'
    · rw [ho] at h
      by_cases ha : a = '.'
      · rw [if_pos ha] at h
        injection h with h'
        subst h'
        subst ha
        have hnr : '.' ∉ rest := lastIdxOf?_eq_none_iff.mp ho
        have hall : ∀ x ∈ rest.reverse, decide (x ≠ '.') = true := by
          intro x hx
          have hmem : x ∈ rest := List.mem_reverse.mp hx
          have hxne : x ≠ '.' := fun he => hnr (he ▸ hmem)
          simp [hxne]
        rw [List.drop_zero, List.reverse_cons, takeWhile_append_all _ hall]
        simp
      · rw [if_neg ha] at h; simp at h
    · rw [ho] at h
      injection h with h'
      subst h'
      show (a :: rest).drop (j' + 1) = _
      rw [List.drop_succ_cons]
      rw [ih ho]
      have hc : '.' ∈ rest.reverse := List.mem_reverse.mpr (lastIdxOf?_some_contains ho)
      have : ((a :: rest).reverse).takeWhile (fun c => decide (c ≠ '.')) =
          (rest.reverse).takeWhile (fun c => decide (c ≠ '.')) := by
        rw [List.reverse_cons]
        exact takeWhile_append_stop _ hc (by simp)
      rw [this]

theorem lastIdxOf?_all_eq {u : List Char} (h : ∀ x ∈ u, x = '.') (hne : u ≠ []) :
    lastIdxOf? u '.' = some (u.length - 1) := by
  induction u with
  | nil => exact absurd rfl hne
  | cons a rest ih =>
    unfold lastIdxOf?
    rcases hr : rest with _ | ⟨b, rest'⟩
    · have ha : a = '.' := h a (List.mem_cons_self _ _)
      simp [lastIdxOf?, ha]
    · rw [← hr]
      have hrne : rest ≠ [] := by rw [hr]; simp
      rw [ih (fun x hx => h x (List.mem_cons_of_mem _ hx)) hrne]
      have hlen : 1 ≤ rest.length := by
        rw [hr]; simp
      simp only [List.length_cons]
      congr 1
      omega

theorem dropWhile_head_false {p : Char → Bool} :
    ∀ (l : List Char) (x : Char), (l.dropWhile p).head? = some x → p x = false := by
  intro l
  induction l with
  | nil => intro x h; simp [List.dropWhile] at h
  | cons a rest ih =>
    intro x h
    by_cases ha : p a = true
    · rw [List.dropWhile_cons, if_pos ha] at h
      exact ih x h
    · have ha' : p a = false := Bool.eq_false_iff.mpr ha
      rw [List.dropWhile_cons, ha'] at h
      simp at h
      rw [← h]
      exact ha'

theorem ext_equiv (b : List Char) :
    (if (b.dropWhile (fun c => c = '.')).contains '.' then
       String.mk ('.' ::
         ((b.dropWhile (fun c => c = '.')).reverse.takeWhile (fun c => c ≠ '.')).reverse)
     else "") =
    (match lastIdxOf? b '.' with
     | none => ""
     | some j =>
       if (b.take j).any (fun c => c ≠ '.') then String.mk (b.drop j) else "") := by
  have hsplit : b.takeWhile (fun c => c = '.') ++ b.dropWhile (fun c => c = '.') = b :=
    List.takeWhile_append_dropWhile _ _
  by_cases hcr : (b.dropWhile (fun c => c = '.')).contains '.' = true
  · rw [if_pos hcr]
    have hmem : '.' ∈ b.dropWhile (fun c => c = '.') := by
      rw [List.contains_eq_any_beq] at hcr
      obtain ⟨x, hx, hbeq⟩ := List.any_eq_true.mp hcr
      have hx' : x = '.' := (eq_of_beq hbeq).symm
      exact hx' ▸ hx
    rcases hro : lastIdxOf? (b.dropWhile (fun c => c = '.')) '.' with _ | j0
    · exact absurd hmem (lastIdxOf?_eq_none_iff.mp hro)
    have hb : lastIdxOf? b '.' =
        some ((b.takeWhile (fun c => c = '.')).length + j0) := by
      have h1 := lastIdxOf?_append_right (b.takeWhile (fun c => c = '.')) hro
      rw [hsplit] at h1
      exact h1
    split
    · next hnone =>
      exact absurd (hnone.symm.trans hb) (by simp)
    · next j hj =>
      have hjj : j = (b.takeWhile (fun c => c = '.')).length + j0 := by
        rw [hj] at hb
        injection hb
      subst hjj
      rcases hdw : b.dropWhile (fun c => c = '.') with _ | ⟨x, r'⟩
      · rw [hdw] at hmem; simp at hmem
      have hxf : decide (x = '.') = false := by
        refine dropWhile_head_false (p := fun c => decide (c = '.')) b x ?_
        rw [hdw]
        rfl
      have hxne : x ≠ '.' := of_decide_eq_false hxf
      have hj1 : 1 ≤ j0 := by
        rcases Nat.eq_zero_or_pos j0 with h0 | h0
        · exfalso
          have := lastIdxOf?_getElem hro
          rw [h0, hdw] at this
          simp at this
          exact hxne this
        · exact h0
      have htake : b.take ((b.takeWhile (fun c => c = '.')).length + j0) =
          b.takeWhile (fun c => c = '.') ++ (b.dropWhile (fun c => c = '.')).take j0 := by
        have h1 := @List.take_append _ (b.takeWhile (fun c => c = '.'))
          (b.dropWhile (fun c => c = '.')) j0
        rw [hsplit] at h1
        exact h1
      have hdrop : b.drop ((b.takeWhile (fun c => c = '.')).length + j0) =
          (b.dropWhile (fun c => c = '.')).drop j0 := by
        have h1 := @List.drop_append _ (b.takeWhile (fun c => c = '.'))
          (b.dropWhile (fun c => c = '.')) j0
        rw [hsplit] at h1
        exact h1
      have hxmem : x ∈ b.take ((b.takeWhile (fun c => c = '.')).length + j0) := by
        rw [htake, hdw]
        apply List.mem_append_right
        rcases j0 with _ | j0'
        · omega
        · rw [List.take_succ_cons]
          exact List.mem_cons_self _ _
      have hany : (b.take ((b.takeWhile (fun c => c = '.')).length + j0)).any
          (fun c => c ≠ '.') = true :=
        List.any_eq_true.mpr ⟨x, hxmem, by simp [hxne]⟩
      rw [if_pos hany, hdrop, lastIdxOf?_drop hro, hdw]
  · have hcr' : (b.dropWhile (fun c => c = '.')).contains '.' = false :=
      Bool.eq_false_iff.mpr hcr
    rw [if_neg hcr]
    have hnd : '.' ∉ b.dropWhile (fun c => c = '.') := contains_false_not_mem hcr'
    have hnone_dw : lastIdxOf? (b.dropWhile (fun c => c = '.')) '.' = none :=
      lastIdxOf?_eq_none_iff.mpr hnd
    have hleft : lastIdxOf? b '.' = lastIdxOf? (b.takeWhile (fun c => c = '.')) '.' := by
      have h1 := lastIdxOf?_append_left (b.takeWhile (fun c => c = '.')) hnone_dw
      rw [hsplit] at h1
      exact h1
    by_cases hd : b.takeWhile (fun c => c = '.') = []
    · have hb : lastIdxOf? b '.' = none := by
        rw [hleft, hd]
        rfl
      split
      · rfl
      · next j hj =>
        rw [hj] at hb
        exact absurd hb (by simp)
    · have hall : ∀ x ∈ b.takeWhile (fun c => c = '.'), x = '.' := by
        intro x hx
        have h1 := List.mem_takeWhile_imp (p := fun c => decide (c = '.')) hx
        exact of_decide_eq_true h1
      have htw := lastIdxOf?_all_eq hall hd
      have hb : lastIdxOf? b '.' =
          some ((b.takeWhile (fun c => c = '.')).length - 1) := by
        rw [hleft, htw]
      split
      · next hnone =>
        exact absurd (hnone.symm.trans hb) (by simp)
      · next j hj =>
        have hjj : j = (b.takeWhile (fun c => c = '.')).length - 1 := by
          rw [hj] at hb
          injection hb
        subst hjj
        have htake2 : b.take ((b.takeWhile (fun c => c = '.')).length - 1) =
            (b.takeWhile (fun c => c = '.')).take
              ((b.takeWhile (fun c => c = '.')).length - 1) := by
          have h1 := @List.take_append_eq_append_take _
            (b.takeWhile (fun c => c = '.'))
            (b.dropWhile (fun c => c = '.'))
            ((b.takeWhile (fun c => c = '.')).length - 1)
          rw [hsplit] at h1
          rw [h1]
          have h0 : (b.takeWhile (fun c => c = '.')).length - 1 -
              (b.takeWhile (fun c => c = '.')).length = 0 := by omega
          rw [h0, List.take_zero, List.append_nil]
        have hanyf : (b.take ((b.takeWhile (fun c => c = '.')).length - 1)).any
            (fun c => c ≠ '.') = false := by
          apply Bool.eq_false_iff.mpr
          intro hany
          obtain ⟨x, hx, hdec⟩ := List.any_eq_true.mp hany
          rw [htake2] at hx
          have hx2 : x ∈ b.takeWhile (fun c => c = '.') := List.mem_of_mem_take hx
          have hx3 : x = '.' := hall x hx2
          rw [hx3] at hdec
          simp at hdec
        rw [hanyf]
        simp

/-- C5 fails as stated on hidden files: for `".bashrc"` the base name contains
a `'.'`, so the claim's rule yields `".bashrc"`, but `os.path.splitext` (hence
`get_file_extension`) yields `""` because every character before that final dot
is itself a dot. -/
theorem c5_counterexample :
    get_file_extension ".bashrc" = "" ∧ claimExtension ".bashrc" = ".bashrc" ∧
    ("" : String) ≠ ".bashrc" := by
  refine ⟨by decide, by decide, by decide⟩

/-- C5 amended: `get_file_extension` returns the substring of the base name
from (and including) its final `'.'`, except that it returns `""` when the base
name has no `'.'` or when every character before that final `'.'` is itself a
`'.'` (a leading run of dots never starts an extension); it never fails, and
the claim's two examples hold. -/
theorem c5_get_file_extension :
    (∀ p, get_file_extension p = amendedExtension p) ∧
    get_file_extension "archive.tar.gz" = ".gz" ∧
    get_file_extension "README" = "" := by
  refine ⟨?_, by decide, by decide⟩
  intro p
  exact ext_equiv (afterLastSlash p.data)

/-! ### JSON round trip: supporting lemmas -/

theorem jskipWs_append_ws {ws : List Char} (x : List Char) (h : allWs ws) :
    jskipWs (ws ++ x) = jskipWs x := by
  induction ws with
  | nil => simp
  | cons c rest ih =>
    have hc : isJsonWs c = true := h c (List.mem_cons_self _ _)
    unfold jskipWs at ih ⊢
    rw [List.cons_append, List.dropWhile_cons, hc]
    simp only [if_true]
    exact ih (fun c' hc' => h c' (List.mem_cons_of_mem _ hc'))

theorem jskipWs_cons_of_not {c : Char} (t : List Char) (h : isJsonWs c = false) :
    jskipWs (c :: t) = c :: t := by
  unfold jskipWs
  rw [List.dropWhile_cons, h]
  simp

theorem allWs_jnl (indent lvl : Nat) : allWs (jnl indent lvl) := by
  intro c hc
  unfold jnl at hc
  rcases List.mem_cons.mp hc with h1 | h1
  · rw [h1]; rfl
  · have : c = ' ' := List.eq_of_mem_replicate h1
    rw [this]; rfl

theorem allWs_nil : allWs [] := by
  intro c hc
  simp at hc

theorem digitsToNat_append_digit (ds : List Char) (c : Char) :
    digitsToNat (ds ++ [c]) = 10 * digitsToNat ds + (c.toNat - 48) := by
  unfold digitsToNat
  rw [List.foldl_append]
  simp only [List.foldl_cons, List.foldl_nil]
  omega

theorem char_toNat_ofNat {n : Nat} (h : n < 55296) : (Char.ofNat n).toNat = n := by
  have hv : n.isValidChar := Or.inl h
  simp only [Char.ofNat, dif_pos hv]
  rfl

theorem isDigitCh_ofNat {n : Nat} (h : n < 10) :
    isDigitCh (Char.ofNat (48 + n)) = true := by
  unfold isDigitCh
  rw [char_toNat_ofNat (by omega)]
  simp
  omega

theorem ofNat_digit_ne_zero {n : Nat} (h1 : 1 ≤ n) (h2 : n < 10) :
    Char.ofNat (48 + n) ≠ '0' := by
  intro he
  have := congrArg Char.toNat he
  rw [char_toNat_ofNat (by omega)] at this
  have h0 : ('0' : Char).toNat = 48 := by decide
  omega

theorem natDigitsAux_spec :
    ∀ (fuel n : Nat), n ≤ fuel →
      digitsToNat (natDigitsAux (fuel + 1) n) = n ∧
      natDigitsAux (fuel + 1) n ≠ [] ∧
      (∀ c ∈ natDigitsAux (fuel + 1) n, isDigitCh c = true) ∧
      (1 ≤ n → (natDigitsAux (fuel + 1) n).head? ≠ some '0') := by
  intro fuel
  induction fuel with
  | zero =>
    intro n hn
    have h0 : n = 0 := Nat.le_zero.mp hn
    subst h0
    exact ⟨by decide, by decide, by decide, by omega⟩
  | succ f ih =>
    intro n hn
    by_cases hsm : n < 10
    · have heq : natDigitsAux (f + 1 + 1) n = [Char.ofNat (48 + n)] := by
        unfold natDigitsAux
        rw [if_pos hsm]
      rw [heq]
      refine ⟨?_, by simp, ?_, ?_⟩
      · unfold digitsToNat
        simp [char_toNat_ofNat (show 48 + n < 55296 by omega)]
      · intro c hc
        have hc' : c = Char.ofNat (48 + n) := by simpa using hc
        rw [hc']
        exact isDigitCh_ofNat hsm
      · intro h1 he
        simp at he
        exact ofNat_digit_ne_zero h1 hsm he
    · have hge : 10 ≤ n := Nat.le_of_not_lt hsm
      have heq : natDigitsAux (f + 1 + 1) n =
          natDigitsAux (f + 1) (n / 10) ++ [Char.ofNat (48 + n % 10)] := by
        conv_lhs => rw [natDigitsAux]
        rw [if_neg hsm]
      have hq : n / 10 ≤ f := by
        have h1 : n / 10 < n := Nat.div_lt_self (by omega) (by omega)
        omega
      obtain ⟨ihv, ihne, ihd, ihz⟩ := ih (n / 10) hq
      rw [heq]
      refine ⟨?_, by simp, ?_, ?_⟩
      · rw [digitsToNat_append_digit, ihv,
          char_toNat_ofNat (show 48 + n % 10 < 55296 by omega)]
        omega
      · intro c hc
        rcases List.mem_append.mp hc with h1 | h1
        · exact ihd c h1
        · have hc' : c = Char.ofNat (48 + n % 10) := by simpa using h1
          rw [hc']
          exact isDigitCh_ofNat (Nat.mod_lt _ (by omega))
      · intro _
        rcases hds : natDigitsAux (f + 1) (n / 10) with _ | ⟨c0, rest0⟩
        · exact absurd hds ihne
        · have hz := ihz (by omega)
          rw [hds] at hz
          simp only [List.cons_append, List.head?_cons]
          intro he
          apply hz
          simp only [List.head?_cons]
          injection he with he'
          rw [he']

theorem natDigits_spec (n : Nat) :
    digitsToNat (natDigits n) = n ∧ natDigits n ≠ [] ∧
    (∀ c ∈ natDigits n, isDigitCh c = true) ∧
    (1 ≤ n → (natDigits n).head? ≠ some '0') :=
  natDigitsAux_spec n n (Nat.le_refl n)

theorem takeWhile_nil_of_head {p : Char → Bool} {v : List Char}
    (h : ∀ c, v.head? = some c → p c = false) : v.takeWhile p = [] := by
  rcases hv : v with _ | ⟨c, t⟩
  · rfl
  · rw [List.takeWhile_cons, h c (by rw [hv]; rfl)]
    simp

theorem dropWhile_append_all {p : Char → Bool} {u : List Char} (v : List Char)
    (h : ∀ x ∈ u, p x = true) : (u ++ v).dropWhile p = v.dropWhile p := by
  induction u with
  | nil => simp
  | cons a u ih =>
    rw [List.cons_append, List.dropWhile_cons, h a (List.mem_cons_self _ _)]
    simp only [if_true]
    exact ih (fun x hx => h x (List.mem_cons_of_mem a hx))

theorem dropWhile_eq_self_of_head {p : Char → Bool} {v : List Char}
    (h : ∀ c, v.head? = some c → p c = false) : v.dropWhile p = v := by
  rcases hv : v with _ | ⟨c, t⟩
  · rfl
  · rw [List.dropWhile_cons, h c (by rw [hv]; rfl)]
    simp

/-- The characters that may legally follow a serialized value without being
absorbed into a preceding number: anything but a digit, `'.'`, `'e'`, `'E'`. -/
theorem numStop_nil : numStop [] := by
  intro c t h
  simp at h

theorem digit_not_special {c : Char} (h : isDigitCh c = true) :
    c ≠ '-' ∧ c ≠ '.' ∧ c ≠ 'e' ∧ c ≠ 'E' := by
  unfold isDigitCh at h
  refine ⟨?_, ?_, ?_, ?_⟩ <;> intro he <;> subst he <;> simp at h <;> omega

theorem jparseNumNat_digits {rest : List Char} (m : Nat) (hstop : numStop rest) :
    jparseNumNat (natDigits m ++ rest) = some (m, rest) := by
  obtain ⟨hval, hne, hdig, hzero⟩ := natDigits_spec m
  have htw : (natDigits m ++ rest).takeWhile isDigitCh = natDigits m := by
    rw [takeWhile_append_all _ hdig, takeWhile_nil_of_head (fun c hc => ?_)]
    · simp
    · rcases hr : rest with _ | ⟨c0, t0⟩
      · rw [hr] at hc; simp at hc
      · rw [hr] at hc
        simp at hc
        rw [← hc]
        exact (hstop c0 t0 hr).1
  have hdw : (natDigits m ++ rest).dropWhile isDigitCh = rest := by
    rw [dropWhile_append_all _ hdig]
    refine dropWhile_eq_self_of_head (fun c hc => ?_)
    rcases hr : rest with _ | ⟨c0, t0⟩
    · rw [hr] at hc; simp at hc
    · rw [hr] at hc
      simp at hc
      rw [← hc]
      exact (hstop c0 t0 hr).1
  have hzcheck : ¬ ((natDigits m).head? = some '0' ∧ (natDigits m).length ≠ 1) := by
    rintro ⟨hh, hl⟩
    rcases Nat.eq_zero_or_pos m with h0 | h1
    · subst h0
      exact hl (by decide)
    · exact (hzero h1) hh
  have hrestf : ¬ (rest.head? = some '.' ∨ rest.head? = some 'e' ∨
      rest.head? = some 'E') := by
    rintro (hh | hh | hh) <;>
    · rcases hr : rest with _ | ⟨c0, t0⟩
      · rw [hr] at hh; simp at hh
      · rw [hr] at hh
        simp at hh
        obtain ⟨_, h2, h3, h4⟩ := hstop c0 t0 hr
        first
        | exact h2 hh
        | exact h3 hh
        | exact h4 hh
        | exact h2 hh.symm
        | exact h3 hh.symm
        | exact h4 hh.symm
  simp only [jparseNumNat]
  rw [htw, hdw, if_neg hne, if_neg hzcheck, if_neg hrestf, hval]

theorem jparseNum_repr {rest : List Char} (n : Int) (hstop : numStop rest) :
    jparseNum (intRepr n ++ rest) = some (n, rest) := by
  by_cases hneg : n < 0
  · have hrepr : intRepr n = '-' :: natDigits n.natAbs := by
      unfold intRepr
      rw [if_pos hneg]
    rw [hrepr, List.cons_append]
    have hstep : jparseNum ('-' :: (natDigits n.natAbs ++ rest)) =
        (jparseNumNat (natDigits n.natAbs ++ rest)).map
          (fun p => (-(p.1 : Int), p.2)) := rfl
    rw [hstep, jparseNumNat_digits n.natAbs hstop]
    have hv : -((n.natAbs : Nat) : Int) = n := by omega
    simp only [Option.map]
    rw [hv]
  · have hrepr : intRepr n = natDigits n.natAbs := by
      unfold intRepr
      rw [if_neg hneg]
    obtain ⟨hval, hne, hdig, hzero⟩ := natDigits_spec n.natAbs
    rcases hd : natDigits n.natAbs with _ | ⟨d0, dsr⟩
    · exact absurd hd hne
    have hd0 : isDigitCh d0 = true := hdig d0 (by rw [hd]; exact List.mem_cons_self _ _)
    have hd0m : d0 ≠ '-' := (digit_not_special hd0).1
    rw [hrepr, hd, List.cons_append]
    have hstep : jparseNum (d0 :: (dsr ++ rest)) =
        if d0 = '-' then
          (jparseNumNat (dsr ++ rest)).map (fun p => (-(p.1 : Int), p.2))
        else (jparseNumNat (d0 :: (dsr ++ rest))).map
          (fun p => ((p.1 : Int), p.2)) := rfl
    rw [hstep, if_neg hd0m, ← List.cons_append, ← hd,
      jparseNumNat_digits n.natAbs hstop]
    have hv : ((n.natAbs : Nat) : Int) = n := by omega
    simp only [Option.map]
    rw [hv]

theorem hexVal_hexDigitChar {x : Nat} (h : x < 16) :
    hexVal (hexDigitChar x) = some x := by
  unfold hexDigitChar hexVal
  by_cases h10 : x < 10
  · rw [if_pos h10, char_toNat_ofNat (by omega), if_pos (by omega)]
    congr 1
    omega
  · rw [if_neg h10, char_toNat_ofNat (by omega), if_neg (by omega), if_pos (by omega)]
    congr 1
    omega

theorem jparse_u_escape (h1 h2 h3 h4 : Char) (v : Nat) (X : List Char)
    (hv : hexVal4 h1 h2 h3 h4 = some v) (hlo : v < 55296) :
    jparseStrBody ('\\' :: 'u' :: h1 :: h2 :: h3 :: h4 :: X) =
      (jparseStrBody X).map (fun p => (Char.ofNat v :: p.1, p.2)) := by
  have hstep : jparseStrBody ('\\' :: 'u' :: h1 :: h2 :: h3 :: h4 :: X) =
      (match hexVal4 h1 h2 h3 h4 with
      | none => none
      | some v =>
        if 55296 ≤ v ∧ v ≤ 56319 then
          match X with
          | '\\' :: 'u' :: k1 :: k2 :: k3 :: k4 :: rest2 =>
            match hexVal4 k1 k2 k3 k4 with
            | none => none
            | some w =>
              if 56320 ≤ w ∧ w ≤ 57343 then
                (jparseStrBody rest2).map (fun p =>
                  (Char.ofNat (65536 + (v - 55296) * 1024 + (w - 56320)) :: p.1, p.2))
              else none
          | _ => none
        else if 56320 ≤ v ∧ v ≤ 57343 then none
        else (jparseStrBody X).map (fun p => (Char.ofNat v :: p.1, p.2))) := by
    rw [jparseStrBody.eq_def]
    rfl
  rw [hstep, hv]
  show (if 55296 ≤ v ∧ v ≤ 56319 then _ else if 56320 ≤ v ∧ v ≤ 57343 then none
    else (jparseStrBody X).map (fun p => (Char.ofNat v :: p.1, p.2))) = _
  rw [if_neg (by omega), if_neg (by omega)]

theorem jparse_esc_special (e ch : Char) (X : List Char)
    (he : jescCharOf e = some ch) (hu : e ≠ 'u') :
    jparseStrBody ('\\' :: e :: X) =
      (jparseStrBody X).map (fun p => (ch :: p.1, p.2)) := by
  rw [jparseStrBody.eq_def]
  split
  · next x0 heq => simp at heq
  · next x0 r0 heq =>
    exfalso
    injection heq with hh _
    exact absurd hh (by decide)
  · next x0 a1 a2 a3 a4 r0 heq =>
    exfalso
    injection heq with _ t1
    injection t1 with h2 _
    exact hu h2
  · next x0 e2 r2 hnm heq =>
    injection heq with _ t1
    injection t1 with h2 h3
    subst h2
    subst h3
    rw [he]
  · next x0 c2 r2 hq hcu hce heq =>
    exfalso
    injection heq with hh ht
    exact hce e X hh.symm ht.symm

theorem jparse_lit_step (c : Char) (X : List Char) (h1 : c ≠ '"') (h2 : c ≠ '\\')
    (hctrl : ¬ c.toNat < 32) :
    jparseStrBody (c :: X) = (jparseStrBody X).map (fun p => (c :: p.1, p.2)) := by
  rw [jparseStrBody.eq_def]
  split
  · next x0 heq => simp at heq
  · next x0 r0 heq =>
    exfalso
    injection heq with hh _
    exact h1 hh
  · next x0 a1 a2 a3 a4 r0 heq =>
    exfalso
    injection heq with hh _
    exact h2 hh
  · next x0 e2 r2 hnm heq =>
    exfalso
    injection heq with hh _
    exact h2 hh
  · next x0 c2 r2 hq hcu hce heq =>
    injection heq with hh ht
    subst hh
    subst ht
    rw [if_neg hctrl]

theorem jparseStrBody_esc : ∀ (cs rest : List Char),
    jparseStrBody ((cs.map escChar).flatten ++ '"' :: rest) = some (cs, rest) := by
  intro cs
  induction cs with
  | nil =>
    intro rest
    rw [jparseStrBody.eq_def]
    rfl
  | cons c cs ih =>
    intro rest
    have hflat : ((c :: cs).map escChar).flatten ++ '"' :: rest =
        escChar c ++ ((cs.map escChar).flatten ++ '"' :: rest) := by
      rw [List.map_cons, List.flatten_cons, List.append_assoc]
    rw [hflat]
    have hofn : Char.ofNat c.toNat = c := Char.ofNat_toNat c
    by_cases hctrl : c.toNat < 32
    · have hq : c ≠ '"' := fun he => by rw [he] at hctrl; exact absurd hctrl (by decide)
      have hbs : c ≠ '\\' := fun he => by rw [he] at hctrl; exact absurd hctrl (by decide)
      by_cases hn : c = '\n'
      · subst hn
        have hstep : jparseStrBody ('\\' :: 'n' :: ((cs.map escChar).flatten ++ '"' :: rest)) =
            (jparseStrBody ((cs.map escChar).flatten ++ '"' :: rest)).map
              (fun p => ('\n' :: p.1, p.2)) :=
          jparse_esc_special 'n' '\n' _ (by decide) (by decide)
        rw [show escChar '\n' = ['\\', 'n'] from rfl, List.cons_append,
          List.singleton_append, hstep, ih rest]
        rfl
      · by_cases ht : c = '\t'
        · subst ht
          have hstep := jparse_esc_special 't' '\t'
            ((cs.map escChar).flatten ++ '"' :: rest) (by decide) (by decide)
          rw [show escChar '\t' = ['\\', 't'] from rfl, List.cons_append,
            List.singleton_append, hstep, ih rest]
          rfl
        · by_cases hcr : c = '\r'
          · subst hcr
            have hstep := jparse_esc_special 'r' '\r'
              ((cs.map escChar).flatten ++ '"' :: rest) (by decide) (by decide)
            rw [show escChar '\r' = ['\\', 'r'] from rfl, List.cons_append,
              List.singleton_append, hstep, ih rest]
            rfl
          · by_cases hb8 : c.toNat = 8
            · have hc8 : c = Char.ofNat 8 := by rw [← hb8, hofn]
              subst hc8
              have hstep := jparse_esc_special 'b' (Char.ofNat 8)
                ((cs.map escChar).flatten ++ '"' :: rest) (by decide) (by decide)
              rw [show escChar (Char.ofNat 8) = ['\\', 'b'] from rfl, List.cons_append,
                List.singleton_append, hstep, ih rest]
              rfl
            · by_cases hb12 : c.toNat = 12
              · have hc12 : c = Char.ofNat 12 := by rw [← hb12, hofn]
                subst hc12
                have hstep := jparse_esc_special 'f' (Char.ofNat 12)
                  ((cs.map escChar).flatten ++ '"' :: rest) (by decide) (by decide)
                rw [show escChar (Char.ofNat 12) = ['\\', 'f'] from rfl, List.cons_append,
                  List.singleton_append, hstep, ih rest]
                rfl
              · have hesc : escChar c = ['\\', 'u', '0', '0',
                    hexDigitChar (c.toNat / 16), hexDigitChar (c.toNat % 16)] := by
                  unfold escChar
                  rw [if_neg hq, if_neg hbs, if_neg hn, if_neg ht, if_neg hcr,
                    if_neg hb8, if_neg hb12, if_pos hctrl]
                have hv4 : hexVal4 '0' '0' (hexDigitChar (c.toNat / 16))
                    (hexDigitChar (c.toNat % 16)) = some c.toNat := by
                  unfold hexVal4
                  rw [show hexVal '0' = some 0 from by decide,
                    hexVal_hexDigitChar (show c.toNat / 16 < 16 by omega),
                    hexVal_hexDigitChar (show c.toNat % 16 < 16 by omega)]
                  show some (0 * 4096 + 0 * 256 + c.toNat / 16 * 16 + c.toNat % 16) =
                    some c.toNat
                  congr 1
                  omega
                have hstep := jparse_u_escape '0' '0' (hexDigitChar (c.toNat / 16))
                  (hexDigitChar (c.toNat % 16)) c.toNat
                  ((cs.map escChar).flatten ++ '"' :: rest) hv4 (by omega)
                rw [hesc]
                show jparseStrBody ('\\' :: 'u' :: '0' :: '0' ::
                  hexDigitChar (c.toNat / 16) :: hexDigitChar (c.toNat % 16) ::
                  ((cs.map escChar).flatten ++ '"' :: rest)) = _
                rw [hstep, ih rest, hofn]
                rfl
    · by_cases h1 : c = '"'
      · subst h1
        have hstep := jparse_esc_special '"' '"'
          ((cs.map escChar).flatten ++ '"' :: rest) (by decide) (by decide)
        rw [show escChar '"' = ['\\', '"'] from rfl, List.cons_append,
          List.singleton_append, hstep, ih rest]
        rfl
      · by_cases h2 : c = '\\'
        · subst h2
          have hstep := jparse_esc_special '\\' '\\'
            ((cs.map escChar).flatten ++ '"' :: rest) (by decide) (by decide)
          rw [show escChar '\\' = ['\\', '\\'] from rfl, List.cons_append,
            List.singleton_append, hstep, ih rest]
          rfl
        · have hn : ¬ c = '\n' := fun he => hctrl (by rw [he]; decide)
          have ht : ¬ c = '\t' := fun he => hctrl (by rw [he]; decide)
          have hr : ¬ c = '\r' := fun he => hctrl (by rw [he]; decide)
          have hb8 : ¬ c.toNat = 8 := fun he => hctrl (by omega)
          have hb12 : ¬ c.toNat = 12 := fun he => hctrl (by omega)
          have hesc : escChar c = [c] := by
            unfold escChar
            rw [if_neg h1, if_neg h2, if_neg hn, if_neg ht, if_neg hr,
              if_neg hb8, if_neg hb12, if_neg hctrl]
          rw [hesc, List.singleton_append,
            jparse_lit_step c _ h1 h2 hctrl, ih rest]
          rfl

theorem isDigitCh_props {c : Char} (h : isDigitCh c = true) :
    isJsonWs c = false ∧ c ≠ ']' ∧ c ≠ '}' ∧ c ≠ ',' ∧ c ≠ ':' := by
  have h48 : 48 ≤ c.toNat ∧ c.toNat ≤ 57 := by simpa [isDigitCh] using h
  refine ⟨?_, ?_, ?_, ?_, ?_⟩
  · have : ¬ (c = ' ' ∨ c = '\t' ∨ c = '\n' ∨ c = '\r') := by
      rintro (he | he | he | he) <;> (rw [he] at h48; revert h48; decide)
    simpa [isJsonWs] using this
  all_goals (intro he; rw [he] at h48; revert h48; decide)

theorem intRepr_head (n : Int) :
    ∃ c t, intRepr n = c :: t ∧ isJsonWs c = false ∧ c ≠ ']' ∧ c ≠ '}' ∧
      c ≠ ',' ∧ c ≠ ':' ∧ c ≠ '"' := by
  obtain ⟨_, hne, hdig, _⟩ := natDigits_spec n.natAbs
  unfold intRepr
  by_cases hneg : n < 0
  · rw [if_pos hneg]
    exact ⟨'-', _, rfl, by decide, by decide, by decide, by decide, by decide, by decide⟩
  · rw [if_neg hneg]
    rcases hd : natDigits n.natAbs with _ | ⟨c0, t0⟩
    · exact absurd hd hne
    have hc0 : isDigitCh c0 = true := hdig c0 (by rw [hd]; exact List.mem_cons_self _ _)
    obtain ⟨hw, hrb, hcb, hcm, hcl⟩ := isDigitCh_props hc0
    refine ⟨c0, t0, rfl, hw, hrb, hcb, hcm, hcl, ?_⟩
    intro he
    rw [he] at hc0
    exact absurd hc0 (by decide)

/-- The first character of a serialized value: never whitespace, never a
closing bracket, separator or quote-context confuser. -/
theorem jdump_head (il lvl : Nat) (v : JVal) :
    ∃ c t, jdump il lvl v = c :: t ∧ isJsonWs c = false ∧ c ≠ ']' ∧ c ≠ '}' := by
  cases v with
  | null => exact ⟨'n', _, rfl, by decide, by decide, by decide⟩
  | bool b =>
    cases b
    · exact ⟨'f', _, rfl, by decide, by decide, by decide⟩
    · exact ⟨'t', _, rfl, by decide, by decide, by decide⟩
  | num n =>
    obtain ⟨c, t, he, hw, h1, h2, _, _, _⟩ := intRepr_head n
    exact ⟨c, t, he, hw, h1, h2⟩
  | str s => exact ⟨'"', _, rfl, by decide, by decide, by decide⟩
  | arr xs =>
    cases xs
    · exact ⟨'[', _, rfl, by decide, by decide, by decide⟩
    · exact ⟨'[', _, rfl, by decide, by decide, by decide⟩
  | obj kvs =>
    cases kvs
    · exact ⟨'{', _, rfl, by decide, by decide, by decide⟩
    · exact ⟨'{', _, rfl, by decide, by decide, by decide⟩

theorem numStop_cons {c : Char} (t : List Char) (h1 : isDigitCh c = false)
    (h2 : c ≠ '.') (h3 : c ≠ 'e') (h4 : c ≠ 'E') : numStop (c :: t) := by
  intro c' t' he
  injection he with he1 he2
  subst he1
  exact ⟨h1, h2, h3, h4⟩

theorem numStop_dumpArr (il lvl lvl2 : Nat) (xs : JArr) (rest : List Char) :
    numStop (jdumpArr il lvl xs ++ (jnl il lvl2 ++ ']' :: rest)) := by
  cases xs with
  | nil => exact numStop_cons _ (by decide) (by decide) (by decide) (by decide)
  | cons v xs => exact numStop_cons _ (by decide) (by decide) (by decide) (by decide)

theorem numStop_dumpObj (il lvl lvl2 : Nat) (m : JObj) (rest : List Char) :
    numStop (jdumpObj il lvl m ++ (jnl il lvl2 ++ '}' :: rest)) := by
  cases m with
  | nil => exact numStop_cons _ (by decide) (by decide) (by decide) (by decide)
  | cons k v m => exact numStop_cons _ (by decide) (by decide) (by decide) (by decide)

theorem jobjAppend_nil : ∀ (a : JObj), jobjAppend a .nil = a
  | .nil => rfl
  | .cons k v r => by unfold jobjAppend; rw [jobjAppend_nil r]

theorem jobjAppend_assoc : ∀ (a b c : JObj),
    jobjAppend (jobjAppend a b) c = jobjAppend a (jobjAppend b c)
  | .nil, _, _ => rfl
  | .cons k v r, b, c => by
    show JObj.cons k v (jobjAppend (jobjAppend r b) c) =
      JObj.cons k v (jobjAppend r (jobjAppend b c))
    rw [jobjAppend_assoc r b c]

theorem jobjInsert_fresh : ∀ (a : JObj) (k : String) (v : JVal),
    jobjHasKey a k = false → jobjInsert a k v = jobjAppend a (.cons k v .nil)
  | .nil, _, _, _ => rfl
  | .cons k' v' r, k, v, h => by
    unfold jobjInsert jobjAppend
    unfold jobjHasKey at h
    by_cases hk : k' = k
    · rw [if_pos hk] at h; simp at h
    · rw [if_neg hk] at h
      rw [if_neg hk, jobjInsert_fresh r k v h]

theorem jobjHasKey_append : ∀ (a b : JObj) (q : String),
    jobjHasKey (jobjAppend a b) q = (jobjHasKey a q || jobjHasKey b q)
  | .nil, _, _ => rfl
  | .cons k v r, b, q => by
    show (if k = q then true else jobjHasKey (jobjAppend r b) q) =
      ((if k = q then true else jobjHasKey r q) || jobjHasKey b q)
    by_cases hk : k = q
    · rw [if_pos hk, if_pos hk]; rfl
    · rw [if_neg hk, if_neg hk, jobjHasKey_append r b q]

theorem jobjDedupAux_wf :
    ∀ (m acc : JObj), jwfObj m = true →
      (∀ q, jobjHasKey m q = true → jobjHasKey acc q = false) →
      jobjDedupAux acc m = jobjAppend acc m
  | .nil, acc, _, _ => by rw [jobjAppend_nil]; rfl
  | .cons k v r, acc, hwf, hfresh => by
    have hwf' : jobjHasKey r k = false ∧ jwf v = true ∧ jwfObj r = true := by
      have h2 := hwf
      unfold jwfObj at h2
      rw [Bool.and_eq_true, Bool.and_eq_true] at h2
      refine ⟨?_, h2.1.2, h2.2⟩
      have h3 := h2.1.1
      simpa using h3
    have hacck : jobjHasKey acc k = false := by
      apply hfresh
      unfold jobjHasKey
      rw [if_pos rfl]
    unfold jobjDedupAux
    rw [jobjInsert_fresh acc k v hacck]
    rw [jobjDedupAux_wf r _ hwf'.2.2 ?_]
    · rw [jobjAppend_assoc]
      rfl
    · intro q hq
      rw [jobjHasKey_append]
      have h1 : jobjHasKey acc q = false := by
        apply hfresh
        unfold jobjHasKey
        by_cases hk : k = q
        · rw [if_pos hk]
        · rw [if_neg hk]; exact hq
      have h2 : jobjHasKey (JObj.cons k v .nil) q = false := by
        unfold jobjHasKey
        by_cases hk : k = q
        · subst hk
          rw [hq] at hwf'
          exact absurd hwf'.1 (by simp)
        · rw [if_neg hk]; rfl
      rw [h1, h2]
      rfl

theorem jobjDedup_wf {m : JObj} (h : jwfObj m = true) : jobjDedup m = m := by
  unfold jobjDedup
  rw [jobjDedupAux_wf m .nil h (fun q _ => rfl)]
  rfl

theorem jparseVal_succ (fuel : Nat) (cs : List Char) :
    jparseVal (fuel + 1) cs =
      (match jskipWs cs with
      | [] => none
      | c :: rest =>
        if c = 'n' then
          match rest with
          | 'u' :: 'l' :: 'l' :: r => some (.null, r)
          | _ => none
        else if c = 't' then
          match rest with
          | 'r' :: 'u' :: 'e' :: r => some (.bool true, r)
          | _ => none
        else if c = 'f' then
          match rest with
          | 'a' :: 'l' :: 's' :: 'e' :: r => some (.bool false, r)
          | _ => none
        else if c = '"' then
          (jparseStrBody rest).map (fun p => (.str (String.mk p.1), p.2))
        else if c = '[' then
          match jskipWs rest with
          | ']' :: r => some (.arr .nil, r)
          | _ => (jparseItems fuel rest).map (fun p => (.arr p.1, p.2))
        else if c = '{' then
          match jskipWs rest with
          | '}' :: r => some (.obj .nil, r)
          | _ => (jparseMembers fuel rest).map (fun p => (.obj (jobjDedup p.1), p.2))
        else
          (jparseNum (c :: rest)).map (fun p => (.num p.1, p.2))) := by
  rw [jparseVal.eq_def]

theorem jparseItems_succ (fuel : Nat) (cs : List Char) :
    jparseItems (fuel + 1) cs =
      (match jparseVal fuel cs with
      | none => none
      | some (v, rest) =>
        match jskipWs rest with
        | [] => none
        | c :: rest2 =>
          if c = ',' then
            (jparseItems fuel rest2).map (fun p => (.cons v p.1, p.2))
          else if c = ']' then some (.cons v .nil, rest2)
          else none) := by
  rw [jparseItems.eq_def]

theorem jparseMembers_succ (fuel : Nat) (cs : List Char) :
    jparseMembers (fuel + 1) cs =
      (match jskipWs cs with
      | [] => none
      | c :: rest =>
        if c = '"' then
          match jparseStrBody rest with
          | none => none
          | some (kcs, rest2) =>
            match jskipWs rest2 with
            | [] => none
            | c2 :: rest3 =>
              if c2 = ':' then
                match jparseVal fuel rest3 with
                | none => none
                | some (v, rest4) =>
                  match jskipWs rest4 with
                  | [] => none
                  | c3 :: rest5 =>
                    if c3 = ',' then
                      (jparseMembers fuel rest5).map (fun p =>
                        (.cons (String.mk kcs) v p.1, p.2))
                    else if c3 = '}' then some (.cons (String.mk kcs) v .nil, rest5)
                    else none
              else none
        else none) := by
  rw [jparseMembers.eq_def]

theorem intRepr_head2 (n : Int) :
    ∃ c t, intRepr n = c :: t ∧ (c = '-' ∨ isDigitCh c = true) := by
  obtain ⟨_, hne, hdig, _⟩ := natDigits_spec n.natAbs
  unfold intRepr
  by_cases hneg : n < 0
  · rw [if_pos hneg]
    exact ⟨'-', _, rfl, Or.inl rfl⟩
  · rw [if_neg hneg]
    rcases hd : natDigits n.natAbs with _ | ⟨c0, t0⟩
    · exact absurd hd hne
    have hc0 : isDigitCh c0 = true := hdig c0 (by rw [hd]; exact List.mem_cons_self _ _)
    exact ⟨c0, t0, rfl, Or.inr hc0⟩

theorem numHead_props {c : Char} (h : c = '-' ∨ isDigitCh c = true) :
    isJsonWs c = false ∧ c ≠ 'n' ∧ c ≠ 't' ∧ c ≠ 'f' ∧ c ≠ '"' ∧
      c ≠ '[' ∧ c ≠ '{' := by
  rcases h with he | hd
  · subst he
    refine ⟨by decide, by decide, by decide, by decide, by decide, by decide, by decide⟩
  · have h48 : 48 ≤ c.toNat ∧ c.toNat ≤ 57 := by simpa [isDigitCh] using hd
    refine ⟨?_, ?_, ?_, ?_, ?_, ?_, ?_⟩
    · have : ¬ (c = ' ' ∨ c = '\t' ∨ c = '\n' ∨ c = '\r') := by
        rintro (he | he | he | he) <;> (rw [he] at h48; revert h48; decide)
      simpa [isJsonWs] using this
    all_goals (intro he; rw [he] at h48; revert h48; decide)

theorem jsize_pos : ∀ v : JVal, 1 ≤ jsize v
  | .null => le_refl 1
  | .bool _ => le_refl 1
  | .num _ => le_refl 1
  | .str _ => le_refl 1
  | .arr xs => by unfold jsize; omega
  | .obj kvs => by unfold jsize; omega

theorem escStr_append (k : String) (X : List Char) :
    escStr k ++ X = '"' :: ((k.data.map escChar).flatten ++ '"' :: X) := by
  unfold escStr
  simp only [List.cons_append, List.append_assoc, List.nil_append]

theorem jdump_arr_cons (il lvl : Nat) (v : JVal) (xs : JArr) :
    jdump il lvl (.arr (.cons v xs)) =
      '[' :: (jnl il (lvl + 1) ++ (jdump il (lvl + 1) v ++
        (jdumpArr il (lvl + 1) xs ++ (jnl il lvl ++ [']'])))) := by
  rw [jdump.eq_def]
  simp only [List.cons_append, List.append_assoc, List.nil_append]

theorem jdump_obj_cons (il lvl : Nat) (k : String) (v : JVal) (m : JObj) :
    jdump il lvl (.obj (.cons k v m)) =
      '{' :: (jnl il (lvl + 1) ++ (escStr k ++ (':' :: ' ' ::
        (jdump il (lvl + 1) v ++ (jdumpObj il (lvl + 1) m ++
          (jnl il lvl ++ ['}'])))))) := by
  rw [jdump.eq_def]
  simp only [List.cons_append, List.append_assoc, List.nil_append]

theorem jdumpArr_cons_norm (il lvl : Nat) (v : JVal) (xs : JArr) :
    jdumpArr il lvl (.cons v xs) =
      ',' :: (jnl il lvl ++ (jdump il lvl v ++ jdumpArr il lvl xs)) := by
  rw [jdumpArr.eq_def]
  simp only [List.cons_append, List.append_assoc, List.nil_append]

theorem jdumpObj_cons_norm (il lvl : Nat) (k : String) (v : JVal) (m : JObj) :
    jdumpObj il lvl (.cons k v m) =
      ',' :: (jnl il lvl ++ (escStr k ++ (':' :: ' ' ::
        (jdump il lvl v ++ jdumpObj il lvl m)))) := by
  rw [jdumpObj.eq_def]
  simp only [List.cons_append, List.append_assoc, List.nil_append]

theorem allWs_space : allWs [' '] := by
  intro c hc
  simp at hc
  subst hc
  rfl

/-- Parsing inverts printing: the parser consumes exactly the printed form of
any well-formed value (surrounding whitespace and a non-numeric continuation
allowed) and rebuilds the value. -/
theorem jparse_roundtrip : ∀ n : Nat,
    (∀ (il lvl : Nat) (v : JVal) (fuel : Nat) (ws rest : List Char),
      jsize v ≤ n → allWs ws → jwf v = true → jsize v ≤ fuel → numStop rest →
      jparseVal fuel (ws ++ (jdump il lvl v ++ rest)) = some (v, rest)) ∧
    (∀ (il lvl lvl2 : Nat) (v : JVal) (xs : JArr) (fuel : Nat) (ws rest : List Char),
      1 + jsize v + jsizeArr xs ≤ n → allWs ws → jwf v = true → jwfArr xs = true →
      1 + jsize v + jsizeArr xs ≤ fuel →
      jparseItems fuel (ws ++ (jdump il lvl v ++ (jdumpArr il lvl xs ++
        (jnl il lvl2 ++ ']' :: rest)))) = some (.cons v xs, rest)) ∧
    (∀ (il lvl lvl2 : Nat) (k : String) (v : JVal) (m : JObj) (fuel : Nat)
        (ws rest : List Char),
      1 + jsize v + jsizeObj m ≤ n → allWs ws → jwf v = true → jwfObj m = true →
      1 + jsize v + jsizeObj m ≤ fuel →
      jparseMembers fuel (ws ++ (escStr k ++ (':' :: ' ' :: (jdump il lvl v ++
        (jdumpObj il lvl m ++ (jnl il lvl2 ++ '}' :: rest)))))) =
        some (.cons k v m, rest)) := by
  intro n
  induction n using Nat.strong_induction_on with
  | _ n IH =>
  refine ⟨?_, ?_, ?_⟩
  · intro il lvl v fuel ws rest hn hws hwf hfuel hstop
    obtain ⟨f, rfl⟩ : ∃ f, fuel = f + 1 := ⟨fuel - 1, by have := jsize_pos v; omega⟩
    cases v with
    | null =>
      have hskip : jskipWs (ws ++ (jdump il lvl JVal.null ++ rest)) =
          'n' :: ('u' :: 'l' :: 'l' :: rest) := by
        rw [jskipWs_append_ws _ hws]
        show jskipWs ('n' :: ('u' :: 'l' :: 'l' :: rest)) = _
        exact jskipWs_cons_of_not _ (by decide)
      rw [jparseVal_succ, hskip]
      rfl
    | bool b =>
      cases b with
      | false =>
        have hskip : jskipWs (ws ++ (jdump il lvl (JVal.bool false) ++ rest)) =
            'f' :: ('a' :: 'l' :: 's' :: 'e' :: rest) := by
          rw [jskipWs_append_ws _ hws]
          show jskipWs ('f' :: ('a' :: 'l' :: 's' :: 'e' :: rest)) = _
          exact jskipWs_cons_of_not _ (by decide)
        rw [jparseVal_succ, hskip]
        rfl
      | true =>
        have hskip : jskipWs (ws ++ (jdump il lvl (JVal.bool true) ++ rest)) =
            't' :: ('r' :: 'u' :: 'e' :: rest) := by
          rw [jskipWs_append_ws _ hws]
          show jskipWs ('t' :: ('r' :: 'u' :: 'e' :: rest)) = _
          exact jskipWs_cons_of_not _ (by decide)
        rw [jparseVal_succ, hskip]
        rfl
    | num n0 =>
      obtain ⟨c0, t0, hrepr, hhead⟩ := intRepr_head2 n0
      obtain ⟨hw0, hn0, ht0, hf0, hq0, hlb0, hlc0⟩ := numHead_props hhead
      have hdr : jdump il lvl (JVal.num n0) ++ rest = c0 :: (t0 ++ rest) := by
        show intRepr n0 ++ rest = _
        rw [hrepr]
        rfl
      have hskip : jskipWs (ws ++ (jdump il lvl (JVal.num n0) ++ rest)) =
          c0 :: (t0 ++ rest) := by
        rw [jskipWs_append_ws _ hws, hdr]
        exact jskipWs_cons_of_not _ hw0
      rw [jparseVal_succ, hskip]
      split
      · next heq => first | exact absurd heq (by simp) | exact absurd heq.symm (by simp)
      · next c1 r1 heq =>
        injection heq with h1 h2
        subst h1
        subst h2
        rw [if_neg hn0, if_neg ht0, if_neg hf0, if_neg hq0, if_neg hlb0, if_neg hlc0]
        have hrw : c0 :: (t0 ++ rest) = intRepr n0 ++ rest := by
          rw [hrepr]
          rfl
        rw [hrw, jparseNum_repr n0 hstop]
        rfl
    | str s =>
      have hskip : jskipWs (ws ++ (jdump il lvl (JVal.str s) ++ rest)) =
          '"' :: ((s.data.map escChar).flatten ++ '"' :: rest) := by
        rw [jskipWs_append_ws _ hws]
        show jskipWs (escStr s ++ rest) = _
        rw [escStr_append]
        exact jskipWs_cons_of_not _ (by decide)
      rw [jparseVal_succ, hskip]
      show (jparseStrBody ((s.data.map escChar).flatten ++ '"' :: rest)).map
          (fun p => (JVal.str (String.mk p.1), p.2)) = some (JVal.str s, rest)
      rw [jparseStrBody_esc]
      rfl
    | arr xs =>
      cases xs with
      | nil =>
        have hskip : jskipWs (ws ++ (jdump il lvl (JVal.arr JArr.nil) ++ rest)) =
            '[' :: (']' :: rest) := by
          rw [jskipWs_append_ws _ hws]
          show jskipWs ('[' :: (']' :: rest)) = _
          exact jskipWs_cons_of_not _ (by decide)
        rw [jparseVal_succ, hskip]
        rfl
      | cons v2 xs2 =>
        have hskip : jskipWs (ws ++ (jdump il lvl (JVal.arr (JArr.cons v2 xs2)) ++ rest)) =
            '[' :: (jnl il (lvl + 1) ++ (jdump il (lvl + 1) v2 ++
              (jdumpArr il (lvl + 1) xs2 ++ (jnl il lvl ++ ']' :: rest)))) := by
          rw [jskipWs_append_ws _ hws, jdump_arr_cons]
          simp only [List.cons_append, List.append_assoc, List.nil_append]
          exact jskipWs_cons_of_not _ (by decide)
        rw [jparseVal_succ, hskip]
        show (match jskipWs (jnl il (lvl + 1) ++ (jdump il (lvl + 1) v2 ++
              (jdumpArr il (lvl + 1) xs2 ++ (jnl il lvl ++ ']' :: rest)))) with
          | ']' :: r => some (JVal.arr JArr.nil, r)
          | _ => (jparseItems f (jnl il (lvl + 1) ++ (jdump il (lvl + 1) v2 ++
              (jdumpArr il (lvl + 1) xs2 ++ (jnl il lvl ++ ']' :: rest))))).map
              (fun p => (JVal.arr p.1, p.2))) = some (JVal.arr (JArr.cons v2 xs2), rest)
        obtain ⟨c2, t2, hd2, hw2, hrb2, hcb2⟩ := jdump_head il (lvl + 1) v2
        have hskip2 : jskipWs (jnl il (lvl + 1) ++ (jdump il (lvl + 1) v2 ++
            (jdumpArr il (lvl + 1) xs2 ++ (jnl il lvl ++ ']' :: rest)))) =
            c2 :: (t2 ++ (jdumpArr il (lvl + 1) xs2 ++ (jnl il lvl ++ ']' :: rest))) := by
          rw [jskipWs_append_ws _ (allWs_jnl _ _), hd2, List.cons_append]
          exact jskipWs_cons_of_not _ hw2
        rw [hskip2]
        split
        · next r heq =>
          injection heq with h1 h2
          first | exact absurd h1 hrb2 | exact absurd h1.symm hrb2
        · next =>
          have hwfp : jwf v2 = true ∧ jwfArr xs2 = true := by
            have h2 : (jwf v2 && jwfArr xs2) = true := hwf
            rw [Bool.and_eq_true] at h2
            exact h2
          have hszeq : jsize (JVal.arr (JArr.cons v2 xs2)) =
              1 + (1 + jsize v2 + jsizeArr xs2) := rfl
          have hlt : 1 + jsize v2 + jsizeArr xs2 < n := by rw [hszeq] at hn; omega
          have hfB : 1 + jsize v2 + jsizeArr xs2 ≤ f := by rw [hszeq] at hfuel; omega
          have hB := (IH _ hlt).2.1 il (lvl + 1) lvl v2 xs2 f (jnl il (lvl + 1)) rest
            (le_refl _) (allWs_jnl _ _) hwfp.1 hwfp.2 hfB
          rw [hB]
          rfl
    | obj kvs =>
      cases kvs with
      | nil =>
        have hskip : jskipWs (ws ++ (jdump il lvl (JVal.obj JObj.nil) ++ rest)) =
            '{' :: ('}' :: rest) := by
          rw [jskipWs_append_ws _ hws]
          show jskipWs ('{' :: ('}' :: rest)) = _
          exact jskipWs_cons_of_not _ (by decide)
        rw [jparseVal_succ, hskip]
        rfl
      | cons k2 v2 m2 =>
        have hskip : jskipWs (ws ++ (jdump il lvl (JVal.obj (JObj.cons k2 v2 m2)) ++ rest)) =
            '{' :: (jnl il (lvl + 1) ++ (escStr k2 ++ (':' :: ' ' ::
              (jdump il (lvl + 1) v2 ++ (jdumpObj il (lvl + 1) m2 ++
                (jnl il lvl ++ '}' :: rest)))))) := by
          rw [jskipWs_append_ws _ hws, jdump_obj_cons]
          simp only [List.cons_append, List.append_assoc, List.nil_append]
          exact jskipWs_cons_of_not _ (by decide)
        rw [jparseVal_succ, hskip]
        show (match jskipWs (jnl il (lvl + 1) ++ (escStr k2 ++ (':' :: ' ' ::
              (jdump il (lvl + 1) v2 ++ (jdumpObj il (lvl + 1) m2 ++
                (jnl il lvl ++ '}' :: rest)))))) with
          | '}' :: r => some (JVal.obj JObj.nil, r)
          | _ => (jparseMembers f (jnl il (lvl + 1) ++ (escStr k2 ++ (':' :: ' ' ::
              (jdump il (lvl + 1) v2 ++ (jdumpObj il (lvl + 1) m2 ++
                (jnl il lvl ++ '}' :: rest))))))).map
              (fun p => (JVal.obj (jobjDedup p.1), p.2))) =
          some (JVal.obj (JObj.cons k2 v2 m2), rest)
        have hskip2 : jskipWs (jnl il (lvl + 1) ++ (escStr k2 ++ (':' :: ' ' ::
            (jdump il (lvl + 1) v2 ++ (jdumpObj il (lvl + 1) m2 ++
              (jnl il lvl ++ '}' :: rest)))))) =
            '"' :: ((k2.data.map escChar).flatten ++ '"' :: (':' :: ' ' ::
              (jdump il (lvl + 1) v2 ++ (jdumpObj il (lvl + 1) m2 ++
                (jnl il lvl ++ '}' :: rest))))) := by
          rw [jskipWs_append_ws _ (allWs_jnl _ _), escStr_append]
          exact jskipWs_cons_of_not _ (by decide)
        rw [hskip2]
        split
        · next r heq =>
          injection heq with h1 h2
          first | exact absurd h1 (by decide) | exact absurd h1.symm (by decide)
        · next =>
          have hwfo : jwfObj (JObj.cons k2 v2 m2) = true := hwf
          have hwfp : jwf v2 = true ∧ jwfObj m2 = true := by
            have h2 : (!jobjHasKey m2 k2 && jwf v2 && jwfObj m2) = true := hwfo
            rw [Bool.and_eq_true, Bool.and_eq_true] at h2
            exact ⟨h2.1.2, h2.2⟩
          have hszeq : jsize (JVal.obj (JObj.cons k2 v2 m2)) =
              1 + (1 + jsize v2 + jsizeObj m2) := rfl
          have hlt : 1 + jsize v2 + jsizeObj m2 < n := by rw [hszeq] at hn; omega
          have hfC : 1 + jsize v2 + jsizeObj m2 ≤ f := by rw [hszeq] at hfuel; omega
          have hC := (IH _ hlt).2.2 il (lvl + 1) lvl k2 v2 m2 f (jnl il (lvl + 1)) rest
            (le_refl _) (allWs_jnl _ _) hwfp.1 hwfp.2 hfC
          rw [hC]
          show some (JVal.obj (jobjDedup (JObj.cons k2 v2 m2)), rest) =
            some (JVal.obj (JObj.cons k2 v2 m2), rest)
          rw [jobjDedup_wf hwfo]
  · intro il lvl lvl2 v xs fuel ws rest hn hws hwfv hwfxs hfuel
    obtain ⟨f, rfl⟩ : ∃ f, fuel = f + 1 := ⟨fuel - 1, by omega⟩
    rw [jparseItems_succ]
    have hltA : jsize v < n := by omega
    have hA := (IH _ hltA).1 il lvl v f ws
      (jdumpArr il lvl xs ++ (jnl il lvl2 ++ ']' :: rest)) (le_refl _) hws hwfv
      (by omega) (numStop_dumpArr il lvl lvl2 xs rest)
    rw [hA]
    show (match jskipWs (jdumpArr il lvl xs ++ (jnl il lvl2 ++ ']' :: rest)) with
      | [] => none
      | c :: rest2 =>
        if c = ',' then (jparseItems f rest2).map (fun p => (JArr.cons v p.1, p.2))
        else if c = ']' then some (JArr.cons v JArr.nil, rest2)
        else none) = some (JArr.cons v xs, rest)
    cases xs with
    | nil =>
      have hskip : jskipWs (jdumpArr il lvl JArr.nil ++ (jnl il lvl2 ++ ']' :: rest)) =
          ']' :: rest := by
        show jskipWs (jnl il lvl2 ++ (']' :: rest)) = _
        rw [jskipWs_append_ws _ (allWs_jnl _ _)]
        exact jskipWs_cons_of_not _ (by decide)
      rw [hskip]
      rfl
    | cons v3 xs3 =>
      have hskip : jskipWs (jdumpArr il lvl (JArr.cons v3 xs3) ++
          (jnl il lvl2 ++ ']' :: rest)) =
          ',' :: (jnl il lvl ++ (jdump il lvl v3 ++ (jdumpArr il lvl xs3 ++
            (jnl il lvl2 ++ ']' :: rest)))) := by
        rw [jdumpArr_cons_norm]
        simp only [List.cons_append, List.append_assoc, List.nil_append]
        exact jskipWs_cons_of_not _ (by decide)
      rw [hskip]
      show (jparseItems f (jnl il lvl ++ (jdump il lvl v3 ++ (jdumpArr il lvl xs3 ++
          (jnl il lvl2 ++ ']' :: rest))))).map (fun p => (JArr.cons v p.1, p.2)) =
          some (JArr.cons v (JArr.cons v3 xs3), rest)
      have hwfp : jwf v3 = true ∧ jwfArr xs3 = true := by
        have h2 : (jwf v3 && jwfArr xs3) = true := hwfxs
        rw [Bool.and_eq_true] at h2
        exact h2
      have hszeq : jsizeArr (JArr.cons v3 xs3) = 1 + jsize v3 + jsizeArr xs3 := rfl
      have hlt : 1 + jsize v3 + jsizeArr xs3 < n := by
        rw [hszeq] at hn
        have := jsize_pos v
        omega
      have hfB : 1 + jsize v3 + jsizeArr xs3 ≤ f := by
        rw [hszeq] at hfuel
        have := jsize_pos v
        omega
      have hB := (IH _ hlt).2.1 il lvl lvl2 v3 xs3 f (jnl il lvl) rest (le_refl _)
        (allWs_jnl _ _) hwfp.1 hwfp.2 hfB
      rw [hB]
      rfl
  · intro il lvl lvl2 k v m fuel ws rest hn hws hwfv hwfm hfuel
    obtain ⟨f, rfl⟩ : ∃ f, fuel = f + 1 := ⟨fuel - 1, by omega⟩
    rw [jparseMembers_succ]
    have hskip : jskipWs (ws ++ (escStr k ++ (':' :: ' ' :: (jdump il lvl v ++
        (jdumpObj il lvl m ++ (jnl il lvl2 ++ '}' :: rest)))))) =
        '"' :: ((k.data.map escChar).flatten ++ '"' :: (':' :: ' ' ::
          (jdump il lvl v ++ (jdumpObj il lvl m ++ (jnl il lvl2 ++ '}' :: rest))))) := by
      rw [jskipWs_append_ws _ hws, escStr_append]
      exact jskipWs_cons_of_not _ (by decide)
    rw [hskip]
    show (match jparseStrBody ((k.data.map escChar).flatten ++ '"' :: (':' :: ' ' ::
        (jdump il lvl v ++ (jdumpObj il lvl m ++ (jnl il lvl2 ++ '}' :: rest))))) with
      | none => none
      | some (kcs, rest2) =>
        match jskipWs rest2 with
        | [] => none
        | c2 :: rest3 =>
          if c2 = ':' then
            match jparseVal f rest3 with
            | none => none
            | some (w, rest4) =>
              match jskipWs rest4 with
              | [] => none
              | c3 :: rest5 =>
                if c3 = ',' then
                  (jparseMembers f rest5).map (fun p =>
                    (JObj.cons (String.mk kcs) w p.1, p.2))
                else if c3 = '}' then some (JObj.cons (String.mk kcs) w JObj.nil, rest5)
                else none
          else none) = some (JObj.cons k v m, rest)
    rw [jparseStrBody_esc]
    show (match jskipWs (':' :: ' ' :: (jdump il lvl v ++ (jdumpObj il lvl m ++
        (jnl il lvl2 ++ '}' :: rest)))) with
      | [] => none
      | c2 :: rest3 =>
        if c2 = ':' then
          match jparseVal f rest3 with
          | none => none
          | some (w, rest4) =>
            match jskipWs rest4 with
            | [] => none
            | c3 :: rest5 =>
              if c3 = ',' then
                (jparseMembers f rest5).map (fun p =>
                  (JObj.cons (String.mk k.data) w p.1, p.2))
              else if c3 = '}' then some (JObj.cons (String.mk k.data) w JObj.nil, rest5)
              else none
        else none) = some (JObj.cons k v m, rest)
    rw [jskipWs_cons_of_not _ (by decide)]
    have hltA : jsize v < n := by omega
    have hA := (IH _ hltA).1 il lvl v f [' ']
      (jdumpObj il lvl m ++ (jnl il lvl2 ++ '}' :: rest)) (le_refl _) allWs_space hwfv
      (by omega) (numStop_dumpObj il lvl lvl2 m rest)
    have hA2 : jparseVal f (' ' :: (jdump il lvl v ++ (jdumpObj il lvl m ++
        (jnl il lvl2 ++ '}' :: rest)))) =
        some (v, jdumpObj il lvl m ++ (jnl il lvl2 ++ '}' :: rest)) := hA
    show (match jparseVal f (' ' :: (jdump il lvl v ++ (jdumpObj il lvl m ++
        (jnl il lvl2 ++ '}' :: rest)))) with
      | none => none
      | some (w, rest4) =>
        match jskipWs rest4 with
        | [] => none
        | c3 :: rest5 =>
          if c3 = ',' then
            (jparseMembers f rest5).map (fun p =>
              (JObj.cons (String.mk k.data) w p.1, p.2))
          else if c3 = '}' then some (JObj.cons (String.mk k.data) w JObj.nil, rest5)
          else none) = some (JObj.cons k v m, rest)
    rw [hA2]
    show (match jskipWs (jdumpObj il lvl m ++ (jnl il lvl2 ++ '}' :: rest)) with
      | [] => none
      | c3 :: rest5 =>
        if c3 = ',' then
          (jparseMembers f rest5).map (fun p =>
            (JObj.cons (String.mk k.data) v p.1, p.2))
        else if c3 = '}' then some (JObj.cons (String.mk k.data) v JObj.nil, rest5)
        else none) = some (JObj.cons k v m, rest)
    cases m with
    | nil =>
      have hskip2 : jskipWs (jdumpObj il lvl JObj.nil ++ (jnl il lvl2 ++ '}' :: rest)) =
          '}' :: rest := by
        show jskipWs (jnl il lvl2 ++ ('}' :: rest)) = _
        rw [jskipWs_append_ws _ (allWs_jnl _ _)]
        exact jskipWs_cons_of_not _ (by decide)
      rw [hskip2]
      rfl
    | cons k3 v3 m3 =>
      have hskip2 : jskipWs (jdumpObj il lvl (JObj.cons k3 v3 m3) ++
          (jnl il lvl2 ++ '}' :: rest)) =
          ',' :: (jnl il lvl ++ (escStr k3 ++ (':' :: ' ' :: (jdump il lvl v3 ++
            (jdumpObj il lvl m3 ++ (jnl il lvl2 ++ '}' :: rest)))))) := by
        rw [jdumpObj_cons_norm]
        simp only [List.cons_append, List.append_assoc, List.nil_append]
        exact jskipWs_cons_of_not _ (by decide)
      rw [hskip2]
      show (jparseMembers f (jnl il lvl ++ (escStr k3 ++ (':' :: ' ' ::
          (jdump il lvl v3 ++ (jdumpObj il lvl m3 ++
            (jnl il lvl2 ++ '}' :: rest))))))).map
          (fun p => (JObj.cons (String.mk k.data) v p.1, p.2)) =
          some (JObj.cons k v (JObj.cons k3 v3 m3), rest)
      have hwfp : jwf v3 = true ∧ jwfObj m3 = true := by
        have h2 : (!jobjHasKey m3 k3 && jwf v3 && jwfObj m3) = true := hwfm
        rw [Bool.and_eq_true, Bool.and_eq_true] at h2
        exact ⟨h2.1.2, h2.2⟩
      have hszeq : jsizeObj (JObj.cons k3 v3 m3) = 1 + jsize v3 + jsizeObj m3 := rfl
      have hlt : 1 + jsize v3 + jsizeObj m3 < n := by
        rw [hszeq] at hn
        have := jsize_pos v
        omega
      have hfC : 1 + jsize v3 + jsizeObj m3 ≤ f := by
        rw [hszeq] at hfuel
        have := jsize_pos v
        omega
      have hC := (IH _ hlt).2.2 il lvl lvl2 k3 v3 m3 f (jnl il lvl) rest (le_refl _)
        (allWs_jnl _ _) hwfp.1 hwfp.2 hfC
      rw [hC]
      rfl

theorem jnl_len_pos (il lvl : Nat) : 1 ≤ (jnl il lvl).length := by
  unfold jnl
  simp only [List.length_cons]
  omega

mutual
theorem jsize_le_len : ∀ (il lvl : Nat) (v : JVal), jsize v ≤ (jdump il lvl v).length
  | il, lvl, .null => by show (1 : Nat) ≤ 4; decide
  | il, lvl, .bool b => by
    cases b
    · show (1 : Nat) ≤ 5; decide
    · show (1 : Nat) ≤ 4; decide
  | il, lvl, .num n0 => by
    obtain ⟨c, t, he, _⟩ := intRepr_head2 n0
    show 1 ≤ (intRepr n0).length
    rw [he]
    simp only [List.length_cons]
    omega
  | il, lvl, .str s => by
    show 1 ≤ (escStr s).length
    unfold escStr
    simp only [List.length_cons, List.length_append]
    omega
  | il, lvl, .arr .nil => by show (2 : Nat) ≤ 2; decide
  | il, lvl, .arr (.cons v xs) => by
    have h1 := jsize_le_len il (lvl + 1) v
    have h2 := jsizeArr_le_len il (lvl + 1) xs
    have hj1 := jnl_len_pos il (lvl + 1)
    have hj2 := jnl_len_pos il lvl
    have hsz : jsize (JVal.arr (JArr.cons v xs)) = 1 + (1 + jsize v + jsizeArr xs) := rfl
    rw [hsz, jdump_arr_cons]
    simp only [List.length_cons, List.length_append]
    omega
  | il, lvl, .obj .nil => by show (2 : Nat) ≤ 2; decide
  | il, lvl, .obj (.cons k v m) => by
    have h1 := jsize_le_len il (lvl + 1) v
    have h2 := jsizeObj_le_len il (lvl + 1) m
    have hj1 := jnl_len_pos il (lvl + 1)
    have hj2 := jnl_len_pos il lvl
    have hsz : jsize (JVal.obj (JObj.cons k v m)) = 1 + (1 + jsize v + jsizeObj m) := rfl
    rw [hsz, jdump_obj_cons]
    simp only [List.length_cons, List.length_append]
    omega
theorem jsizeArr_le_len : ∀ (il lvl : Nat) (xs : JArr),
    jsizeArr xs ≤ (jdumpArr il lvl xs).length + 1
  | il, lvl, .nil => by show (1 : Nat) ≤ 0 + 1; decide
  | il, lvl, .cons v xs => by
    have h1 := jsize_le_len il lvl v
    have h2 := jsizeArr_le_len il lvl xs
    have hsz : jsizeArr (JArr.cons v xs) = 1 + jsize v + jsizeArr xs := rfl
    rw [hsz, jdumpArr_cons_norm]
    simp only [List.length_cons, List.length_append]
    omega
theorem jsizeObj_le_len : ∀ (il lvl : Nat) (m : JObj),
    jsizeObj m ≤ (jdumpObj il lvl m).length + 1
  | il, lvl, .nil => by show (1 : Nat) ≤ 0 + 1; decide
  | il, lvl, .cons k v m => by
    have h1 := jsize_le_len il lvl v
    have h2 := jsizeObj_le_len il lvl m
    have hsz : jsizeObj (JObj.cons k v m) = 1 + jsize v + jsizeObj m := rfl
    rw [hsz, jdumpObj_cons_norm]
    simp only [List.length_cons, List.length_append]
    omega
end

theorem hexDigitChar_ne_cr {x : Nat} (h : x < 16) : hexDigitChar x ≠ '\r' := by
  unfold hexDigitChar
  by_cases hx : x < 10
  · rw [if_pos hx]
    intro he
    have h2 := congrArg Char.toNat he
    rw [char_toNat_ofNat (by omega)] at h2
    revert h2
    show ¬ (48 + x = 13)
    omega
  · rw [if_neg hx]
    intro he
    have h2 := congrArg Char.toNat he
    rw [char_toNat_ofNat (by omega)] at h2
    revert h2
    show ¬ (87 + x = 13)
    omega

theorem escChar_noCR (c : Char) : '\r' ∉ escChar c := by
  by_cases h1 : c = '"'
  · subst h1; decide
  by_cases h2 : c = '\\'
  · subst h2; decide
  by_cases h3 : c = '\n'
  · subst h3; decide
  by_cases h4 : c = '\t'
  · subst h4; decide
  by_cases h5 : c = '\r'
  · subst h5; decide
  by_cases h6 : c.toNat = 8
  · have he : escChar c = ['\\', 'b'] := by
      unfold escChar
      rw [if_neg h1, if_neg h2, if_neg h3, if_neg h4, if_neg h5, if_pos h6]
    rw [he]
    decide
  by_cases h7 : c.toNat = 12
  · have he : escChar c = ['\\', 'f'] := by
      unfold escChar
      rw [if_neg h1, if_neg h2, if_neg h3, if_neg h4, if_neg h5, if_neg h6, if_pos h7]
    rw [he]
    decide
  by_cases h8 : c.toNat < 32
  · have he : escChar c = ['\\', 'u', '0', '0',
        hexDigitChar (c.toNat / 16), hexDigitChar (c.toNat % 16)] := by
      unfold escChar
      rw [if_neg h1, if_neg h2, if_neg h3, if_neg h4, if_neg h5, if_neg h6, if_neg h7,
        if_pos h8]
    rw [he]
    intro hm
    simp only [List.mem_cons, List.not_mem_nil, or_false] at hm
    rcases hm with hm | hm | hm | hm | hm | hm
    · exact absurd hm (by decide)
    · exact absurd hm (by decide)
    · exact absurd hm (by decide)
    · exact absurd hm (by decide)
    · exact hexDigitChar_ne_cr (by omega) hm.symm
    · exact hexDigitChar_ne_cr (by omega) hm.symm
  · have he : escChar c = [c] := by
      unfold escChar
      rw [if_neg h1, if_neg h2, if_neg h3, if_neg h4, if_neg h5, if_neg h6, if_neg h7,
        if_neg h8]
    rw [he]
    intro hm
    simp only [List.mem_singleton] at hm
    exact h5 hm.symm

theorem escStr_noCR (s : String) : '\r' ∉ escStr s := by
  unfold escStr
  intro hm
  rcases List.mem_append.mp (by
    have h2 : '\r' = '"' ∨ '\r' ∈ (s.data.map escChar).flatten ++ ['"'] :=
      List.mem_cons.mp hm
    rcases h2 with h2 | h2
    · exact absurd h2 (by decide)
    · exact h2) with hm2 | hm2
  · obtain ⟨l, hl, hcl⟩ := List.mem_flatten.mp hm2
    obtain ⟨c, _, hc⟩ := List.mem_map.mp hl
    rw [← hc] at hcl
    exact escChar_noCR c hcl
  · exact absurd (List.mem_singleton.mp hm2) (by decide)

theorem intRepr_noCR (n : Int) : '\r' ∉ intRepr n := by
  obtain ⟨_, _, hdig, _⟩ := natDigits_spec n.natAbs
  have hnd : '\r' ∉ natDigits n.natAbs := by
    intro hm
    have := hdig _ hm
    exact absurd this (by decide)
  unfold intRepr
  by_cases hneg : n < 0
  · rw [if_pos hneg]
    intro hm
    rcases List.mem_cons.mp hm with hm | hm
    · exact absurd hm (by decide)
    · exact hnd hm
  · rw [if_neg hneg]
    exact hnd

theorem jnl_noCR (il lvl : Nat) : '\r' ∉ jnl il lvl := by
  unfold jnl
  intro hm
  rcases List.mem_cons.mp hm with hm | hm
  · exact absurd hm (by decide)
  · exact absurd (List.eq_of_mem_replicate hm) (by decide)

mutual
theorem jdump_noCR : ∀ (il lvl : Nat) (v : JVal), '\r' ∉ jdump il lvl v
  | il, lvl, .null => by show '\r' ∉ ['n', 'u', 'l', 'l']; decide
  | il, lvl, .bool b => by
    cases b
    · show '\r' ∉ ['f', 'a', 'l', 's', 'e']; decide
    · show '\r' ∉ ['t', 'r', 'u', 'e']; decide
  | il, lvl, .num n0 => intRepr_noCR n0
  | il, lvl, .str s => escStr_noCR s
  | il, lvl, .arr .nil => by show '\r' ∉ ['[', ']']; decide
  | il, lvl, .arr (.cons v xs) => by
    rw [jdump_arr_cons]
    intro hm
    simp only [List.mem_cons, List.mem_append, List.mem_singleton,
      List.not_mem_nil, or_false] at hm
    rcases hm with hm | hm | hm | hm | hm | hm
    · exact absurd hm (by decide)
    · exact jnl_noCR il (lvl + 1) hm
    · exact jdump_noCR il (lvl + 1) v hm
    · exact jdumpArr_noCR il (lvl + 1) xs hm
    · exact jnl_noCR il lvl hm
    · exact absurd hm (by decide)
  | il, lvl, .obj .nil => by show '\r' ∉ ['\x7b', '\x7d']; decide
  | il, lvl, .obj (.cons k v m) => by
    rw [jdump_obj_cons]
    intro hm
    simp only [List.mem_cons, List.mem_append, List.mem_singleton,
      List.not_mem_nil, or_false] at hm
    rcases hm with hm | hm | hm | hm | hm | hm | hm | hm | hm
    · exact absurd hm (by decide)
    · exact jnl_noCR il (lvl + 1) hm
    · exact escStr_noCR k hm
    · exact absurd hm (by decide)
    · exact absurd hm (by decide)
    · exact jdump_noCR il (lvl + 1) v hm
    · exact jdumpObj_noCR il (lvl + 1) m hm
    · exact jnl_noCR il lvl hm
    · exact absurd hm (by decide)
theorem jdumpArr_noCR : ∀ (il lvl : Nat) (xs : JArr), '\r' ∉ jdumpArr il lvl xs
  | il, lvl, .nil => by show '\r' ∉ ([] : List Char); decide
  | il, lvl, .cons v xs => by
    rw [jdumpArr_cons_norm]
    intro hm
    simp only [List.mem_cons, List.mem_append] at hm
    rcases hm with hm | hm | hm | hm
    · exact absurd hm (by decide)
    · exact jnl_noCR il lvl hm
    · exact jdump_noCR il lvl v hm
    · exact jdumpArr_noCR il lvl xs hm
theorem jdumpObj_noCR : ∀ (il lvl : Nat) (m : JObj), '\r' ∉ jdumpObj il lvl m
  | il, lvl, .nil => by show '\r' ∉ ([] : List Char); decide
  | il, lvl, .cons k v m => by
    rw [jdumpObj_cons_norm]
    intro hm
    simp only [List.mem_cons, List.mem_append] at hm
    rcases hm with hm | hm | hm | hm | hm | hm
    · exact absurd hm (by decide)
    · exact jnl_noCR il lvl hm
    · exact escStr_noCR k hm
    · exact absurd hm (by decide)
    · exact absurd hm (by decide)
    · rcases hm with hm | hm
      · exact jdump_noCR il lvl v hm
      · exact jdumpObj_noCR il lvl m hm
end

theorem jsonLoads_jdump (il : Nat) (v : JVal) (hwf : jwf v = true) :
    jsonLoads (String.mk (jdump il 0 v)) = some v := by
  have hA := (jparse_roundtrip (jsize v)).1 il 0 v ((jdump il 0 v).length + 1) [] []
    (le_refl _) allWs_nil hwf (by have := jsize_le_len il 0 v; omega) numStop_nil
  have hA2 : jparseVal ((jdump il 0 v).length + 1) (jdump il 0 v) = some (v, []) := by
    simp only [List.nil_append, List.append_nil] at hA
    exact hA
  show (match jparseVal ((jdump il 0 v).length + 1) (jdump il 0 v) with
    | some (w, rest) => if jskipWs rest = [] then some w else none
    | none => none) = some v
  rw [hA2]
  rfl

theorem univNewlines_jdump (il : Nat) (v : JVal) :
    univNewlines (String.mk (jdump il 0 v)) = String.mk (jdump il 0 v) := by
  unfold univNewlines
  show String.mk (univNL (jdump il 0 v)) = _
  rw [univNL_eq_self _ (jdump_noCR il 0 v)]

theorem read_json_after_write_json {fs fs2 : FS} {p : String} {data : JObj}
    {indent : Nat} (hwf : jwfObj data = true)
    (hw : write_json fs p data indent = (fs2, none)) :
    read_json fs2 p = .ok (.obj data) := by
  unfold write_json at hw
  rcases ho : openWrite fs p with _ | e
  · rw [ho] at hw
    have hfs2 : fs2 = setFile fs p (String.mk (jdump indent 0 (.obj data))) := by
      have := congrArg Prod.fst hw
      exact this.symm
    subst hfs2
    unfold read_json
    unfold setFile
    rw [show openRead (setFileC fs p (.text (String.mk (jdump indent 0 (.obj data))))) p
        = .ok (.text (String.mk (jdump indent 0 (.obj data)))) from by
      unfold openRead
      rw [fsLookup_setFileC]]
    show (match jsonLoads (univNewlines (String.mk (jdump indent 0 (JVal.obj data)))) with
      | some v => Except.ok v
      | none => Except.error (FileError.ParseError ("JSON解析失败: " ++ p))) =
      Except.ok (JVal.obj data)
    rw [univNewlines_jdump, jsonLoads_jdump indent (.obj data) hwf]
  · rw [ho] at hw
    have := congrArg Prod.snd hw
    exact absurd this (by simp)

/-- C8: `write_json` writes the record with the given key order, indent 4 and
non-ASCII literally: the scenario record produces exactly the expected text,
whose UTF-8 bytes contain the bytes of "测试" and no backslash (hence no escape
sequence), and reading the file back returns the record unchanged. -/
theorem c8_write_json :
    (∀ (fs : FS) (p : String) (fs2 : FS),
      write_json fs p c8R 4 = (fs2, none) → read_json fs2 p = .ok (.obj c8R)) ∧
    write_json [] "data.json" c8R 4 =
      ([("data.json", Entry.file (FileContent.text
        "\x7b\n    \"name\": \"测试\",\n    \"value\": 1\n\x7d"))], none) ∧
    List.IsInfix (utf8Encode "测试".data)
      (utf8Encode "\x7b\n    \"name\": \"测试\",\n    \"value\": 1\n\x7d".data) ∧
    '\\' ∉ "\x7b\n    \"name\": \"测试\",\n    \"value\": 1\n\x7d".data := by
  refine ⟨?_, ?_, ?_, ?_⟩
  · intro fs p fs2 hw
    exact read_json_after_write_json (by decide) hw
  · decide
  · decide
  · decide

theorem c8_write_json_witness :
    read_json [(("data.json" : String), Entry.file (FileContent.text
        "\x7b\n    \"name\": \"测试\",\n    \"value\": 1\n\x7d"))] "data.json" =
      .ok (.obj c8R) :=
  c8_write_json.1 [] "data.json" _ (by decide)

theorem openWrite_IOFailure {fs : FS} {p : String} {e : FileError}
    (h : openWrite fs p = some e) : ∃ m, e = .IOFailure m := by
  unfold openWrite at h
  split at h
  · exact ⟨_, (Option.some.inj h).symm⟩
  · exact ⟨_, (Option.some.inj h).symm⟩
  · exact absurd h (by simp)
  · split at h
    · exact absurd h (by simp)
    · exact ⟨_, (Option.some.inj h).symm⟩

theorem csvRowsOut_snd (d : Char) (fns : List String) :
    ∀ rows : List (List (String × String)),
      (csvRowsOut d fns rows).2 =
        if rows.any (fun r => r.any (fun kv => !(fns.contains kv.1))) then
          some (.InvalidArgument "dict contains fields not in fieldnames")
        else none := by
  intro rows
  induction rows with
  | nil => rfl
  | cons r rest ih =>
    by_cases hrb : (r.any fun kv => !fns.contains kv.1) = true
    · have hright : ((r :: rest).any fun r2 => r2.any fun kv => !fns.contains kv.1) = true := by
        rw [List.any_cons, hrb, Bool.true_or]
      rw [hright, if_pos rfl]
      unfold csvRowsOut
      rw [if_pos hrb]
    · have hrf : (r.any fun kv => !fns.contains kv.1) = false := by
        rcases Bool.eq_false_or_eq_true (r.any fun kv => !fns.contains kv.1) with h | h
        · exact absurd h hrb
        · exact h
      have hright : ((r :: rest).any fun r2 => r2.any fun kv => !fns.contains kv.1) =
          rest.any fun r2 => r2.any fun kv => !fns.contains kv.1 := by
        rw [List.any_cons, hrf, Bool.false_or]
      rw [hright]
      unfold csvRowsOut
      rw [if_neg hrb]
      show (csvRowsOut d fns rest).2 =
        if (rest.any fun r2 => r2.any fun kv => !fns.contains kv.1) = true then
          some (.InvalidArgument "dict contains fields not in fieldnames")
        else none
      exact ih

/-- C4 counterexample: with nonempty rows and nonempty resolved fieldnames,
`write_csv` still fails with `InvalidArgument` when a row holds a key outside
the fieldnames, so the claimed "if and only if" is false. -/
theorem c4_counterexample :
    write_csv [] "t.csv" [[("a", "1"), ("b", "2")]] (some ["a"]) ',' =
      ([("t.csv", Entry.file (.text "a\r\n"))],
        some (.InvalidArgument "dict contains fields not in fieldnames")) ∧
    ([[("a", "1"), ("b", "2")]] : List (List (String × String))) ≠ [] ∧
    resolveFieldnames [[("a", "1"), ("b", "2")]] (some ["a"]) ≠ [] := by
  refine ⟨by decide, by decide, by decide⟩

/-- C4 (amended): `write_csv` fails with `InvalidArgument` exactly when the
rows are empty, the resolved fieldnames are empty, or (the file being
writable) some row holds a key outside the resolved fieldnames. -/
theorem c4_write_csv (fs : FS) (p : String) (rows : List (List (String × String)))
    (fieldnames : Option (List String)) (d : Char) :
    (∃ m, (write_csv fs p rows fieldnames d).2 = some (.InvalidArgument m)) ↔
      (rows = [] ∨ resolveFieldnames rows fieldnames = [] ∨
        (openWrite fs p = none ∧
          ∃ r ∈ rows, ∃ kv ∈ r, kv.1 ∉ resolveFieldnames rows fieldnames)) := by
  by_cases hr : rows = []
  · have hsnd : (write_csv fs p rows fieldnames d).2 =
        some (.InvalidArgument "数据不能为空") := by
      unfold write_csv
      rw [if_pos hr]
    rw [hsnd]
    exact ⟨fun _ => Or.inl hr, fun _ => ⟨_, rfl⟩⟩
  · by_cases hf : resolveFieldnames rows fieldnames = []
    · have hsnd : (write_csv fs p rows fieldnames d).2 =
          some (.InvalidArgument "字段名不能为空") := by
        unfold write_csv
        rw [if_neg hr, if_pos hf]
      rw [hsnd]
      exact ⟨fun _ => Or.inr (Or.inl hf), fun _ => ⟨_, rfl⟩⟩
    · rcases ho : openWrite fs p with _ | e
      · have hsnd : (write_csv fs p rows fieldnames d).2 =
            (csvRowsOut d (resolveFieldnames rows fieldnames) rows).2 := by
          unfold write_csv
          rw [if_neg hr, if_neg hf, ho]
        rw [hsnd, csvRowsOut_snd]
        by_cases hbad : (rows.any fun r =>
            r.any fun kv => !((resolveFieldnames rows fieldnames).contains kv.1)) = true
        · rw [if_pos hbad]
          constructor
          · intro _
            refine Or.inr (Or.inr ⟨rfl, ?_⟩)
            obtain ⟨r, hrm, hkv⟩ := List.any_eq_true.mp hbad
            obtain ⟨kv, hkvm, hc⟩ := List.any_eq_true.mp hkv
            refine ⟨r, hrm, kv, hkvm, ?_⟩
            intro hmem
            have hc2 : (resolveFieldnames rows fieldnames).contains kv.1 = true :=
              List.elem_iff.mpr hmem
            rw [hc2] at hc
            exact absurd hc (by decide)
          · intro _
            exact ⟨_, rfl⟩
        · rw [if_neg hbad]
          constructor
          · intro hm
            obtain ⟨m, hm2⟩ := hm
            exact absurd hm2 (by simp)
          · rintro (h | h | ⟨_, r, hrm, kv, hkvm, hnm⟩)
            · exact absurd h hr
            · exact absurd h hf
            · exfalso
              apply hbad
              refine List.any_eq_true.mpr ⟨r, hrm, List.any_eq_true.mpr ⟨kv, hkvm, ?_⟩⟩
              rw [Bool.not_eq_true']
              rcases hc : (resolveFieldnames rows fieldnames).contains kv.1 with _ | _
              · rfl
              · exact absurd (List.elem_iff.mp hc) hnm
      · have hsnd : (write_csv fs p rows fieldnames d).2 = some e := by
          unfold write_csv
          rw [if_neg hr, if_neg hf, ho]
        rw [hsnd]
        constructor
        · intro hm
          obtain ⟨m, hm2⟩ := hm
          obtain ⟨m2, he⟩ := openWrite_IOFailure ho
          subst he
          exact absurd (Option.some.inj hm2) (by simp)
        · rintro (h | h | ⟨hnone, _⟩)
          · exact absurd h hr
          · exact absurd h hf
          · exact absurd hnone (by simp)

/-- C9: both `InvalidArgument` guards of `write_csv` (empty rows, empty
resolved fieldnames) fire before any filesystem access, so the filesystem is
returned unchanged and no file is created, truncated or modified. -/
theorem c9_write_csv_atomic (fs : FS) (p : String)
    (rows : List (List (String × String))) (fieldnames : Option (List String))
    (d : Char) (h : rows = [] ∨ resolveFieldnames rows fieldnames = []) :
    ∃ m, write_csv fs p rows fieldnames d = (fs, some (.InvalidArgument m)) := by
  unfold write_csv
  by_cases hr : rows = []
  · rw [if_pos hr]
    exact ⟨_, rfl⟩
  · rcases h with h | h
    · exact absurd h hr
    · rw [if_neg hr, if_pos h]
      exact ⟨_, rfl⟩

theorem c9_write_csv_atomic_witness :
    ∃ m, write_csv [("x", Entry.dir)] "t.csv" ([] : List (List (String × String)))
      none ',' = ([("x", Entry.dir)], some (.InvalidArgument m)) :=
  c9_write_csv_atomic [("x", Entry.dir)] "t.csv" [] none ',' (Or.inl rfl)


theorem csvNeedsQuote_false {delim : Char} {s : List Char}
    (h : csvNeedsQuote delim s = false) : ∀ c ∈ s, csvPlainChar delim c := by
  intro c hc
  unfold csvNeedsQuote at h
  have h2 := List.any_eq_false.mp h c hc
  refine ⟨?_, ?_, ?_, ?_⟩ <;>
    (intro he; subst he; simp at h2)

theorem csvTakeUnquoted_delim {delim : Char} :
    ∀ (s : List Char) (r : List Char), (∀ c ∈ s, csvPlainChar delim c) →
      csvTakeUnquoted delim (s ++ delim :: r) = (s, true, r) := by
  intro s
  induction s with
  | nil =>
    intro r _
    show csvTakeUnquoted delim (delim :: r) = (([] : List Char), true, r)
    unfold csvTakeUnquoted
    rw [if_pos rfl]
  | cons c s ih =>
    intro r hp
    have hc := hp c (List.mem_cons_self _ _)
    show csvTakeUnquoted delim (c :: (s ++ delim :: r)) = (c :: s, true, r)
    unfold csvTakeUnquoted
    rw [if_neg hc.1, if_neg hc.2.2.1, if_neg hc.2.2.2,
      ih r (fun c2 h2 => hp c2 (List.mem_cons_of_mem _ h2))]

theorem csvTakeUnquoted_eor {delim : Char} :
    ∀ (s : List Char) (r : List Char), (∀ c ∈ s, csvPlainChar delim c) →
      delim ≠ '\r' →
      csvTakeUnquoted delim (s ++ '\r' :: '\n' :: r) = (s, false, r) := by
  intro s
  induction s with
  | nil =>
    intro r _ hd
    show csvTakeUnquoted delim ('\r' :: '\n' :: r) = (([] : List Char), false, r)
    unfold csvTakeUnquoted
    rw [if_neg (fun he => hd he.symm), if_pos rfl]
    rfl
  | cons c s ih =>
    intro r hp hd
    have hc := hp c (List.mem_cons_self _ _)
    show csvTakeUnquoted delim (c :: (s ++ '\r' :: '\n' :: r)) = (c :: s, false, r)
    unfold csvTakeUnquoted
    rw [if_neg hc.1, if_neg hc.2.2.1, if_neg hc.2.2.2,
      ih r (fun c2 h2 => hp c2 (List.mem_cons_of_mem _ h2)) hd]


theorem csvEscField_eq (s : List Char) :
    csvEscField s = '"' :: csvEscBody s ++ ['"'] := rfl

theorem csvTakeQuoted_delim {delim : Char} (hd : delim ≠ '"') :
    ∀ (s : List Char) (r : List Char),
      csvTakeQuoted delim (csvEscBody s ++ '"' :: delim :: r) = (s, true, r) := by
  intro s
  induction s with
  | nil =>
    intro r
    show csvTakeQuoted delim ('"' :: delim :: r) = (([] : List Char), true, r)
    rw [csvTakeQuoted.eq_def]
    split
    · next heq => exact absurd heq (by simp)
    · next r2 heq =>
      injection heq with h1 h2
      injection h2 with h3 h4
      exact absurd h3 hd
    · next rest hne heq =>
      injection heq with h1 h2
      subst h2
      show csvAfterQuote delim (delim :: r) = (([] : List Char), true, r)
      unfold csvAfterQuote
      split
      · next heq2 => exact absurd heq2 (by simp)
      · next c2 rest2 heq2 =>
        injection heq2 with g1 g2
        subst g1
        subst g2
        rw [if_pos rfl]
    · next c rest hq hne heq =>
      injection heq with h1 h2
      exact (hne h1.symm).elim
  | cons c s ih =>
    intro r
    by_cases hc : c = '"'
    · subst hc
      show csvTakeQuoted delim (('"' :: '"' :: csvEscBody s) ++ '"' :: delim :: r) =
        ('"' :: s, true, r)
      rw [List.cons_append, List.cons_append]
      rw [csvTakeQuoted.eq_def]
      split
      · next heq => exact absurd heq (by simp)
      · next r2 heq =>
        injection heq with h1 h2
        injection h2 with h3 h4
        subst h4
        rw [ih r]
      · next rest hne heq =>
        injection heq with h1 h2
        exact (hne _ h2.symm).elim
      · next c2 rest hq hne heq =>
        injection heq with h1 h2
        exact (hne h1.symm).elim
    · have hesc : csvEscBody (c :: s) = c :: csvEscBody s := by
        show (if c = '"' then ['"', '"'] else [c]) ++ csvEscBody s = _
        rw [if_neg hc]
        rfl
      rw [hesc, List.cons_append]
      rw [csvTakeQuoted.eq_def]
      split
      · next heq => exact absurd heq (by simp)
      · next r2 heq =>
        injection heq with h1 h2
        exact absurd h1 hc
      · next rest hne heq =>
        injection heq with h1 h2
        exact absurd h1 hc
      · next c2 rest hq hne heq =>
        injection heq with h1 h2
        subst h1
        subst h2
        rw [ih r]
  
theorem csvTakeQuoted_eor {delim : Char} (hd : delim ≠ '"') (hr : delim ≠ '\r') :
    ∀ (s : List Char) (r : List Char),
      csvTakeQuoted delim (csvEscBody s ++ '"' :: '\r' :: '\n' :: r) = (s, false, r) := by
  intro s
  induction s with
  | nil =>
    intro r
    show csvTakeQuoted delim ('"' :: '\r' :: '\n' :: r) = (([] : List Char), false, r)
    rw [csvTakeQuoted.eq_def]
    split
    · next heq => exact absurd heq (by simp)
    · next r2 heq =>
      injection heq with h1 h2
      injection h2 with h3 h4
      exact absurd h3 (by decide)
    · next rest hne heq =>
      injection heq with h1 h2
      subst h2
      show csvAfterQuote delim ('\r' :: '\n' :: r) = (([] : List Char), false, r)
      unfold csvAfterQuote
      split
      · next heq2 => exact absurd heq2 (by simp)
      · next c2 rest2 heq2 =>
        injection heq2 with g1 g2
        subst g1
        subst g2
        rw [if_neg (fun he => hr he.symm), if_pos rfl]
        rfl
    · next c rest hq hne heq =>
      injection heq with h1 h2
      exact (hne h1.symm).elim
  | cons c s ih =>
    intro r
    by_cases hc : c = '"'
    · subst hc
      show csvTakeQuoted delim (('"' :: '"' :: csvEscBody s) ++ '"' :: '\r' :: '\n' :: r) =
        ('"' :: s, false, r)
      rw [List.cons_append, List.cons_append]
      rw [csvTakeQuoted.eq_def]
      split
      · next heq => exact absurd heq (by simp)
      · next r2 heq =>
        injection heq with h1 h2
        injection h2 with h3 h4
        subst h4
        rw [ih r]
      · next rest hne heq =>
        injection heq with h1 h2
        exact (hne _ h2.symm).elim
      · next c2 rest hq hne heq =>
        injection heq with h1 h2
        exact (hne h1.symm).elim
    · have hesc : csvEscBody (c :: s) = c :: csvEscBody s := by
        show (if c = '"' then ['"', '"'] else [c]) ++ csvEscBody s = _
        rw [if_neg hc]
        rfl
      rw [hesc, List.cons_append]
      rw [csvTakeQuoted.eq_def]
      split
      · next heq => exact absurd heq (by simp)
      · next r2 heq =>
        injection heq with h1 h2
        exact absurd h1 hc
      · next rest hne heq =>
        injection heq with h1 h2
        exact absurd h1 hc
      · next c2 rest hq hne heq =>
        injection heq with h1 h2
        subst h1
        subst h2
        rw [ih r]

theorem csvFields_succ_q (delim : Char) (fuel : Nat) (rest : List Char) :
    csvFields delim (fuel + 1) ('"' :: rest) =
      (let out := csvTakeQuoted delim rest
       if out.2.1 then
         let next := csvFields delim fuel out.2.2
         (out.1 :: next.1, next.2)
       else ([out.1], out.2.2)) := by
  rw [csvFields.eq_def]
  rfl

theorem csvFields_succ_unq (delim : Char) (fuel : Nat) :
    ∀ (cs : List Char), (∀ r, cs ≠ '"' :: r) →
    csvFields delim (fuel + 1) cs =
      (let out := csvTakeUnquoted delim cs
       if out.2.1 then
         let next := csvFields delim fuel out.2.2
         (out.1 :: next.1, next.2)
       else ([out.1], out.2.2))
  | [], _ => by
    rw [csvFields.eq_def]
  | c :: r, hcs => by
    have hc : c ≠ '"' := fun he => hcs r (by rw [he])
    rw [csvFields.eq_def]
    split
    · next n heq => exact absurd heq (by omega)
    · next x n cs2 heq =>
        have hfe : cs2 = fuel := by omega
        subst hfe
        have hm : (match c :: r with
            | '"' :: rest => csvTakeQuoted delim rest
            | _ => csvTakeUnquoted delim (c :: r)) = csvTakeUnquoted delim (c :: r) := by
          split
          · next r2 heq2 =>
            injection heq2 with g1 g2
            exact absurd g1 hc
          · rfl
        rw [hm]

theorem csvNeedsQuote_false_of_not {delim : Char} {f : List Char}
    (h : ¬ csvNeedsQuote delim f = true) : csvNeedsQuote delim f = false := by
  rcases Bool.eq_false_or_eq_true (csvNeedsQuote delim f) with h2 | h2
  · exact absurd h2 h
  · exact h2

theorem csvField_unq {delim : Char} {f : List Char}
    (h : csvNeedsQuote delim f = false) : csvField delim f = f := by
  unfold csvField
  rw [h]
  rfl

theorem csvField_q {delim : Char} {f : List Char} (h : csvNeedsQuote delim f = true)
    (rest : List Char) :
    csvField delim f ++ rest = '"' :: (csvEscBody f ++ '"' :: rest) := by
  unfold csvField
  rw [if_pos h, csvEscField_eq]
  simp only [List.cons_append, List.append_assoc, List.nil_append]

theorem csvFields_last {delim : Char} (hdq : delim ≠ '"') (hdr : delim ≠ '\r')
    (f : List Char) (fuel : Nat) (rest : List Char) :
    csvFields delim (fuel + 1) (csvField delim f ++ '\r' :: '\n' :: rest) = ([f], rest) := by
  by_cases hq : csvNeedsQuote delim f = true
  · rw [csvField_q hq, csvFields_succ_q, csvTakeQuoted_eor hdq hdr f rest]
    rfl
  · have hq2 := csvNeedsQuote_false_of_not hq
    have hp := csvNeedsQuote_false hq2
    rw [csvField_unq hq2]
    have hcs : ∀ r2, (f ++ '\r' :: '\n' :: rest) ≠ '"' :: r2 := by
      intro r2 he
      cases f with
      | nil =>
        rw [List.nil_append] at he
        injection he with g1 _
        exact absurd g1 (by decide)
      | cons c f2 =>
        rw [List.cons_append] at he
        injection he with g1 _
        exact absurd g1 (hp c (List.mem_cons_self _ _)).2.1
    rw [csvFields_succ_unq delim fuel _ hcs, csvTakeUnquoted_eor f rest hp hdr]
    rfl

theorem csvFields_step {delim : Char} (hdq : delim ≠ '"')
    (f : List Char) (fuel : Nat) (REST : List Char) :
    csvFields delim (fuel + 1) (csvField delim f ++ delim :: REST) =
      (f :: (csvFields delim fuel REST).1, (csvFields delim fuel REST).2) := by
  by_cases hq : csvNeedsQuote delim f = true
  · rw [csvField_q hq, csvFields_succ_q, csvTakeQuoted_delim hdq f REST]
    rfl
  · have hq2 := csvNeedsQuote_false_of_not hq
    have hp := csvNeedsQuote_false hq2
    rw [csvField_unq hq2]
    have hcs : ∀ r2, (f ++ delim :: REST) ≠ '"' :: r2 := by
      intro r2 he
      cases f with
      | nil =>
        rw [List.nil_append] at he
        injection he with g1 _
        exact absurd g1 hdq
      | cons c f2 =>
        rw [List.cons_append] at he
        injection he with g1 _
        exact absurd g1 (hp c (List.mem_cons_self _ _)).2.1
    rw [csvFields_succ_unq delim fuel _ hcs, csvTakeUnquoted_delim f REST hp]
    rfl

theorem csvFields_join {delim : Char} (hdq : delim ≠ '"') (hdr : delim ≠ '\r') :
    ∀ (fields : List (List Char)) (fuel : Nat) (rest : List Char),
      fields ≠ [] → fields.length ≤ fuel →
      csvFields delim fuel
        (csvJoin delim (fields.map (csvField delim)) ++ '\r' :: '\n' :: rest) =
        (fields, rest) := by
  intro fields
  induction fields with
  | nil => intro fuel rest hne _; exact absurd rfl hne
  | cons f fs ih =>
    intro fuel rest _ hlen
    obtain ⟨g, rfl⟩ : ∃ g, fuel = g + 1 := ⟨fuel - 1, by
      simp only [List.length_cons] at hlen; omega⟩
    cases fs with
    | nil =>
      show csvFields delim (g + 1) (csvField delim f ++ '\r' :: '\n' :: rest) = ([f], rest)
      exact csvFields_last hdq hdr f g rest
    | cons f2 fs2 =>
      have hsh : csvJoin delim ((f :: f2 :: fs2).map (csvField delim)) ++ '\r' :: '\n' :: rest =
          csvField delim f ++ delim ::
            (csvJoin delim ((f2 :: fs2).map (csvField delim)) ++ '\r' :: '\n' :: rest) := by
        show (csvField delim f ++ delim ::
            csvJoin delim ((f2 :: fs2).map (csvField delim))) ++ '\r' :: '\n' :: rest = _
        rw [List.append_assoc]
        rfl
      rw [hsh, csvFields_step hdq f g _,
        ih g rest (by simp) (by simp only [List.length_cons] at hlen ⊢; omega)]

theorem csvRecordLine_two (delim : Char) (f f2 : List Char) (fs : List (List Char)) :
    csvRecordLine delim (f :: f2 :: fs) =
      csvJoin delim ((f :: f2 :: fs).map (csvField delim)) ++ ['\r', '\n'] := rfl

theorem csvRecordLine_one (delim : Char) {f : List Char} (hf : f ≠ []) :
    csvRecordLine delim [f] = csvField delim f ++ ['\r', '\n'] := by
  unfold csvRecordLine
  show (if f = [] then ['"', '"'] else csvField delim f) ++ ['\r', '\n'] = _
  rw [if_neg hf]

theorem csvFields_recordLine {delim : Char} (hdq : delim ≠ '"') (hdr : delim ≠ '\r') :
    ∀ (fields : List (List Char)) (fuel : Nat) (rest : List Char),
      fields ≠ [] → fields.length ≤ fuel →
      csvFields delim fuel (csvRecordLine delim fields ++ rest) = (fields, rest) := by
  intro fields fuel rest hne hlen
  match fields, hne with
  | [f], _ =>
    obtain ⟨g, rfl⟩ : ∃ g, fuel = g + 1 := ⟨fuel - 1, by
      simp only [List.length_cons] at hlen; omega⟩
    by_cases hf : f = []
    · subst hf
      show csvFields delim (g + 1) ('"' :: ('"' :: '\r' :: '\n' :: rest)) = ([[]], rest)
      have h0 : csvTakeQuoted delim ('"' :: '\r' :: '\n' :: rest) =
          (([] : List Char), false, rest) := csvTakeQuoted_eor hdq hdr [] rest
      rw [csvFields_succ_q, h0]
      rfl
    · have hsh : csvRecordLine delim [f] ++ rest = csvField delim f ++ '\r' :: '\n' :: rest := by
        rw [csvRecordLine_one delim hf, List.append_assoc]
        rfl
      rw [hsh]
      exact csvFields_last hdq hdr f g rest
  | f :: f2 :: fs, _ =>
    have hsh : csvRecordLine delim (f :: f2 :: fs) ++ rest =
        csvJoin delim ((f :: f2 :: fs).map (csvField delim)) ++ '\r' :: '\n' :: rest := by
      rw [csvRecordLine_two, List.append_assoc]
      rfl
    rw [hsh]
    exact csvFields_join hdq hdr _ fuel rest (by simp) hlen

theorem csvField_head {delim : Char} {f : List Char} (hf : f ≠ []) :
    ∃ c t, csvField delim f = c :: t ∧ c ≠ '\r' ∧ c ≠ '\n' := by
  by_cases hq : csvNeedsQuote delim f = true
  · refine ⟨'"', csvEscBody f ++ ['"'], ?_, by decide, by decide⟩
    have := csvField_q hq ([] : List Char)
    rw [List.append_nil] at this
    rw [this]
  · have hq2 := csvNeedsQuote_false_of_not hq
    have hp := csvNeedsQuote_false hq2
    rw [csvField_unq hq2]
    cases f with
    | nil => exact absurd rfl hf
    | cons c t =>
      exact ⟨c, t, rfl, (hp c (List.mem_cons_self _ _)).2.2.1,
        (hp c (List.mem_cons_self _ _)).2.2.2⟩

theorem csvRecordLine_head {delim : Char} (hdr : delim ≠ '\r') (hdn : delim ≠ '\n')
    {fields : List (List Char)} (hne : fields ≠ []) (rest : List Char) :
    ∃ c t, csvRecordLine delim fields ++ rest = c :: t ∧ c ≠ '\r' ∧ c ≠ '\n' := by
  match fields, hne with
  | [f], _ =>
    by_cases hf : f = []
    · subst hf
      exact ⟨'"', _, rfl, by decide, by decide⟩
    · obtain ⟨c, t, he, h1, h2⟩ := @csvField_head delim _ hf
      refine ⟨c, t ++ ('\r' :: '\n' :: rest), ?_, h1, h2⟩
      have hsh : csvRecordLine delim [f] ++ rest = csvField delim f ++ '\r' :: '\n' :: rest := by
        rw [csvRecordLine_one delim hf, List.append_assoc]
        rfl
      rw [hsh, he]
      rfl
  | f :: f2 :: fs, _ =>
    have hsh : csvRecordLine delim (f :: f2 :: fs) ++ rest =
        csvField delim f ++ delim ::
          (csvJoin delim ((f2 :: fs).map (csvField delim)) ++ '\r' :: '\n' :: rest) := by
      rw [csvRecordLine_two, List.append_assoc]
      show (csvField delim f ++ delim ::
          csvJoin delim ((f2 :: fs).map (csvField delim))) ++ '\r' :: '\n' :: rest = _
      rw [List.append_assoc]
      rfl
    by_cases hf : f = []
    · subst hf
      rw [hsh]
      have hcf : csvField delim ([] : List Char) = [] := csvField_unq (by rfl)
      rw [hcf, List.nil_append]
      exact ⟨delim, _, rfl, hdr, hdn⟩
    · obtain ⟨c, t, he, h1, h2⟩ := @csvField_head delim _ hf
      rw [hsh, he]
      exact ⟨c, _, rfl, h1, h2⟩

theorem csvJoin_len (delim : Char) :
    ∀ (fs : List (List Char)), fs ≠ [] → fs.length ≤ (csvJoin delim fs).length + 1
  | [], hne => absurd rfl hne
  | [f], _ => by
    show 1 ≤ (csvJoin delim [f]).length + 1
    omega
  | f :: f2 :: fs, _ => by
    have ih := csvJoin_len delim (f2 :: fs) (by simp)
    show (f :: f2 :: fs).length ≤ (f ++ delim :: csvJoin delim (f2 :: fs)).length + 1
    simp only [List.length_cons, List.length_append] at ih ⊢
    omega

theorem csvRecordLine_len (delim : Char) (fields : List (List Char)) :
    fields.length ≤ (csvRecordLine delim fields).length ∧
      2 ≤ (csvRecordLine delim fields).length := by
  match fields with
  | [] =>
    refine ⟨by simp, ?_⟩
    show 2 ≤ (csvJoin delim ([] : List (List Char)) ++ ['\r', '\n']).length
    simp
  | [f] =>
    constructor
    · by_cases hf : f = []
      · subst hf
        show 1 ≤ (['"', '"'] ++ ['\r', '\n']).length
        decide
      · rw [csvRecordLine_one delim hf]
        simp only [List.length_cons, List.length_append, List.length_nil]
        omega
    · by_cases hf : f = []
      · subst hf
        show 2 ≤ (['"', '"'] ++ ['\r', '\n']).length
        decide
      · rw [csvRecordLine_one delim hf]
        simp only [List.length_cons, List.length_append, List.length_nil]
        omega
  | f :: f2 :: fs =>
    rw [csvRecordLine_two]
    have hj := csvJoin_len delim ((f :: f2 :: fs).map (csvField delim)) (by simp)
    simp only [List.length_append, List.length_map, List.length_cons,
      List.length_nil] at hj ⊢
    omega


theorem csvRecords_doc {delim : Char} (hdq : delim ≠ '"') (hdr : delim ≠ '\r')
    (hdn : delim ≠ '\n') :
    ∀ (recs : List (List (List Char))) (fuel : Nat),
      (∀ r ∈ recs, r ≠ []) → (csvDoc delim recs).length < fuel →
      csvRecords delim fuel (csvDoc delim recs) = recs := by
  intro recs
  induction recs with
  | nil =>
    intro fuel _ hfuel
    obtain ⟨g, rfl⟩ : ∃ g, fuel = g + 1 := ⟨fuel - 1, by omega⟩
    show csvRecords delim (g + 1) [] = []
    rw [csvRecords.eq_def]
  | cons fields recs ih =>
    intro fuel hne hfuel
    have hfne : fields ≠ [] := hne fields (List.mem_cons_self _ _)
    have hdoc : csvDoc delim (fields :: recs) =
        csvRecordLine delim fields ++ csvDoc delim recs := by
      unfold csvDoc
      rw [List.map_cons, List.flatten_cons]
    have hlen1 := (csvRecordLine_len delim fields).1
    have hlen2 := (csvRecordLine_len delim fields).2
    have hlentot : (csvDoc delim (fields :: recs)).length =
        (csvRecordLine delim fields).length + (csvDoc delim recs).length := by
      rw [hdoc, List.length_append]
    obtain ⟨g, rfl⟩ : ∃ g, fuel = g + 1 := ⟨fuel - 1, by omega⟩
    obtain ⟨c, t, hct, hc1, hc2⟩ := csvRecordLine_head hdr hdn hfne (csvDoc delim recs)
    rw [hdoc, csvRecords.eq_def]
    rw [hct]
    split
    · next heq => exact absurd heq (by omega)
    · next n cs2 heq =>
        have hce : cs2 = g := by omega
        subst hce
        split
        · next heq2 => exact absurd heq2 (by simp)
        · next rest heq2 =>
          injection heq2 with g1 _
          exact absurd g1 hc1
        · next rest heq2 =>
          injection heq2 with g1 _
          exact absurd g1 hc2
        · next x2 hne1 hne2 hne3 =>
          rw [← hct, csvFields_recordLine hdq hdr fields (cs2 + 1) _ hfne (by omega)]
          show fields :: csvRecords delim cs2 (csvDoc delim recs) = fields :: recs
          rw [ih cs2 (fun r hr => hne r (List.mem_cons_of_mem _ hr)) (by omega)]

theorem csvRowsOut_ok (d : Char) (fns : List String) :
    ∀ rows : List (List (String × String)),
      (∀ r ∈ rows, ∀ kv ∈ r, fns.contains kv.1 = true) →
      csvRowsOut d fns rows =
        ((rows.map (fun r => csvRecordLine d
          (fns.map (fun k => ((rowLookup r k).getD "").data)))).flatten, none) := by
  intro rows
  induction rows with
  | nil => intro _; rfl
  | cons r rest ih =>
    intro hok
    have hre : (r.any fun kv => !fns.contains kv.1) = false := by
      rcases Bool.eq_false_or_eq_true (r.any fun kv => !fns.contains kv.1) with h | h
      · obtain ⟨kv, hm, hc⟩ := List.any_eq_true.mp h
        rw [hok r (List.mem_cons_self _ _) kv hm] at hc
        exact absurd hc (by decide)
      · exact h
    unfold csvRowsOut
    rw [if_neg (by rw [hre]; simp)]
    rw [ih (fun r2 h2 => hok r2 (List.mem_cons_of_mem _ h2))]
    rw [List.map_cons, List.flatten_cons]

theorem dinsert_not_mem :
    ∀ (acc : List (String × Option String)) (k : String) (v : Option String),
      k ∉ acc.map Prod.fst → dinsert acc k v = acc ++ [(k, v)]
  | [], _, _, _ => rfl
  | (q, w) :: rest, k, v, h => by
    have hq : q ≠ k := by
      intro he
      exact h (by rw [List.map_cons, he]; exact List.mem_cons_self _ _)
    unfold dinsert
    rw [if_neg hq, dinsert_not_mem rest k v (fun hm => h (by
      rw [List.map_cons]; exact List.mem_cons_of_mem _ hm))]
    rfl

theorem dbuild_aux :
    ∀ (ps acc : List (String × Option String)),
      (ps.map Prod.fst).Nodup →
      (∀ q ∈ ps.map Prod.fst, q ∉ acc.map Prod.fst) →
      ps.foldl (fun a kv => dinsert a kv.1 kv.2) acc = acc ++ ps := by
  intro ps
  induction ps with
  | nil => intro acc _ _; rw [List.append_nil]; rfl
  | cons kv ps ih =>
    intro acc hnd hfr
    obtain ⟨k, v⟩ := kv
    rw [List.map_cons, List.nodup_cons] at hnd
    have hk : k ∉ acc.map Prod.fst := hfr k (by rw [List.map_cons]; exact List.mem_cons_self _ _)
    rw [List.foldl_cons]
    rw [show dinsert acc (k, v).1 (k, v).2 = acc ++ [(k, v)] from dinsert_not_mem acc k v hk]
    rw [ih (acc ++ [(k, v)]) hnd.2 ?_]
    · rw [List.append_assoc]
      rfl
    · intro q hq
      rw [List.map_append, List.mem_append]
      rintro (hm | hm)
      · exact hfr q (by rw [List.map_cons]; exact List.mem_cons_of_mem _ hq) hm
      · simp only [List.map_cons, List.map_nil, List.mem_singleton] at hm
        subst hm
        exact hnd.1 hq

theorem dbuild_nodup {ps : List (String × Option String)}
    (h : (ps.map Prod.fst).Nodup) : dbuild ps = ps := by
  unfold dbuild
  rw [dbuild_aux ps [] h (fun q _ => by simp)]
  rfl

theorem rowLookup_exact :
    ∀ (r : List (String × String)), (r.map Prod.fst).Nodup →
      (r.map Prod.fst).map (fun k => ((rowLookup r k).getD "")) = r.map Prod.snd := by
  intro r
  induction r with
  | nil => intro _; rfl
  | cons kv r ih =>
    intro hnd
    obtain ⟨k, v⟩ := kv
    rw [List.map_cons, List.nodup_cons] at hnd
    rw [List.map_cons, List.map_cons, List.map_cons]
    have hhead : (rowLookup ((k, v) :: r) k).getD "" = v := by
      rw [show rowLookup ((k, v) :: r) k = some v from by
        rw [rowLookup.eq_def]
        show (if k = k then some v else rowLookup r k) = some v
        rw [if_pos rfl]]
      rfl
    rw [hhead]
    have htail : (r.map Prod.fst).map (fun q => ((rowLookup ((k, v) :: r) q).getD "")) =
        (r.map Prod.fst).map (fun q => ((rowLookup r q).getD "")) := by
      apply List.map_congr_left
      intro q hq
      have hkq : k ≠ q := fun he => hnd.1 (he ▸ hq)
      show (rowLookup ((k, v) :: r) q).getD "" = (rowLookup r q).getD ""
      rw [show rowLookup ((k, v) :: r) q = rowLookup r q from by
        rw [rowLookup.eq_def]
        show (if k = q then some v else rowLookup r q) = rowLookup r q
        rw [if_neg hkq]]
    rw [htail, ih hnd.2]

theorem csvDoc_cons (d : Char) (x : List (List Char)) (xs : List (List (List Char))) :
    csvDoc d (x :: xs) = csvRecordLine d x ++ csvDoc d xs := by
  unfold csvDoc
  rw [List.map_cons, List.flatten_cons]

theorem dictRowOf_exact {fns : List String} {r : List (String × String)}
    (hk : r.map Prod.fst = fns) (hnd : fns.Nodup) :
    dictRowOf fns (fns.map (fun k => (rowLookup r k).getD "")) =
      ⟨r.map (fun kv => (kv.1, some kv.2)), none⟩ := by
  subst hk
  have hval := rowLookup_exact r hnd
  rw [hval]
  unfold dictRowOf
  have hlen : (r.map Prod.snd).length = (r.map Prod.fst).length := by
    simp [List.length_map]
  have hdrop : (r.map Prod.fst).drop (r.map Prod.snd).length = [] := by
    rw [hlen, List.drop_length]
  rw [hdrop, List.map_nil, List.append_nil, List.zip_map', List.map_map]
  have hcomp : r.map ((fun kv => ((kv.1 : String), some kv.2)) ∘ (fun x => (x.1, x.2))) =
      r.map (fun kv => (kv.1, some kv.2)) := List.map_congr_left (fun a _ => rfl)
  rw [hcomp]
  have hnd2 : ((r.map (fun kv => ((kv.1 : String), some kv.2))).map Prod.fst).Nodup := by
    have hsame : (r.map (fun kv => ((kv.1 : String), some kv.2))).map Prod.fst =
        r.map Prod.fst := by
      rw [List.map_map]
      exact List.map_congr_left (fun a _ => rfl)
    rw [hsame]
    exact hnd
  rw [dbuild_nodup hnd2]
  rw [if_neg (by rw [hlen]; omega)]

theorem read_csv_after_write_csv {fs fs2 : FS} {p : String} {d : Char}
    {rows : List (List (String × String))} {fieldnames : Option (List String)}
    (hdq : d ≠ '"') (hdr : d ≠ '\r') (hdn : d ≠ '\n')
    (hrne : rows ≠ [])
    (hfnd : (resolveFieldnames rows fieldnames).Nodup)
    (hfne : resolveFieldnames rows fieldnames ≠ [])
    (hkeys : ∀ r ∈ rows, r.map Prod.fst = resolveFieldnames rows fieldnames)
    (hw : write_csv fs p rows fieldnames d = (fs2, none)) :
    read_csv fs2 p d = .ok (rows.map (fun r =>
      ⟨r.map (fun kv => (kv.1, some kv.2)), none⟩)) := by
  have hok : ∀ r ∈ rows, ∀ kv ∈ r,
      (resolveFieldnames rows fieldnames).contains kv.1 = true := by
    intro r hr kv hkv
    have : kv.1 ∈ resolveFieldnames rows fieldnames := by
      rw [← hkeys r hr]
      exact List.mem_map.mpr ⟨kv, hkv, rfl⟩
    exact List.elem_iff.mpr this
  have hout := csvRowsOut_ok d (resolveFieldnames rows fieldnames) rows hok
  unfold write_csv at hw
  rw [if_neg hrne, if_neg hfne] at hw
  rcases ho : openWrite fs p with _ | e
  · rw [ho, hout] at hw
    have hfs2 : fs2 = setFile fs p (String.mk
        (csvRecordLine d ((resolveFieldnames rows fieldnames).map String.data) ++
          (rows.map (fun r => csvRecordLine d ((resolveFieldnames rows fieldnames).map
            (fun k => ((rowLookup r k).getD "").data)))).flatten)) := by
      have h1 := congrArg Prod.fst hw
      exact h1.symm
    subst hfs2
    -- the written content is a csv document of header plus row records
    have hdocshape : csvRecordLine d ((resolveFieldnames rows fieldnames).map String.data) ++
        (rows.map (fun r => csvRecordLine d ((resolveFieldnames rows fieldnames).map
          (fun k => ((rowLookup r k).getD "").data)))).flatten =
        csvDoc d (((resolveFieldnames rows fieldnames).map String.data) ::
          rows.map (fun r => (resolveFieldnames rows fieldnames).map
            (fun k => ((rowLookup r k).getD "").data))) := by
      rw [csvDoc_cons]
      unfold csvDoc
      rw [List.map_map]
      rfl
    rw [hdocshape]
    unfold read_csv
    unfold setFile
    rw [show openRead (setFileC fs p (.text (String.mk (csvDoc d
        (((resolveFieldnames rows fieldnames).map String.data) ::
          rows.map (fun r => (resolveFieldnames rows fieldnames).map
            (fun k => ((rowLookup r k).getD "").data))))))) p
        = .ok (.text (String.mk (csvDoc d
        (((resolveFieldnames rows fieldnames).map String.data) ::
          rows.map (fun r => (resolveFieldnames rows fieldnames).map
            (fun k => ((rowLookup r k).getD "").data)))))) from by
      unfold openRead
      rw [fsLookup_setFileC]]
    have hrecs := csvRecords_doc hdq hdr hdn
      (((resolveFieldnames rows fieldnames).map String.data) ::
        rows.map (fun r => (resolveFieldnames rows fieldnames).map
          (fun k => ((rowLookup r k).getD "").data)))
      ((csvDoc d (((resolveFieldnames rows fieldnames).map String.data) ::
        rows.map (fun r => (resolveFieldnames rows fieldnames).map
          (fun k => ((rowLookup r k).getD "").data)))).length + 2)
      ?_ (by omega)
    · show (match csvRecords d ((csvDoc d _).length + 2) (csvDoc d _) with
        | [] => Except.ok []
        | header :: recs => Except.ok ((recs.filter (fun r => r ≠ [])).map
            (fun r => dictRowOf (List.map String.mk header) (List.map String.mk r)))) = _
      rw [hrecs]
      show Except.ok (((rows.map (fun r => (resolveFieldnames rows fieldnames).map
          (fun k => ((rowLookup r k).getD "").data))).filter (fun r => r ≠ [])).map
          (fun r => dictRowOf
            (List.map String.mk ((resolveFieldnames rows fieldnames).map String.data))
            (List.map String.mk r))) = _
      have hh : List.map String.mk ((resolveFieldnames rows fieldnames).map String.data) =
          resolveFieldnames rows fieldnames := by
        rw [List.map_map]
        exact (List.map_congr_left (fun a _ => rfl)).trans (List.map_id _)
      rw [hh]
      have hfilter : (rows.map (fun r => (resolveFieldnames rows fieldnames).map
          (fun k => ((rowLookup r k).getD "").data))).filter (fun r => r ≠ []) =
          rows.map (fun r => (resolveFieldnames rows fieldnames).map
            (fun k => ((rowLookup r k).getD "").data)) := by
        rw [List.filter_eq_self]
        intro a ha
        obtain ⟨r2, _, hr2⟩ := List.mem_map.mp ha
        subst hr2
        exact decide_eq_true (fun he => hfne (List.map_eq_nil_iff.mp he))
      rw [hfilter, List.map_map]
      have hrows : rows.map ((fun r => dictRowOf (resolveFieldnames rows fieldnames)
            (List.map String.mk r)) ∘ (fun r => (resolveFieldnames rows fieldnames).map
            (fun k => ((rowLookup r k).getD "").data))) =
          rows.map (fun r => (⟨r.map (fun kv => (kv.1, some kv.2)), none⟩ : CsvRow)) := by
        apply List.map_congr_left
        intro r hr
        show dictRowOf (resolveFieldnames rows fieldnames)
          (List.map String.mk ((resolveFieldnames rows fieldnames).map
            (fun k => ((rowLookup r k).getD "").data))) = _
        have hmk : List.map String.mk ((resolveFieldnames rows fieldnames).map
            (fun k => ((rowLookup r k).getD "").data)) =
            (resolveFieldnames rows fieldnames).map (fun k => (rowLookup r k).getD "") := by
          rw [List.map_map]
          exact List.map_congr_left (fun a _ => rfl)
        rw [hmk]
        exact dictRowOf_exact (hkeys r hr) ((hkeys r hr) ▸ hfnd)
      rw [hrows]
    · intro r hr
      rcases List.mem_cons.mp hr with h | h
      · subst h
        intro he
        exact hfne (List.map_eq_nil_iff.mp he)
      · obtain ⟨r2, _, hr2⟩ := List.mem_map.mp h
        subst hr2
        intro he
        exact hfne (List.map_eq_nil_iff.mp he)
  · rw [ho] at hw
    have h2 := congrArg Prod.snd hw
    exact absurd h2 (by simp)

theorem yplainChar_range {c : Char} (h : yplainChar c = true) :
    (97 ≤ c.toNat ∧ c.toNat ≤ 122) ∨ (65 ≤ c.toNat ∧ c.toNat ≤ 90) := by
  unfold yplainChar at h
  rcases of_decide_eq_true h with h2 | h2
  · exact Or.inl ⟨h2.1, h2.2⟩
  · exact Or.inr ⟨h2.1, h2.2⟩

theorem yplainChar_props {c : Char} (h : yplainChar c = true) :
    c ≠ ':' ∧ c ≠ '\n' ∧ c ≠ '\r' ∧ c ≠ '-' := by
  have hr := yplainChar_range h
  refine ⟨?_, ?_, ?_, ?_⟩ <;>
    (intro he; rw [he] at hr; revert hr; decide)

theorem yscalarRepr_chars {v : JVal} {s : String} (h : yscalarRepr v = some s) :
    ∀ c ∈ s.data, c ≠ '\n' ∧ c ≠ '\r' := by
  cases v with
  | null =>
    have hs : s = "null" := (Option.some.inj h).symm
    subst hs
    decide
  | bool b =>
    cases b
    · have hs : s = "false" := (Option.some.inj h).symm
      subst hs
      decide
    · have hs : s = "true" := (Option.some.inj h).symm
      subst hs
      decide
  | num n =>
    have hs : s = String.mk (intRepr n) := (Option.some.inj h).symm
    subst hs
    intro c hc
    show c ≠ '\n' ∧ c ≠ '\r'
    obtain ⟨_, _, hdig, _⟩ := natDigits_spec n.natAbs
    have hmem : c ∈ intRepr n := hc
    unfold intRepr at hmem
    by_cases hneg : n < 0
    · rw [if_pos hneg] at hmem
      rcases List.mem_cons.mp hmem with hm | hm
      · subst hm
        exact ⟨by decide, by decide⟩
      · have := hdig c hm
        have h48 : 48 ≤ c.toNat ∧ c.toNat ≤ 57 := by simpa [isDigitCh] using this
        constructor <;> (intro he; rw [he] at h48; revert h48; decide)
    · rw [if_neg hneg] at hmem
      have := hdig c hmem
      have h48 : 48 ≤ c.toNat ∧ c.toNat ≤ 57 := by simpa [isDigitCh] using this
      constructor <;> (intro he; rw [he] at h48; revert h48; decide)
  | str s0 =>
    have h2 : (if yplainSafe s0 = true then some s0 else none) = some s := h
    by_cases hps : yplainSafe s0 = true
    · rw [if_pos hps] at h2
      have hs : s = s0 := (Option.some.inj h2).symm
      subst hs
      intro c hc
      have hpc : yplainChar c = true := by
        have h3 : s.data.all yplainChar = true := by
          unfold yplainSafe at hps
          rw [Bool.and_eq_true, Bool.and_eq_true] at hps
          exact hps.1.2
        exact List.all_eq_true.mp h3 c hc
      obtain ⟨_, h2, h3, _⟩ := yplainChar_props hpc
      exact ⟨h2, h3⟩
    · rw [if_neg hps] at h2
      exact absurd h2 (by simp)
  | arr xs => exact absurd h (by cases xs <;> simp [yscalarRepr])
  | obj kvs => exact absurd h (by cases kvs <;> simp [yscalarRepr])

theorem yplainSafe_parts {s : String} (h : yplainSafe s = true) :
    s.data ≠ [] ∧ (∀ c ∈ s.data, yplainChar c = true) ∧
      yamlSpecialWords.contains s = false := by
  unfold yplainSafe at h
  rw [Bool.and_eq_true, Bool.and_eq_true] at h
  refine ⟨by simpa using h.1.1, List.all_eq_true.mp h.1.2, ?_⟩
  have h2 := h.2
  rcases hx : yamlSpecialWords.contains s with _ | _
  · rfl
  · rw [hx] at h2
    exact absurd h2 (by decide)

theorem jparseNum_alpha {v : List Char} (hne : v ≠ [])
    (hall : ∀ c ∈ v, yplainChar c = true) : jparseNum v = none := by
  rcases hv : v with _ | ⟨c, t⟩
  · exact absurd hv hne
  · have hc := hall c (by rw [hv]; exact List.mem_cons_self _ _)
    have hrange := yplainChar_range hc
    have hnum : jparseNumNat (c :: t) = none := by
      unfold jparseNumNat
      rw [takeWhile_nil_of_head (p := isDigitCh) ?_]
      · rw [if_pos rfl]
      · intro c2 hc2
        have he : c2 = c := by
          injection hc2 with h2
          exact h2.symm
        subst he
        rcases Bool.eq_false_or_eq_true (isDigitCh c2) with h | h
        · have h48 : 48 ≤ c2.toNat ∧ c2.toNat ≤ 57 := by simpa [isDigitCh] using h
          omega
        · exact h
    have hcm : c ≠ '-' := (yplainChar_props hc).2.2.2
    show jparseNum (c :: t) = none
    rw [jparseNum.eq_def]
    show (if c = '-' then (jparseNumNat t).map (fun p => (-(p.1 : Int), p.2))
      else (jparseNumNat (c :: t)).map (fun p => ((p.1 : Int), p.2))) = none
    rw [if_neg hcm, hnum]
    rfl

theorem contains_false_of_not_special {s : String} {sub : List String}
    (hsub : ∀ w ∈ sub, w ∈ yamlSpecialWords)
    (h : yamlSpecialWords.contains s = false) : sub.contains s = false := by
  rcases hx : sub.contains s with _ | _
  · rfl
  · have hm : s ∈ sub := List.elem_iff.mp hx
    have hmem : s ∈ yamlSpecialWords := hsub s hm
    have hcont : yamlSpecialWords.contains s = true := List.elem_iff.mpr hmem
    exact absurd (hcont.symm.trans h) (by decide)

theorem yresolveScalar_repr {v : JVal} {s : String} (h : yscalarRepr v = some s) :
    yresolveScalar s.data = some v := by
  cases v with
  | null =>
    have hs : s = "null" := (Option.some.inj h).symm
    subst hs
    decide
  | bool b =>
    cases b
    · have hs : s = "false" := (Option.some.inj h).symm
      subst hs
      decide
    · have hs : s = "true" := (Option.some.inj h).symm
      subst hs
      decide
  | num n =>
    have hs : s = String.mk (intRepr n) := (Option.some.inj h).symm
    subst hs
    show yresolveScalar (intRepr n) = some (.num n)
    unfold yresolveScalar
    have hnum : jparseNum (intRepr n) = some (n, []) := by
      have h2 := @jparseNum_repr [] n numStop_nil
      rw [List.append_nil] at h2
      exact h2
    rw [hnum]
  | str s0 =>
    have h2 : (if yplainSafe s0 = true then some s0 else none) = some s := h
    by_cases hps : yplainSafe s0 = true
    · rw [if_pos hps] at h2
      have hs : s = s0 := (Option.some.inj h2).symm
      subst hs
      obtain ⟨hne, hall, hcon⟩ := yplainSafe_parts hps
      unfold yresolveScalar
      rw [jparseNum_alpha hne hall]
      rw [string_mk_data]
      rw [show ynullWords.contains s = false from
        contains_false_of_not_special (fun w hw => by
          unfold yamlSpecialWords
          exact List.mem_append.mpr (Or.inl (List.mem_append.mpr (Or.inl
            (List.mem_append.mpr (Or.inl hw)))))) hcon]
      rw [show ytrueWords.contains s = false from
        contains_false_of_not_special (fun w hw => by
          unfold yamlSpecialWords
          exact List.mem_append.mpr (Or.inl (List.mem_append.mpr (Or.inl
            (List.mem_append.mpr (Or.inr hw)))))) hcon]
      rw [show yfalseWords.contains s = false from
        contains_false_of_not_special (fun w hw => by
          unfold yamlSpecialWords
          exact List.mem_append.mpr (Or.inl (List.mem_append.mpr (Or.inr hw)))) hcon]
      simp only [Bool.false_eq_true, if_false]
      rw [if_pos ?_]
      rw [Bool.and_eq_true]
      exact ⟨by simpa using hne, List.all_eq_true.mpr hall⟩
    · rw [if_neg hps] at h2
      exact absurd h2 (by simp)
  | arr xs => exact absurd h (by cases xs <;> simp [yscalarRepr])
  | obj kvs => exact absurd h (by cases kvs <;> simp [yscalarRepr])

theorem yresolveKey_plain {k : String} (h : yplainSafe k = true) :
    yresolveKey k.data = some k := by
  obtain ⟨hne, hall, hcon⟩ := yplainSafe_parts h
  unfold yresolveKey
  rw [if_pos ?_]
  rw [Bool.and_eq_true, Bool.and_eq_true]
  refine ⟨⟨by simpa using hne, List.all_eq_true.mpr hall⟩, ?_⟩
  rw [string_mk_data, hcon]
  rfl

theorem ydumpLines_cons_eq (k : String) (v : JVal) (m : JObj) :
    ydumpLines (JObj.cons k v m) =
      (match yscalarRepr v, ydumpLines m with
      | some vs, some rest =>
        if yplainSafe k then some (k.data ++ ':' :: ' ' :: (vs.data ++ '\n' :: rest))
        else none
      | _, _ => none) := rfl

theorem yparseLines_succ (fuel : Nat) :
    ∀ (cs : List Char), cs ≠ [] →
    yparseLines (fuel + 1) cs =
      (match cs.dropWhile (fun c => !(c = ':' || c = '\n')) with
      | ':' :: ' ' :: rest2 =>
        match rest2.dropWhile (fun c => !(c = '\n')) with
        | '\n' :: rest3 =>
          match yresolveKey (cs.takeWhile (fun c => !(c = ':' || c = '\n'))),
                yresolveScalar (rest2.takeWhile (fun c => !(c = '\n'))),
                yparseLines fuel rest3 with
          | some k, some v, some m => some (.cons k v m)
          | _, _, _ => none
        | _ => none
      | _ => none)
  | [], hne => absurd rfl hne
  | c :: t, _ => by
    rw [yparseLines.eq_def]

theorem yparseLines_dump :
    ∀ (m : JObj) (content : List Char), ydumpLines m = some content →
    ∀ fuel : Nat, content.length < fuel → yparseLines fuel content = some m
  | .nil, content, h, fuel, hfuel => by
    have hc : content = [] := (Option.some.inj h).symm
    subst hc
    obtain ⟨g, rfl⟩ : ∃ g, fuel = g + 1 := ⟨fuel - 1, by omega⟩
    rfl
  | .cons k v m, content, h, fuel, hfuel => by
    rcases hv : yscalarRepr v with _ | vs
    · rw [ydumpLines_cons_eq, hv] at h
      exact absurd h (by simp)
    · rcases hm : ydumpLines m with _ | rest
      · rw [ydumpLines_cons_eq, hv, hm] at h
        exact absurd h (by simp)
      · rw [ydumpLines_cons_eq, hv, hm] at h
        have h2 : (if yplainSafe k = true then
            some (k.data ++ ':' :: ' ' :: (vs.data ++ '\n' :: rest)) else none) =
            some content := h
        by_cases hpk : yplainSafe k = true
        · rw [if_pos hpk] at h2
          have hc : content = k.data ++ ':' :: ' ' :: (vs.data ++ '\n' :: rest) :=
            (Option.some.inj h2).symm
          subst hc
          obtain ⟨g, rfl⟩ : ∃ g, fuel = g + 1 := ⟨fuel - 1, by omega⟩
          obtain ⟨hkne, hkall, _⟩ := yplainSafe_parts hpk
          have hkp : ∀ x ∈ k.data, (fun c => !(c = ':' || c = '\n')) x = true := by
            intro x hx
            obtain ⟨h1, h2, _, _⟩ := yplainChar_props (hkall x hx)
            simp [h1, h2]
          have htk : (k.data ++ ':' :: ' ' :: (vs.data ++ '\n' :: rest)).takeWhile
              (fun c => !(c = ':' || c = '\n')) = k.data := by
            rw [takeWhile_append_all _ hkp]
            rw [takeWhile_nil_of_head (fun c hc2 => by
              injection hc2 with h2
              subst h2
              decide)]
            rw [List.append_nil]
          have hdk : (k.data ++ ':' :: ' ' :: (vs.data ++ '\n' :: rest)).dropWhile
              (fun c => !(c = ':' || c = '\n')) = ':' :: ' ' :: (vs.data ++ '\n' :: rest) := by
            rw [dropWhile_append_all _ hkp]
            exact dropWhile_eq_self_of_head (fun c hc2 => by
              injection hc2 with h2
              subst h2
              decide)
          have hvp : ∀ x ∈ vs.data, (fun c => !(c = '\n')) x = true := by
            intro x hx
            have h3 := (yscalarRepr_chars hv x hx).1
            simp [h3]
          have htv : (vs.data ++ '\n' :: rest).takeWhile (fun c => !(c = '\n')) = vs.data := by
            rw [takeWhile_append_all _ hvp]
            rw [takeWhile_nil_of_head (fun c hc2 => by
              injection hc2 with h2
              subst h2
              decide)]
            rw [List.append_nil]
          have hdv : (vs.data ++ '\n' :: rest).dropWhile (fun c => !(c = '\n')) =
              '\n' :: rest := by
            rw [dropWhile_append_all _ hvp]
            exact dropWhile_eq_self_of_head (fun c hc2 => by
              injection hc2 with h2
              subst h2
              decide)
          have hrec := yparseLines_dump m rest hm g (by
            rw [List.length_append] at hfuel
            simp only [List.length_cons, List.length_append] at hfuel
            omega)
          have hcsne : k.data ++ ':' :: ' ' :: (vs.data ++ '\n' :: rest) ≠ [] := by
            rcases hk : k.data with _ | ⟨kc, kt⟩
            · exact absurd hk hkne
            · simp
          rw [yparseLines_succ g _ hcsne, hdk]
          show (match (vs.data ++ '\n' :: rest).dropWhile (fun c => !(c = '\n')) with
            | '\n' :: rest3 =>
              match yresolveKey ((k.data ++ ':' :: ' ' :: (vs.data ++ '\n' :: rest)).takeWhile
                    (fun c => !(c = ':' || c = '\n'))),
                  yresolveScalar ((vs.data ++ '\n' :: rest).takeWhile (fun c => !(c = '\n'))),
                  yparseLines g rest3 with
              | some k2, some v2, some m2 => some (.cons k2 v2 m2)
              | _, _, _ => none
            | _ => none) = some (JObj.cons k v m)
          rw [hdv]
          show (match yresolveKey ((k.data ++ ':' :: ' ' :: (vs.data ++ '\n' :: rest)).takeWhile
                (fun c => !(c = ':' || c = '\n'))),
              yresolveScalar ((vs.data ++ '\n' :: rest).takeWhile (fun c => !(c = '\n'))),
              yparseLines g rest with
            | some k2, some v2, some m2 => some (.cons k2 v2 m2)
            | _, _, _ => none) = some (JObj.cons k v m)
          rw [htk, htv, yresolveKey_plain hpk, yresolveScalar_repr hv, hrec]
        · rw [if_neg hpk] at h2
          exact absurd h2 (by simp)

theorem jobjHasKey_cons (k : String) (v : JVal) (m : JObj) (q : String) :
    jobjHasKey (JObj.cons k v m) q = if k = q then true else jobjHasKey m q := by
  rw [jobjHasKey.eq_def]

theorem jobjHasKey_ysortInsert (k : String) (v : JVal) :
    ∀ (m : JObj) (q : String),
      jobjHasKey (ysortInsert k v m) q = ((k = q : Bool) || jobjHasKey m q)
  | .nil, q => by
    show (if k = q then true else false) = ((k = q : Bool) || false)
    by_cases h : k = q
    · rw [if_pos h, decide_eq_true h]
      rfl
    · rw [if_neg h, decide_eq_false h]
      rfl
  | .cons q2 w m, q => by
    unfold ysortInsert
    by_cases hlt : charListLt k.data q2.data = true
    · rw [if_pos hlt]
      show (if k = q then true else jobjHasKey (JObj.cons q2 w m) q) = _
      by_cases h : k = q
      · rw [if_pos h, decide_eq_true h]
        rfl
      · rw [if_neg h, decide_eq_false h]
        rfl
    · rw [if_neg hlt]
      show (if q2 = q then true else jobjHasKey (ysortInsert k v m) q) = _
      by_cases h2 : q2 = q
      · rw [if_pos h2]
        have h3 : jobjHasKey (JObj.cons q2 w m) q = true := by
          rw [jobjHasKey_cons, if_pos h2]
        rw [h3, Bool.or_true]
      · rw [if_neg h2, jobjHasKey_ysortInsert k v m q]
        have h3 : jobjHasKey (JObj.cons q2 w m) q = jobjHasKey m q := by
          rw [jobjHasKey_cons, if_neg h2]
        rw [h3]

theorem jobjHasKey_ysort : ∀ (m : JObj) (q : String),
    jobjHasKey (ysort m) q = jobjHasKey m q
  | .nil, _ => rfl
  | .cons k v m, q => by
    show jobjHasKey (ysortInsert k v (ysort m)) q = _
    rw [jobjHasKey_ysortInsert, jobjHasKey_ysort m q]
    show _ = jobjHasKey (JObj.cons k v m) q
    rw [jobjHasKey_cons]
    by_cases h : k = q
    · rw [if_pos h, decide_eq_true h]
      rfl
    · rw [if_neg h, decide_eq_false h]
      rfl

theorem jwfObj_ysortInsert (k : String) (v : JVal) (hv : jwf v = true) :
    ∀ (m : JObj), jwfObj m = true → jobjHasKey m k = false →
      jwfObj (ysortInsert k v m) = true
  | .nil, _, _ => by
    show (!jobjHasKey JObj.nil k && jwf v && jwfObj JObj.nil) = true
    rw [hv]
    rfl
  | .cons q w m, hwf, hfr => by
    have hparts : jobjHasKey m q = false ∧ jwf w = true ∧ jwfObj m = true := by
      have h2 : (!jobjHasKey m q && jwf w && jwfObj m) = true := hwf
      rw [Bool.and_eq_true, Bool.and_eq_true] at h2
      exact ⟨by simpa using h2.1.1, h2.1.2, h2.2⟩
    have hqk : q ≠ k := by
      intro he
      have h2 : (if q = k then true else jobjHasKey m k) = false := hfr
      rw [if_pos he] at h2
      exact absurd h2 (by decide)
    have hmk : jobjHasKey m k = false := by
      have h2 : (if q = k then true else jobjHasKey m k) = false := hfr
      rw [if_neg hqk] at h2
      exact h2
    unfold ysortInsert
    by_cases hlt : charListLt k.data q.data = true
    · rw [if_pos hlt]
      show (!jobjHasKey (JObj.cons q w m) k && jwf v && jwfObj (JObj.cons q w m)) = true
      rw [Bool.and_eq_true, Bool.and_eq_true]
      exact ⟨⟨by simpa using hfr, hv⟩, hwf⟩
    · rw [if_neg hlt]
      show (!jobjHasKey (ysortInsert k v m) q && jwf w && jwfObj (ysortInsert k v m)) = true
      rw [Bool.and_eq_true, Bool.and_eq_true]
      refine ⟨⟨?_, hparts.2.1⟩, jwfObj_ysortInsert k v hv m hparts.2.2 hmk⟩
      rw [jobjHasKey_ysortInsert]
      have hkq : (k = q : Bool) = false := decide_eq_false (fun he => hqk he.symm)
      rw [hkq, hparts.1]
      rfl

theorem jwfObj_ysort : ∀ (m : JObj), jwfObj m = true → jwfObj (ysort m) = true
  | .nil, _ => rfl
  | .cons k v m, hwf => by
    have hparts : jobjHasKey m k = false ∧ jwf v = true ∧ jwfObj m = true := by
      have h2 : (!jobjHasKey m k && jwf v && jwfObj m) = true := hwf
      rw [Bool.and_eq_true, Bool.and_eq_true] at h2
      exact ⟨by simpa using h2.1.1, h2.1.2, h2.2⟩
    show jwfObj (ysortInsert k v (ysort m)) = true
    refine jwfObj_ysortInsert k v hparts.2.1 (ysort m) (jwfObj_ysort m hparts.2.2) ?_
    rw [jobjHasKey_ysort]
    exact hparts.1

theorem jobjGet_ysortInsert_fresh (k : String) (v : JVal) :
    ∀ (m : JObj) (q : String), jobjHasKey m k = false →
      jobjGet (ysortInsert k v m) q = if k = q then some v else jobjGet m q
  | .nil, q, _ => rfl
  | .cons q2 w m, q, hfr => by
    have hqk : q2 ≠ k := by
      intro he
      have h2 : (if q2 = k then true else jobjHasKey m k) = false := hfr
      rw [if_pos he] at h2
      exact absurd h2 (by decide)
    have hmk : jobjHasKey m k = false := by
      have h2 : (if q2 = k then true else jobjHasKey m k) = false := hfr
      rw [if_neg hqk] at h2
      exact h2
    unfold ysortInsert
    by_cases hlt : charListLt k.data q2.data = true
    · rw [if_pos hlt]
      rfl
    · rw [if_neg hlt]
      show (if q2 = q then some w else jobjGet (ysortInsert k v m) q) = _
      by_cases h2 : q2 = q
      · rw [if_pos h2]
        have hkq : k ≠ q := fun he => hqk (by rw [he, h2])
        rw [if_neg hkq]
        show _ = (if q2 = q then some w else jobjGet m q)
        rw [if_pos h2]
      · rw [if_neg h2, jobjGet_ysortInsert_fresh k v m q hmk]
        show _ = (if k = q then some v else if q2 = q then some w else jobjGet m q)
        rw [if_neg h2]

theorem jobjGet_ysort : ∀ (m : JObj), jwfObj m = true →
    ∀ q, jobjGet (ysort m) q = jobjGet m q
  | .nil, _, _ => rfl
  | .cons k v m, hwf, q => by
    have hparts : jobjHasKey m k = false ∧ jwf v = true ∧ jwfObj m = true := by
      have h2 : (!jobjHasKey m k && jwf v && jwfObj m) = true := hwf
      rw [Bool.and_eq_true, Bool.and_eq_true] at h2
      exact ⟨by simpa using h2.1.1, h2.1.2, h2.2⟩
    show jobjGet (ysortInsert k v (ysort m)) q = _
    rw [jobjGet_ysortInsert_fresh k v (ysort m) q (by
      rw [jobjHasKey_ysort]
      exact hparts.1)]
    rw [jobjGet_ysort m hparts.2.2 q]
    show _ = (if k = q then some v else jobjGet m q)
    rfl

theorem ydumpLines_noCR : ∀ (m : JObj) (content : List Char),
    ydumpLines m = some content → '\r' ∉ content
  | .nil, content, h => by
    have hc : content = [] := (Option.some.inj h).symm
    subst hc
    simp
  | .cons k v m, content, h => by
    rcases hv : yscalarRepr v with _ | vs
    · rw [ydumpLines_cons_eq, hv] at h
      exact absurd h (by simp)
    · rcases hm : ydumpLines m with _ | rest
      · rw [ydumpLines_cons_eq, hv, hm] at h
        exact absurd h (by simp)
      · rw [ydumpLines_cons_eq, hv, hm] at h
        have h2 : (if yplainSafe k = true then
            some (k.data ++ ':' :: ' ' :: (vs.data ++ '\n' :: rest)) else none) =
            some content := h
        by_cases hpk : yplainSafe k = true
        · rw [if_pos hpk] at h2
          have hc : content = k.data ++ ':' :: ' ' :: (vs.data ++ '\n' :: rest) :=
            (Option.some.inj h2).symm
          subst hc
          obtain ⟨_, hkall, _⟩ := yplainSafe_parts hpk
          intro hmem
          rcases List.mem_append.mp hmem with hm2 | hm2
          · exact (yplainChar_props (hkall _ hm2)).2.2.1 rfl
          · rcases List.mem_cons.mp hm2 with hm3 | hm3
            · exact absurd hm3 (by decide)
            · rcases List.mem_cons.mp hm3 with hm4 | hm4
              · exact absurd hm4 (by decide)
              · rcases List.mem_append.mp hm4 with hm5 | hm5
                · exact (yscalarRepr_chars hv _ hm5).2 rfl
                · rcases List.mem_cons.mp hm5 with hm6 | hm6
                  · exact absurd hm6 (by decide)
                  · exact ydumpLines_noCR m rest hm hm6
        · rw [if_neg hpk] at h2
          exact absurd h2 (by simp)

theorem ysortInsert_cons (k : String) (v : JVal) :
    ∀ m : JObj, ∃ a b c, ysortInsert k v m = JObj.cons a b c
  | .nil => ⟨k, v, .nil, rfl⟩
  | .cons q w m => by
    unfold ysortInsert
    by_cases hlt : charListLt k.data q.data = true
    · rw [if_pos hlt]
      exact ⟨k, v, _, rfl⟩
    · rw [if_neg hlt]
      exact ⟨q, w, _, rfl⟩

theorem read_yaml_after_write_yaml {fs fs2 : FS} {p : String} {data : JObj}
    (hwf : jwfObj data = true)
    (hw : write_yaml fs p data = some (fs2, none)) :
    read_yaml fs2 p = .ok (.obj (ysort data)) := by
  unfold write_yaml at hw
  rcases ho : openWrite fs p with _ | e
  · rw [ho] at hw
    rcases hd : ydump data with _ | s
    · rw [hd] at hw
      exact absurd hw (by simp)
    · rw [hd] at hw
      have hw2 : some (setFile fs p s, (none : Option FileError)) = some (fs2, none) := hw
      have hfs2 : fs2 = setFile fs p s := by
        have h2 := congrArg Prod.fst (Option.some.inj hw2)
        exact h2.symm
      subst hfs2
      unfold read_yaml
      unfold setFile
      rw [show openRead (setFileC fs p (.text s)) p = .ok (.text s) from by
        unfold openRead
        rw [fsLookup_setFileC]]
      show (match yamlLoads (univNewlines s) with
        | some v => Except.ok v
        | none => Except.error (FileError.ParseError ("YAML解析失败: " ++ p))) =
        Except.ok (JVal.obj (ysort data))
      cases data with
      | nil =>
        have hs : s = String.mk ['\x7b', '\x7d', '\n'] := (Option.some.inj hd).symm
        subst hs
        rw [show yamlLoads (univNewlines (String.mk ['\x7b', '\x7d', '\n'])) =
          some (.obj .nil) from by decide]
        rfl
      | cons k v m =>
        have hdl0 : (ydumpLines (ysort (JObj.cons k v m))).map String.mk = some s := hd
        rcases hdl : ydumpLines (ysort (JObj.cons k v m)) with _ | content
        · rw [hdl] at hdl0
          exact absurd hdl0 (by simp)
        · rw [hdl] at hdl0
          have hdl1 : some (String.mk content) = some s := hdl0
          have hs : s = String.mk content := (Option.some.inj hdl1).symm
          subst hs
          -- the document has no carriage return, so the text-mode read is the identity
          have hnocr := ydumpLines_noCR _ _ hdl
          have huniv : univNewlines (String.mk content) = String.mk content := by
            unfold univNewlines
            show String.mk (univNL content) = _
            rw [univNL_eq_self _ hnocr]
          rw [huniv]
          -- the document is not the empty-mapping flow document
          obtain ⟨k2, v2, m2, hsi⟩ := ysortInsert_cons k v (ysort m)
          have hsortc : ysort (JObj.cons k v m) = JObj.cons k2 v2 m2 := hsi
          rw [hsortc] at hdl
          rcases hv2 : yscalarRepr v2 with _ | vs
          · rw [ydumpLines_cons_eq, hv2] at hdl
            exact absurd hdl (by simp)
          · rcases hm2 : ydumpLines m2 with _ | rest
            · rw [ydumpLines_cons_eq, hv2, hm2] at hdl
              exact absurd hdl (by simp)
            · rw [ydumpLines_cons_eq, hv2, hm2] at hdl
              have h3 : (if yplainSafe k2 = true then
                  some (k2.data ++ ':' :: ' ' :: (vs.data ++ '\n' :: rest)) else none) =
                  some content := hdl
              by_cases hpk : yplainSafe k2 = true
              · rw [if_pos hpk] at h3
                have hc : content = k2.data ++ ':' :: ' ' :: (vs.data ++ '\n' :: rest) :=
                  (Option.some.inj h3).symm
                obtain ⟨hkne, hkall, _⟩ := yplainSafe_parts hpk
                have hnotbr : content ≠ ['\x7b', '\x7d', '\n'] := by
                  rcases hk : k2.data with _ | ⟨kc, kt⟩
                  · exact absurd hk hkne
                  · intro he
                    rw [hc, hk, List.cons_append] at he
                    injection he with g1 _
                    have := yplainChar_range (hkall kc (by
                      rw [hk]; exact List.mem_cons_self _ _))
                    rw [g1] at this
                    revert this
                    decide
                unfold yamlLoads
                rw [show (String.mk content).data = content from rfl]
                rw [if_neg hnotbr]
                rw [yparseLines_dump (JObj.cons k2 v2 m2) content (by
                  rw [ydumpLines_cons_eq, hv2, hm2]
                  show (if yplainSafe k2 = true then
                      some (k2.data ++ ':' :: ' ' :: (vs.data ++ '\n' :: rest))
                    else none) = some content
                  rw [if_pos hpk, hc]) (content.length + 1) (by omega)]
                show Except.ok (JVal.obj (jobjDedup (JObj.cons k2 v2 m2))) =
                  Except.ok (JVal.obj (ysort (JObj.cons k v m)))
                rw [← hsortc]
                rw [jobjDedup_wf (jwfObj_ysort _ hwf)]
              · rw [if_neg hpk] at h3
                exact absurd h3 (by simp)
  · rw [ho] at hw
    have h2 := congrArg Prod.snd (Option.some.inj hw)
    exact absurd h2 (by simp)

/-! ### C1: uniform error classification of the five readers -/

/-- C1: for every filesystem state and path, each of the five readers
(`read_text`, `read_lines`, `read_json`, `read_csv`, `read_yaml`) fails with
`NotFound` when the path does not exist, fails with `IOFailure` when the entry
is a directory or an otherwise unreadable entry, fails with `ParseError` when
the bytes cannot be decoded in the character encoding, and on decodable text
fails only with the per-format `ParseError` (JSON/YAML parse failure; the csv
reader accepts every text); every failure is a bare error value, never a
partial result. -/
theorem c1_reader_errors (fs : FS) (p : String) :
    (fsLookup fs p = none →
      read_text fs p = .error (.NotFound ("文件不存在: " ++ p)) ∧
      read_lines fs p = .error (.NotFound ("文件不存在: " ++ p)) ∧
      read_json fs p = .error (.NotFound ("文件不存在: " ++ p)) ∧
      read_csv fs p ',' = .error (.NotFound ("文件不存在: " ++ p)) ∧
      read_yaml fs p = .error (.NotFound ("文件不存在: " ++ p))) ∧
    ((fsLookup fs p = some .dir ∨ fsLookup fs p = some .blocked) →
      read_text fs p = .error (.IOFailure ("读取文件失败: " ++ p)) ∧
      read_lines fs p = .error (.IOFailure ("读取文件失败: " ++ p)) ∧
      read_json fs p = .error (.IOFailure ("读取文件失败: " ++ p)) ∧
      read_csv fs p ',' = .error (.IOFailure ("读取文件失败: " ++ p)) ∧
      read_yaml fs p = .error (.IOFailure ("读取文件失败: " ++ p))) ∧
    (fsLookup fs p = some (.file .binary) →
      read_text fs p = .error (.ParseError ("'utf-8' codec can't decode byte: " ++ p)) ∧
      read_lines fs p = .error (.ParseError ("'utf-8' codec can't decode byte: " ++ p)) ∧
      read_json fs p = .error (.ParseError ("'utf-8' codec can't decode byte: " ++ p)) ∧
      read_csv fs p ',' = .error (.ParseError ("'utf-8' codec can't decode byte: " ++ p)) ∧
      read_yaml fs p = .error (.ParseError ("'utf-8' codec can't decode byte: " ++ p))) ∧
    (∀ s, fsLookup fs p = some (.file (.text s)) →
      read_text fs p = .ok (univNewlines s) ∧
      read_lines fs p = .ok ((splitLinesKeep (univNL s.data)).map String.mk) ∧
      (∃ rows, read_csv fs p ',' = .ok rows) ∧
      ((∃ v, read_json fs p = .ok v) ∨
        read_json fs p = .error (.ParseError ("JSON解析失败: " ++ p))) ∧
      ((∃ v, read_yaml fs p = .ok v) ∨
        read_yaml fs p = .error (.ParseError ("YAML解析失败: " ++ p)))) := by
  refine ⟨?_, ?_, ?_, ?_⟩
  · intro h
    unfold read_text read_lines read_json read_csv read_yaml openRead
    rw [h]
    exact ⟨rfl, rfl, rfl, rfl, rfl⟩
  · intro h
    rcases h with h | h <;>
    · unfold read_text read_lines read_json read_csv read_yaml openRead
      rw [h]
      exact ⟨rfl, rfl, rfl, rfl, rfl⟩
  · intro h
    unfold read_text read_lines read_json read_csv read_yaml openRead
    rw [h]
    exact ⟨rfl, rfl, rfl, rfl, rfl⟩
  · intro s h
    refine ⟨?_, ?_, ?_, ?_, ?_⟩
    · unfold read_text openRead
      rw [h]
    · unfold read_lines openRead
      rw [h]
    · rcases hcr : csvRecords ',' (s.data.length + 2) s.data with _ | ⟨header, recs⟩
      · refine ⟨[], ?_⟩
        unfold read_csv openRead
        rw [h]
        show (match csvRecords ',' (s.data.length + 2) s.data with
          | [] => (Except.ok [] : Except FileError (List CsvRow))
          | header :: recs => Except.ok ((recs.filter (fun r => r ≠ [])).map
              (fun r => dictRowOf (header.map String.mk) (r.map String.mk)))) =
          Except.ok []
        rw [hcr]
      · refine ⟨(recs.filter (fun r => r ≠ [])).map
          (fun r => dictRowOf (header.map String.mk) (r.map String.mk)), ?_⟩
        unfold read_csv openRead
        rw [h]
        show (match csvRecords ',' (s.data.length + 2) s.data with
          | [] => (Except.ok [] : Except FileError (List CsvRow))
          | header :: recs => Except.ok ((recs.filter (fun r => r ≠ [])).map
              (fun r => dictRowOf (header.map String.mk) (r.map String.mk)))) =
          Except.ok ((recs.filter (fun r => r ≠ [])).map
            (fun r => dictRowOf (header.map String.mk) (r.map String.mk)))
        rw [hcr]
    · rcases hj : jsonLoads (univNewlines s) with _ | v
      · right
        unfold read_json openRead
        rw [h]
        show (match jsonLoads (univNewlines s) with
          | some v => (Except.ok v : Except FileError JVal)
          | none => Except.error (FileError.ParseError ("JSON解析失败: " ++ p))) =
          Except.error (FileError.ParseError ("JSON解析失败: " ++ p))
        rw [hj]
      · left
        refine ⟨v, ?_⟩
        unfold read_json openRead
        rw [h]
        show (match jsonLoads (univNewlines s) with
          | some v => (Except.ok v : Except FileError JVal)
          | none => Except.error (FileError.ParseError ("JSON解析失败: " ++ p))) =
          Except.ok v
        rw [hj]
    · rcases hy : yamlLoads (univNewlines s) with _ | v
      · right
        unfold read_yaml openRead
        rw [h]
        show (match yamlLoads (univNewlines s) with
          | some v => (Except.ok v : Except FileError JVal)
          | none => Except.error (FileError.ParseError ("YAML解析失败: " ++ p))) =
          Except.error (FileError.ParseError ("YAML解析失败: " ++ p))
        rw [hy]
      · left
        refine ⟨v, ?_⟩
        unfold read_yaml openRead
        rw [h]
        show (match yamlLoads (univNewlines s) with
          | some v => (Except.ok v : Except FileError JVal)
          | none => Except.error (FileError.ParseError ("YAML解析失败: " ++ p))) =
          Except.ok v
        rw [hy]

theorem c1_reader_errors_witness :
    read_text [("d", Entry.dir)] "x" = .error (.NotFound ("文件不存在: " ++ "x")) ∧
    read_json [("d", Entry.dir)] "d" = .error (.IOFailure ("读取文件失败: " ++ "d")) ∧
    read_csv [("b", Entry.file .binary)] "b" ',' =
      .error (.ParseError ("'utf-8' codec can't decode byte: " ++ "b")) ∧
    read_text [("t", Entry.file (.text "hi"))] "t" = .ok (univNewlines "hi") :=
  ⟨((c1_reader_errors [("d", Entry.dir)] "x").1 (by decide)).1,
   ((c1_reader_errors [("d", Entry.dir)] "d").2.1 (Or.inl (by decide))).2.2.1,
   ((c1_reader_errors [("b", Entry.file .binary)] "b").2.2.1 (by decide)).2.2.2.1,
   ((c1_reader_errors [("t", Entry.file (.text "hi"))] "t").2.2.2 "hi" (by decide)).1⟩

/-! ### C3: the three write/read round trips -/

/-- C3 counterexample: an empty rows list trivially has all-string values, yet
`write_csv` rejects it with `InvalidArgument` before touching the filesystem,
so reading the path back fails with `NotFound` instead of returning the rows —
the CSV clause of the round-trip claim is false as stated. -/
theorem c3_counterexample :
    write_csv [] "t.csv" [] none ',' =
      ([], some (.InvalidArgument "数据不能为空")) ∧
    read_csv (write_csv [] "t.csv" [] none ',').1 "t.csv" ',' =
      .error (.NotFound ("文件不存在: " ++ "t.csv")) := by
  exact ⟨by decide, by decide⟩

/-- C3 (amended): the three round trips, each under the conditions its writer
imposes.  JSON: for a well-formed record (`jwfObj`: string keys without
duplicates), a successful `write_json` followed by `read_json` returns exactly
the record.  CSV: when the rows are non-empty, the resolved fieldnames are
non-empty and duplicate-free, every row has exactly the fieldnames as its
keys, and the delimiter is none of `'"'`, CR, LF, a successful `write_csv`
followed by `read_csv` returns the same rows (each value a string attached to
its key).  YAML: on the modeled plain-scalar fragment, a successful
`write_yaml` followed by `read_yaml` returns the record with its keys
re-sorted (`yaml.dump` sorts keys), an equal mapping: every key is bound to
the same value as in the original. -/
theorem c3_roundtrip :
    (∀ (fs fs2 : FS) (p : String) (data : JObj) (indent : Nat),
      jwfObj data = true →
      write_json fs p data indent = (fs2, none) →
      read_json fs2 p = .ok (.obj data)) ∧
    (∀ (fs fs2 : FS) (p : String) (d : Char)
        (rows : List (List (String × String))) (fieldnames : Option (List String)),
      d ≠ '"' → d ≠ '\r' → d ≠ '\n' →
      rows ≠ [] →
      (resolveFieldnames rows fieldnames).Nodup →
      resolveFieldnames rows fieldnames ≠ [] →
      (∀ r ∈ rows, r.map Prod.fst = resolveFieldnames rows fieldnames) →
      write_csv fs p rows fieldnames d = (fs2, none) →
      read_csv fs2 p d = .ok (rows.map (fun r =>
        ⟨r.map (fun kv => (kv.1, some kv.2)), none⟩))) ∧
    (∀ (fs fs2 : FS) (p : String) (data : JObj),
      jwfObj data = true →
      write_yaml fs p data = some (fs2, none) →
      read_yaml fs2 p = .ok (.obj (ysort data)) ∧
      ∀ q, jobjGet (ysort data) q = jobjGet data q) := by
  refine ⟨?_, ?_, ?_⟩
  · intro fs fs2 p data indent hwf hw
    exact read_json_after_write_json hwf hw
  · intro fs fs2 p d rows fieldnames hdq hdr hdn hrne hfnd hfne hkeys hw
    exact read_csv_after_write_csv hdq hdr hdn hrne hfnd hfne hkeys hw
  · intro fs fs2 p data hwf hw
    exact ⟨read_yaml_after_write_yaml hwf hw, jobjGet_ysort data hwf⟩

theorem c3_roundtrip_witness :
    read_json (write_json [] "d.json" c8R 4).1 "d.json" = .ok (.obj c8R) ∧
    read_csv (write_csv [] "d.csv" [[("a", "1")]] none ',').1 "d.csv" ',' =
      .ok [⟨[("a", some "1")], none⟩] ∧
    read_yaml ((write_yaml [] "d.yaml"
        (JObj.cons "b" (.num 2) (JObj.cons "a" (.str "hello") .nil))).getD
        ([], none)).1 "d.yaml" =
      .ok (.obj (ysort (JObj.cons "b" (.num 2) (JObj.cons "a" (.str "hello") .nil)))) ∧
    jobjGet (ysort (JObj.cons "b" (.num 2) (JObj.cons "a" (.str "hello") .nil))) "a" =
      jobjGet (JObj.cons "b" (.num 2) (JObj.cons "a" (.str "hello") .nil)) "a" :=
  ⟨c3_roundtrip.1 [] (write_json [] "d.json" c8R 4).1 "d.json" c8R 4
      (by decide) (by decide),
   c3_roundtrip.2.1 [] (write_csv [] "d.csv" [[("a", "1")]] none ',').1 "d.csv" ','
      [[("a", "1")]] none (by decide) (by decide) (by decide) (by decide)
      (by decide) (by decide) (by decide) (by decide),
   (c3_roundtrip.2.2 [] ((write_yaml [] "d.yaml"
        (JObj.cons "b" (.num 2) (JObj.cons "a" (.str "hello") .nil))).getD
        ([], none)).1 "d.yaml"
      (JObj.cons "b" (.num 2) (JObj.cons "a" (.str "hello") .nil))
      (by decide) (by decide)).1,
   (c3_roundtrip.2.2 [] ((write_yaml [] "d.yaml"
        (JObj.cons "b" (.num 2) (JObj.cons "a" (.str "hello") .nil))).getD
        ([], none)).1 "d.yaml"
      (JObj.cons "b" (.num 2) (JObj.cons "a" (.str "hello") .nil))
      (by decide) (by decide)).2 "a"⟩
